import Mathlib

/-!
Proof-of-work core: 256-bit arithmetic, compact targets, block index, difficulty

A shallow embedding of `arith_uint256.cpp`, `chain.cpp` and `pow.cpp`.

* `base_uint<256>` is a list `pn` of `WIDTH = 8` limbs, least significant first, every
  limb a 32-bit word.  Loops over the limbs are folds over `List.range WIDTH` (or structural
  recursions counting the loop variable down), `uint32_t`/`uint64_t` arithmetic is `Nat`
  arithmetic with an explicit `% 2 ^ 32` / `% 2 ^ 64` wherever the C++ type truncates.
* A failed `assert` or a thrown `uint_error` is the result `none`.
* The block tree is an arena (a list of `CBlockIndex` records); a pointer is an
  `Option Nat` (`none` is `nullptr`).
-/

set_option maxRecDepth 100000
set_option linter.unusedVariables false

/-! ## base_uint<256> (arith_uint256.cpp) -/

namespace base_uint

/-- Number of 32-bit limbs of `base_uint<256>` (`WIDTH = BITS / 32`). -/
def WIDTH : Nat := 8

/-- The number denoted by a limb list, least significant limb first. -/
def toNat : List Nat → Nat
  | [] => 0
  | x :: xs => x + 2 ^ 32 * toNat xs

/-- Representation invariant of `base_uint<256>`: `WIDTH` limbs, each a `uint32_t`. -/
def WF (a : List Nat) : Prop := a.length = WIDTH ∧ ∀ x ∈ a, x < 2 ^ 32

instance (a : List Nat) : Decidable (WF a) := by
  unfold WF; infer_instance

/-- The loop `for (int i = 0; i < WIDTH; i++) pn[i] = 0;`. -/
def clear (pn : List Nat) : List Nat :=
  (List.range WIDTH).foldl (fun pn i => pn.set i 0) pn

/-- Source function `base_uint::operator<<=(unsigned int shift)`. -/
def shl (self : List Nat) (shift : Nat) : List Nat :=
  let a := self
  let pn := clear self
  let k := shift / 32
  let shift := shift % 32
  (List.range WIDTH).foldl (fun pn i =>
    let pn :=
      if i + k + 1 < WIDTH ∧ shift ≠ 0 then
        pn.set (i + k + 1) (pn.getD (i + k + 1) 0 ||| (a.getD i 0 >>> (32 - shift)))
      else pn
    if i + k < WIDTH then
      pn.set (i + k) (pn.getD (i + k) 0 ||| ((a.getD i 0 <<< shift) % 2 ^ 32))
    else pn) pn

/-- Source function `base_uint::operator>>=(unsigned int shift)`; the signed tests `i - k - 1 >= 0` and
`i - k >= 0` are `k + 1 ≤ i` and `k ≤ i`. -/
def shr (self : List Nat) (shift : Nat) : List Nat :=
  let a := self
  let pn := clear self
  let k := shift / 32
  let shift := shift % 32
  (List.range WIDTH).foldl (fun pn i =>
    let pn :=
      if k + 1 ≤ i ∧ shift ≠ 0 then
        pn.set (i - k - 1) (pn.getD (i - k - 1) 0 ||| ((a.getD i 0 <<< (32 - shift)) % 2 ^ 32))
      else pn
    if k ≤ i then
      pn.set (i - k) (pn.getD (i - k) 0 ||| (a.getD i 0 >>> shift))
    else pn) pn

/-- Source function `base_uint::operator*=(uint32_t b32)`: the state of the loop is `(pn, carry)`, and
`n` is a `uint64_t`. -/
def mulWord (self : List Nat) (b32 : Nat) : List Nat :=
  ((List.range WIDTH).foldl (fun (st : List Nat × Nat) i =>
    let n := (st.2 + b32 * st.1.getD i 0) % 2 ^ 64
    (st.1.set i (n &&& 0xffffffff), n >>> 32)) (self, 0)).1

/-- The inner loop of `base_uint::bits`: `for (nbits = 31; nbits > 0; nbits--)`, entered
with the loop variable as the last argument. -/
def bitsWord (w pos : Nat) : Nat → Nat
  | 0 => 32 * pos + 1
  | nbits + 1 =>
    if w &&& (1 <<< (nbits + 1)) ≠ 0 then 32 * pos + (nbits + 1) + 1
    else bitsWord w pos nbits

/-- The outer loop of `base_uint::bits`: `for (pos = WIDTH - 1; pos >= 0; pos--)`; the
last argument is `pos + 1`. -/
def bitsFrom (pn : List Nat) : Nat → Nat
  | 0 => 0
  | pos + 1 =>
    if pn.getD pos 0 ≠ 0 then bitsWord (pn.getD pos 0) pos 31
    else bitsFrom pn pos

/-- Source function `base_uint::bits`: position of the highest set bit plus one, 0 for zero. -/
def bits (self : List Nat) : Nat := bitsFrom self WIDTH

/-- The loop of `base_uint::CompareTo`: `for (i = WIDTH - 1; i >= 0; i--)`; the last
argument is `i + 1`. -/
def CompareFrom (pn b : List Nat) : Nat → Int
  | 0 => 0
  | i + 1 =>
    if pn.getD i 0 < b.getD i 0 then -1
    else if pn.getD i 0 > b.getD i 0 then 1
    else CompareFrom pn b i

/-- Source function `base_uint::CompareTo`. -/
def CompareTo (self b : List Nat) : Int := CompareFrom self b WIDTH

/-- The loop of `base_uint::EqualTo`: `for (i = WIDTH - 1; i >= 2; i--) if (pn[i]) return
false;` as the conjunction over `i`. -/
def highLimbsZero (pn : List Nat) : Bool :=
  ((List.range (WIDTH - 2)).map (fun j => j + 2)).all (fun i => pn.getD i 0 == 0)

/-- Source function `base_uint::EqualTo(uint64_t b)`. -/
def EqualTo (self : List Nat) (b : Nat) : Bool :=
  if ¬ highLimbsZero self then false
  else if self.getD 1 0 ≠ b >>> 32 then false
  else if self.getD 0 0 ≠ b &&& 0xffffffff then false
  else true

/-- Modelled from the spec: the constructor and assignment from a `uint64_t` of the absent
header `arith_uint256.h` (limb 0 is the low word, limb 1 the high word, the rest zero). -/
def ofUInt64 (b : Nat) : List Nat :=
  (b % 2 ^ 32) :: (b / 2 ^ 32 % 2 ^ 32) :: List.replicate (WIDTH - 2) 0

/-- The `base_uint<256>` denoting `n` modulo `2 ^ 256`. -/
def ofNat (n : Nat) : List Nat :=
  (List.range WIDTH).map (fun i => n / 2 ^ (32 * i) % 2 ^ 32)

/-- Modelled from the spec: `GetLow64` of the absent header `arith_uint256.h`, the low two
limbs as a `uint64_t`. -/
def GetLow64 (self : List Nat) : Nat := self.getD 0 0 ||| (self.getD 1 0 <<< 32)

/-- Modelled from the spec: `operator-=` of the absent header `arith_uint256.h`,
subtraction modulo `2 ^ 256`. -/
def sub (self b : List Nat) : List Nat :=
  ofNat ((toNat self + (2 ^ 256 - toNat b % 2 ^ 256)) % 2 ^ 256)

/-- Modelled from the spec: `operator+` of the absent header `arith_uint256.h`, addition
modulo `2 ^ 256`. -/
def add (self b : List Nat) : List Nat :=
  ofNat ((toNat self + toNat b) % 2 ^ 256)

/-- Modelled from the spec: `operator~` of the absent header `arith_uint256.h`, the
bitwise complement of every limb. -/
def compl (self : List Nat) : List Nat :=
  self.map (fun w => 2 ^ 32 - 1 - w % 2 ^ 32)

/-- The loop of `base_uint::operator/=`: `while (shift >= 0) { ...; shift--; }`; the last
argument is `shift + 1`, the state is `(num, div, pn)` and the result the quotient `pn`. -/
def divLoop (num div pn : List Nat) : Nat → List Nat
  | 0 => pn
  | shift + 1 =>
    if CompareTo num div ≥ 0 then
      divLoop (sub num div) (shr div 1)
        (pn.set (shift / 32) (pn.getD (shift / 32) 0 ||| ((1 <<< (shift &&& 31)) % 2 ^ 32)))
        shift
    else
      divLoop num (shr div 1) pn shift

/-- Source function `base_uint::operator/=`; `none` is the thrown `uint_error("Division by zero")`. -/
def div (self b : List Nat) : Option (List Nat) :=
  let div := b
  let num := self
  let pn := ofUInt64 0
  let num_bits := bits num
  let div_bits := bits div
  if div_bits = 0 then none
  else if div_bits > num_bits then some pn
  else
    let shift := num_bits - div_bits
    some (divLoop num (shl div shift) pn (shift + 1))

end base_uint

/-! ## Compact targets and `uint256` conversion (arith_uint256.cpp) -/

/-- Representation invariant of `uint256`: 32 bytes. -/
def uint256.WF (a : List Nat) : Prop := a.length = 32 ∧ ∀ x ∈ a, x < 2 ^ 8

instance (a : List Nat) : Decidable (uint256.WF a) := by
  unfold uint256.WF; infer_instance

/-- The number a `uint256` denotes: its 32 bytes read little-endian. -/
def uint256.toNat : List Nat → Nat
  | [] => 0
  | x :: xs => x + 2 ^ 8 * uint256.toNat xs

/-- Modelled from the spec: `ReadLE32` of the absent header `crypto/common.h`, the four
bytes at `off` read as a little-endian 32-bit word. -/
def ReadLE32 (data : List Nat) (off : Nat) : Nat :=
  (data.getD off 0 + 2 ^ 8 * data.getD (off + 1) 0 + 2 ^ 16 * data.getD (off + 2) 0
    + 2 ^ 24 * data.getD (off + 3) 0) % 2 ^ 32

/-- Source function `UintToArith256`: limb `x` is the little-endian word at byte offset `4 * x`. -/
def UintToArith256 (a : List Nat) : List Nat :=
  (List.range base_uint.WIDTH).foldl (fun b x => b.set x (ReadLE32 a (x * 4)))
    (base_uint.ofUInt64 0)

namespace arith_uint256

/-- What `SetCompact` leaves behind: the value of `*this` and the two output flags. -/
structure Decoded where
  value : List Nat
  fNegative : Bool
  fOverflow : Bool
deriving DecidableEq, Repr

/-- Source function `arith_uint256::SetCompact(nBits, &fNegative, &fOverflow)`.  The local `mantissa` is
overwritten by its shifted value in the branch `exponent <= 3`, and the flags read that
local afterwards. -/
def SetCompact (nBits : Nat) : Decoded :=
  let exponent := nBits >>> 24
  let mantissa := nBits &&& 0x007fffff
  let st : List Nat × Nat :=
    if exponent ≤ 3 then
      let mantissa := mantissa >>> (8 * (3 - exponent))
      (base_uint.ofUInt64 mantissa, mantissa)
    else
      (base_uint.shl (base_uint.ofUInt64 mantissa) (8 * (exponent - 3)), mantissa)
  let mantissa := st.2
  { value := st.1
    fNegative := mantissa ≠ 0 && (nBits &&& 0x00800000) ≠ 0
    fOverflow := mantissa ≠ 0 && (exponent > 34 ||
                                  (mantissa > 0xff && exponent > 33) ||
                                  (mantissa > 0xffff && exponent > 32)) }

/-- Source function `arith_uint256::GetCompact(fNegative)`; `nBtis` is a `uint32_t`, `GetLow64()` a
`uint64_t`.  `none` is a failed `assert`. -/
def GetCompact (self : List Nat) (fNegative : Bool) : Option Nat :=
  let exponent := (base_uint.bits self + 7) / 8
  let nBtis :=
    if exponent ≤ 3 then
      ((base_uint.GetLow64 self <<< (8 * (3 - exponent))) % 2 ^ 64) % 2 ^ 32
    else
      base_uint.GetLow64 (base_uint.shr self (8 * (exponent - 3))) % 2 ^ 32
  let st : Nat × Nat :=
    if nBtis &&& 0x00800000 ≠ 0 then (nBtis >>> 8, exponent + 1) else (nBtis, exponent)
  let nBtis := st.1
  let exponent := st.2
  if nBtis &&& 0xff800000 ≠ 0 then none
  else if ¬ exponent < 256 then none
  else
    let nBtis := nBtis ||| ((exponent <<< 24) % 2 ^ 32)
    let nBtis := nBtis ||| (if fNegative ∧ (nBtis &&& 0x007fffff) ≠ 0 then 0x00800000 else 0)
    some nBtis

end arith_uint256

/-! ## Block index and skip list (chain.cpp) -/

/-- Modelled from the spec: the fields of `CBlockIndex` (absent header `chain.h`) that the
code under study reads.  `pprev` and `pskip` are handles into the arena, `nHeight` is an
`int`, `nBits` and `nTime` are `uint32_t`. -/
structure CBlockIndex where
  pprev : Option Nat
  pskip : Option Nat
  nHeight : Int
  nBits : Nat
  nTime : Nat
  hash : Nat
deriving DecidableEq, Repr

/-- Modelled from the spec: `CBlockIndex::GetBlockTime` of the absent header `chain.h`,
the `uint32_t` timestamp as an `int64_t`. -/
def CBlockIndex.GetBlockTime (b : CBlockIndex) : Int := (b.nTime : Int)

/-- The operator `&` on `int`: bitwise AND in two's complement, where `-(m + 1)` is the
complement of `m`. -/
def intAnd : Int → Int → Int
  | Int.ofNat m, Int.ofNat n => Int.ofNat (m &&& n)
  | Int.ofNat m, Int.negSucc n => Int.ofNat (m - (m &&& n))
  | Int.negSucc m, Int.ofNat n => Int.ofNat (n - (n &&& m))
  | Int.negSucc m, Int.negSucc n => Int.negSucc (m ||| n)

/-- Source function `InvertLowestOne`: `n & (n - 1)` on `int`. -/
def InvertLowestOne (n : Int) : Int := intAnd n (n - 1)

/-- Source function `GetSkipHeight`. -/
def GetSkipHeight (height : Int) : Int :=
  if height < 2 then 0
  else if intAnd height 1 ≠ 0 then InvertLowestOne (InvertLowestOne (height - 1)) + 1
  else InvertLowestOne height

namespace CBlockIndex

/-- The loop of `CBlockIndex::GetAncestor`, with state `(pindexWalk, heightWalk)`.  Every
iteration lowers `heightWalk`, so `fuel` bounds the number of iterations; the outer `none`
is the failed `assert(pindexWalk->pprev)` (or a handle outside the arena, or no fuel),
the inner option is the returned pointer. -/
def GetAncestorWalk (t : List CBlockIndex) (height : Int) :
    Nat → Nat → Int → Option (Option Nat)
  | fuel, pindexWalk, heightWalk =>
    if heightWalk > height then
      match fuel with
      | 0 => none
      | fuel + 1 =>
        match t[pindexWalk]? with
        | none => none
        | some walk =>
          let heightSkip := GetSkipHeight heightWalk
          let heightSkipPrev := GetSkipHeight (heightWalk - 1)
          match walk.pskip with
          | some pskip =>
            if heightSkip = height ∨
                (heightSkip > height ∧ ¬ (heightSkipPrev < heightSkip - 2 ∧
                                          heightSkipPrev ≥ height)) then
              GetAncestorWalk t height fuel pskip heightSkip
            else
              match walk.pprev with
              | none => none
              | some pprev => GetAncestorWalk t height fuel pprev (heightWalk - 1)
          | none =>
            match walk.pprev with
            | none => none
            | some pprev => GetAncestorWalk t height fuel pprev (heightWalk - 1)
    else some (some pindexWalk)

/-- Source function `CBlockIndex::GetAncestor(height)` on the node with handle `self`. -/
def GetAncestor (t : List CBlockIndex) (self : Nat) (height : Int) : Option (Option Nat) :=
  match t[self]? with
  | none => none
  | some node =>
    if height > node.nHeight ∨ height < 0 then some none
    else GetAncestorWalk t height (node.nHeight - height).toNat self node.nHeight

/-- Source function `CBlockIndex::BuildSkip`: the new value of `pskip` of the node `self` (unchanged when
`pprev` is null); `none` when `GetAncestor` fails its assertion. -/
def BuildSkip (t : List CBlockIndex) (self : Nat) : Option (Option Nat) :=
  match t[self]? with
  | none => none
  | some node =>
    match node.pprev with
    | some pprev => GetAncestor t pprev (GetSkipHeight node.nHeight)
    | none => some node.pskip

/-- The naive walk: follow `pprev` exactly `n` times. -/
def naiveAncestor (t : List CBlockIndex) : Nat → Nat → Option Nat
  | 0, i => if i < t.length then some i else none
  | n + 1, i =>
    match t[i]? with
    | none => none
    | some node =>
      match node.pprev with
      | none => none
      | some p => naiveAncestor t n p

end CBlockIndex

/-- Source function `GetBlockProof`: the work of a block with packed target `nBits`; `none` is the
`uint_error` thrown by the division. -/
def GetBlockProof (nBits : Nat) : Option (List Nat) :=
  let d := arith_uint256.SetCompact nBits
  let bnTarget := d.value
  if d.fNegative || d.fOverflow || base_uint.EqualTo bnTarget 0 then
    some (base_uint.ofUInt64 0)
  else
    (base_uint.div (base_uint.compl bnTarget)
        (base_uint.add bnTarget (base_uint.ofUInt64 1))).map
      (fun q => base_uint.add q (base_uint.ofUInt64 1))

/-! ## Difficulty (pow.cpp) -/

namespace Consensus

/-- Modelled from the spec: the fields of `Consensus::Params` (absent header
`consensus/params.h`) that `pow.cpp` reads; the times are `int64_t`. -/
structure Params where
  powLimit : List Nat
  fPowAllowMinDifficultyBlocks : Bool
  fPowNoRetargeting : Bool
  nPowTargetSpacing : Int
  nPowTargetTimespan : Int
deriving DecidableEq, Repr

/-- Modelled from the spec: `Params::DifficultyAdjustmentInterval` of the absent header
`consensus/params.h`, the retarget interval `timespan / spacing` (`int64_t` division). -/
def Params.DifficultyAdjustmentInterval (params : Params) : Int :=
  Int.tdiv params.nPowTargetTimespan params.nPowTargetSpacing

end Consensus

/-- The value of an `int64_t` expression after reduction to 64 bits in two's complement. -/
def wrapInt64 (x : Int) : Int := (x + 2 ^ 63) % 2 ^ 64 - 2 ^ 63

/-- Source function `CalculateNextWorkRequired`, on the fields of `*pindexLast` it reads.  The
timespans are `int64_t`: the difference of the two times and `nPowTargetTimespan*4` are
reduced to 64 bits.  `bnNew *= nActualTimespan` is `operator*=(uint32_t)` (an `int64_t`
converts to `uint32_t` by a standard conversion), `bnNew /= params.nPowTargetTimespan` goes
through the `uint64_t` constructor.  `none` is a thrown `uint_error` or a failed
`assert`. -/
def CalculateNextWorkRequired (pindexLast : CBlockIndex) (nFirstBlockTime : Int)
    (params : Consensus.Params) : Option Nat :=
  if params.fPowNoRetargeting then some pindexLast.nBits
  else
    let nActualTimespan := wrapInt64 (pindexLast.GetBlockTime - nFirstBlockTime)
    let nActualTimespan :=
      if nActualTimespan < Int.tdiv params.nPowTargetTimespan 4 then
        Int.tdiv params.nPowTargetTimespan 4
      else nActualTimespan
    let nActualTimespan :=
      if nActualTimespan > wrapInt64 (params.nPowTargetTimespan * 4) then
        wrapInt64 (params.nPowTargetTimespan * 4)
      else nActualTimespan
    let bnPowLimit := UintToArith256 params.powLimit
    let bnNew := (arith_uint256.SetCompact pindexLast.nBits).value
    let bnNew := base_uint.mulWord bnNew (nActualTimespan % 2 ^ 32).toNat
    match base_uint.div bnNew (base_uint.ofUInt64 (params.nPowTargetTimespan % 2 ^ 64).toNat) with
    | none => none
    | some bnNew =>
      let bnNew := if base_uint.CompareTo bnNew bnPowLimit > 0 then bnPowLimit else bnNew
      arith_uint256.GetCompact bnNew false

/-- The loop of the minimum-difficulty branch of `GetNextWorkRequired`: walk `pprev` while
the node has a predecessor, is not at a retarget height and carries the limit target.
`none` is a handle outside the arena or a walk that has not ended after `fuel` steps. -/
def lastNonMinDifficulty (t : List CBlockIndex) (interval : Int) (nProofOfWorkLimit : Nat) :
    Nat → Nat → Option Nat
  | 0, _ => none
  | fuel + 1, pindex =>
    match t[pindex]? with
    | none => none
    | some node =>
      match node.pprev with
      | some pprev =>
        if Int.tmod node.nHeight interval ≠ 0 ∧ node.nBits = nProofOfWorkLimit then
          lastNonMinDifficulty t interval nProofOfWorkLimit fuel pprev
        else some node.nBits
      | none => some node.nBits

/-- Source function `GetNextWorkRequired`; `pblockTime` is `pblock->GetBlockTime()`.  `none` is a failed
`assert` (or a thrown `uint_error`). -/
def GetNextWorkRequired (t : List CBlockIndex) (pindexLast : Option Nat) (pblockTime : Int)
    (params : Consensus.Params) : Option Nat :=
  match pindexLast with
  | none => none
  | some last =>
    match t[last]? with
    | none => none
    | some node =>
      match arith_uint256.GetCompact (UintToArith256 params.powLimit) false with
      | none => none
      | some nProofOfWorkLimit =>
        let difficulityAdjustmentInterval := params.DifficultyAdjustmentInterval
        if Int.tmod (node.nHeight + 1) difficulityAdjustmentInterval ≠ 0 then
          if params.fPowAllowMinDifficultyBlocks then
            if pblockTime > node.GetBlockTime + params.nPowTargetSpacing * 2 then
              some nProofOfWorkLimit
            else
              lastNonMinDifficulty t params.DifficultyAdjustmentInterval nProofOfWorkLimit
                (t.length + 1) last
          else some node.nBits
        else
          let nHeightFirst := node.nHeight - (params.DifficultyAdjustmentInterval - 1)
          if ¬ nHeightFirst ≥ 0 then none
          else
            match CBlockIndex.GetAncestor t last nHeightFirst with
            | none => none
            | some none => none
            | some (some first) =>
              match t[first]? with
              | none => none
              | some pindexFirst =>
                CalculateNextWorkRequired node pindexFirst.GetBlockTime params

/-- Source function `CheckProofOfWorkNew(hash, nBits, powLimit)`. -/
def CheckProofOfWorkNew (hash : List Nat) (nBits : Nat) (powLimit : List Nat) : Bool :=
  let d := arith_uint256.SetCompact nBits
  let bnTarget := d.value
  if d.fNegative || base_uint.EqualTo bnTarget 0 || d.fOverflow ||
      decide (base_uint.CompareTo bnTarget (UintToArith256 powLimit) > 0) then false
  else if base_uint.CompareTo (UintToArith256 hash) bnTarget > 0 then false
  else true

/-- Source function `CheckProofOfWork(hash, nBits, params)`. -/
def CheckProofOfWork (hash : List Nat) (nBits : Nat) (params : Consensus.Params) : Bool :=
  let d := arith_uint256.SetCompact nBits
  let bnTarget := d.value
  if d.fNegative || base_uint.EqualTo bnTarget 0 || d.fOverflow ||
      decide (base_uint.CompareTo bnTarget (UintToArith256 params.powLimit) > 0) then false
  else if base_uint.CompareTo (UintToArith256 hash) bnTarget > 0 then false
  else true


/-! ## Specification-level encoder -/

/-- The packed form of the number `v`, computed on `Nat`: the byte length `e0` of `v`, its
top three bytes `m0`, the normalisation that keeps bit `0x800000` free, and the sign bit.
`GetCompact` on limbs is compared with it. -/
def compactOfNat (v : Nat) (fNegative : Bool) : Nat :=
  let e0 := (Nat.size v + 7) / 8
  let m0 := if e0 ≤ 3 then v * 256 ^ (3 - e0) else v / 256 ^ (e0 - 3)
  let m := if 2 ^ 23 ≤ m0 then m0 / 256 else m0
  let e := if 2 ^ 23 ≤ m0 then e0 + 1 else e0
  m + 2 ^ 24 * e + (if fNegative = true ∧ m ≠ 0 then 2 ^ 23 else 0)

/-! ## Well-formed block trees -/

namespace CBlockIndex

/-- The invariant of the node with handle `i` of the arena `t`: a node without
predecessor has height 0 and `pprev` of any other node is a node exactly one lower;
`pskip` is either unset or was set by `BuildSkip` (running `BuildSkip` on the node
stores the pointer it already holds). -/
def wfNode (t : List CBlockIndex) (i : Nat) : Bool :=
  match t[i]? with
  | none => false
  | some node =>
    (match node.pprev with
     | none => decide (node.nHeight = 0)
     | some p =>
       match t[p]? with
       | none => false
       | some prev => decide (prev.nHeight = node.nHeight - 1)) &&
    (match node.pskip with
     | none => true
     | some s => node.pprev.isSome && decide (BuildSkip t i = some (some s)))

/-- A well-formed block tree: every node of the arena satisfies `wfNode`. -/
def WFTree (t : List CBlockIndex) : Prop := ∀ i, i < t.length → wfNode t i = true

instance (t : List CBlockIndex) : Decidable (WFTree t) := by
  unfold WFTree; infer_instance

/-- The skip pointers of all nodes of height at most `N` are right: such a pointer is the
naive ancestor at the skip height. -/
def SkipOK (t : List CBlockIndex) (N : Int) : Prop :=
  ∀ (w : Nat) (walk : CBlockIndex) (s : Nat), t[w]? = some walk → walk.nHeight ≤ N →
    walk.pskip = some s →
    naiveAncestor t (walk.nHeight - GetSkipHeight walk.nHeight).toNat w = some s

/-- A sample arena: the chain `0 ← 1 ← 2 ← 3 ← 4 ← 5` and a fork `6` on top of `2`, one
block every 600 s on the chain, with the skip pointers `BuildSkip` sets. -/
def sampleTree : List CBlockIndex :=
  [{ pprev := none, pskip := none, nHeight := 0, nBits := 0x1d00ffff, nTime := 0, hash := 10 },
   { pprev := some 0, pskip := some 0, nHeight := 1, nBits := 0x1d00ffff, nTime := 600, hash := 11 },
   { pprev := some 1, pskip := some 0, nHeight := 2, nBits := 0x1d00ffff, nTime := 1200, hash := 12 },
   { pprev := some 2, pskip := some 1, nHeight := 3, nBits := 0x1d00ffff, nTime := 1800, hash := 13 },
   { pprev := some 3, pskip := some 0, nHeight := 4, nBits := 0x1d00ffff, nTime := 2400, hash := 14 },
   { pprev := some 4, pskip := some 1, nHeight := 5, nBits := 0x1d00ffff, nTime := 3000, hash := 15 },
   { pprev := some 2, pskip := some 1, nHeight := 3, nBits := 0x1d00ffff, nTime := 1900, hash := 16 }]

end CBlockIndex

namespace Consensus

/-- Sample consensus parameters: the main-network limit `0xffff * 2^208`, a block every
600 s and a retarget every three blocks. -/
def sampleParams : Params :=
  { powLimit := List.replicate 26 0 ++ [0xff, 0xff, 0, 0, 0, 0],
    fPowAllowMinDifficultyBlocks := false,
    fPowNoRetargeting := false,
    nPowTargetSpacing := 600,
    nPowTargetTimespan := 1800 }

end Consensus

/-- A sample hash: the hash of the main-network genesis block, as the 32 bytes of a
`uint256` (least significant first). -/
def sampleHash : List Nat :=
  [0x6f, 0xe2, 0x8c, 0x0a, 0xb6, 0xf1, 0xb3, 0x72, 0xc1, 0xa6, 0xa2, 0x46, 0xae, 0x63, 0xf7, 0x4f,
   0x93, 0x1e, 0x83, 0x65, 0xe1, 0x5a, 0x08, 0x9c, 0x68, 0xd6, 0x19, 0x00, 0x00, 0x00, 0x00, 0x00]

/-! ## Multiplication of two `base_uint` (arith_uint256.cpp) -/

namespace base_uint

/-- The loop of `base_uint::operator*=(uint32_t b32)` once more, now also recording (second
component, never read by the loop) each sum `carry + (uint64_t)b32 * pn[i]` before its
reduction to 64 bits. -/
def mulWordSums (self : List Nat) (b32 : Nat) : List Nat × List Nat :=
  let r := (List.range WIDTH).foldl (fun (st : (List Nat × Nat) × List Nat) i =>
    let s := st.1.2 + b32 * st.1.1.getD i 0
    let n := s % 2 ^ 64
    ((st.1.1.set i (n &&& 0xffffffff), n >>> 32), st.2 ++ [s])) ((self, 0), [])
  (r.1.1, r.2)

/-- The inner loop of `base_uint::operator*=(const base_uint& b)` for one `j`:
`for (int i = 0; i + j < WIDTH; i++)` with state `(a.pn, carry)`, where `n` is a `uint64_t`.
The second component of the argument and of the result is never read by the loop: it
records each sum `carry + a.pn[i + j] + (uint64_t)pn[j] * b.pn[i]` before its reduction to
64 bits. -/
def mulRow (self b : List Nat) (j : Nat) (a : List Nat × List Nat) : List Nat × List Nat :=
  let r := (List.range (WIDTH - j)).foldl (fun (st : (List Nat × Nat) × List Nat) i =>
    let s := st.1.2 + st.1.1.getD (i + j) 0 + self.getD j 0 * b.getD i 0
    let n := s % 2 ^ 64
    ((st.1.1.set (i + j) (n &&& 0xffffffff), n >>> 32), st.2 ++ [s])) ((a.1, 0), a.2)
  (r.1.1, r.2)

/-- The outer loop of `base_uint::operator*=(const base_uint& b)`, started from the zero
value of `base_uint<BITS> a;`, together with the recorded sums. -/
def mulSums (self b : List Nat) : List Nat × List Nat :=
  (List.range WIDTH).foldl (fun a j => mulRow self b j a) (List.replicate WIDTH 0, [])

/-- Source function `base_uint::operator*=(const base_uint& b)`. -/
def mul (self b : List Nat) : List Nat := (mulSums self b).1

end base_uint

/-! ## The active chain (chain.cpp) -/

namespace CChain

/-- Modelled from the spec: `CChain::Height` of the absent header `chain.h`, the index of
the last slot of `vChain` (a vector of handles, `none` being `nullptr`), `-1` when empty. -/
def Height (vChain : List (Option Nat)) : Int := (vChain.length : Int) - 1

/-- Modelled from the spec: `CChain::operator[]` of the absent header `chain.h`, the slot
at `nHeight`, `nullptr` outside the vector. -/
def get (vChain : List (Option Nat)) (nHeight : Int) : Option Nat :=
  if nHeight < 0 ∨ nHeight ≥ (vChain.length : Int) then none
  else vChain.getD nHeight.toNat none

/-- Modelled from the spec: `CChain::Tip` of the absent header `chain.h`, the last slot,
`nullptr` when the chain is empty. -/
def Tip (vChain : List (Option Nat)) : Option Nat :=
  if vChain.length > 0 then vChain.getD (vChain.length - 1) none else none

/-- Modelled from the spec: `CChain::Contains` of the absent header `chain.h`, the slot at
the height of the node equals the node. -/
def Contains (t : List CBlockIndex) (vChain : List (Option Nat)) (pindex : Nat) : Bool :=
  match t[pindex]? with
  | none => false
  | some node => decide (get vChain node.nHeight = some pindex)

/-- The call `vChain.resize(n)` of `std::vector`: cut to `n` slots or pad with
`nullptr`. -/
def resize (vChain : List (Option Nat)) (n : Nat) : List (Option Nat) :=
  vChain.take n ++ List.replicate (n - vChain.length) none

/-- The loop of `CChain::SetTip`: `while (pindex && vChain[pindex->nHeight] != pindex)`.
Every iteration follows `pprev`, `fuel` bounds their number; `none` is an access outside
the vector or outside the arena, or no fuel. -/
def SetTipLoop (t : List CBlockIndex) :
    Nat → List (Option Nat) → Option Nat → Option (List (Option Nat))
  | _, vChain, none => some vChain
  | 0, _, some _ => none
  | fuel + 1, vChain, some pindex =>
    match t[pindex]? with
    | none => none
    | some node =>
      if node.nHeight < 0 ∨ node.nHeight ≥ (vChain.length : Int) then none
      else if vChain.getD node.nHeight.toNat none = some pindex then some vChain
      else SetTipLoop t fuel (vChain.set node.nHeight.toNat (some pindex)) node.pprev

/-- Source function `CChain::SetTip`: the new `vChain`. -/
def SetTip (t : List CBlockIndex) (fuel : Nat) (vChain : List (Option Nat))
    (pindex : Option Nat) : Option (List (Option Nat)) :=
  match pindex with
  | none => some []
  | some p =>
    match t[p]? with
    | none => none
    | some node =>
      if node.nHeight + 1 < 0 then none
      else SetTipLoop t fuel (resize vChain (node.nHeight + 1).toNat) (some p)

/-- The loop of `CChain::FindFork`: `while (pindex && !Contains(pindex))`; the outer
`none` is a handle outside the arena or no fuel. -/
def FindForkLoop (t : List CBlockIndex) (vChain : List (Option Nat)) :
    Nat → Option Nat → Option (Option Nat)
  | _, none => some none
  | 0, some _ => none
  | fuel + 1, some pindex =>
    match t[pindex]? with
    | none => none
    | some node =>
      if Contains t vChain pindex then some (some pindex)
      else FindForkLoop t vChain fuel node.pprev

/-- Source function `CChain::FindFork`; the outer `none` is a failed assertion of
`GetAncestor`, a handle outside the arena or no fuel. -/
def FindFork (t : List CBlockIndex) (fuel : Nat) (vChain : List (Option Nat))
    (pindex : Option Nat) : Option (Option Nat) :=
  match pindex with
  | none => some none
  | some p =>
    match t[p]? with
    | none => none
    | some node =>
      if node.nHeight > Height vChain then
        match CBlockIndex.GetAncestor t p (Height vChain) with
        | none => none
        | some q => FindForkLoop t vChain fuel q
      else FindForkLoop t vChain fuel (some p)

end CChain

/-- The value of an `int` expression after reduction to 32 bits in two's complement. -/
def wrapInt32 (x : Int) : Int := (x + 2 ^ 31) % 2 ^ 32 - 2 ^ 31

namespace CChain

/-- The loop of `CChain::GetLocator` with state `(pindex, nStep, vHave)`; `nStep` is an
`int`.  `none` is a failed assertion of `GetAncestor`, a handle outside the arena or no
fuel. -/
def GetLocatorLoop (t : List CBlockIndex) (vChain : List (Option Nat)) :
    Nat → Option Nat → Int → List Nat → Option (List Nat)
  | _, none, _, vHave => some vHave
  | 0, some _, _, _ => none
  | fuel + 1, some pindex, nStep, vHave =>
    match t[pindex]? with
    | none => none
    | some node =>
      let vHave := vHave ++ [node.hash]
      if node.nHeight = 0 then some vHave
      else
        let nHeight := max (wrapInt32 (node.nHeight - nStep)) 0
        let next :=
          if Contains t vChain pindex then some (get vChain nHeight)
          else CBlockIndex.GetAncestor t pindex nHeight
        match next with
        | none => none
        | some q =>
          GetLocatorLoop t vChain fuel q
            (if vHave.length > 10 then wrapInt32 (nStep * 2) else nStep) vHave

/-- Source function `CChain::GetLocator`: the hashes `vHave` of the locator. -/
def GetLocator (t : List CBlockIndex) (fuel : Nat) (vChain : List (Option Nat))
    (pindex : Option Nat) : Option (List Nat) :=
  GetLocatorLoop t vChain fuel
    (match pindex with
     | none => Tip vChain
     | some p => some p) 1 []

end CChain

/-- How a run of `LastCommonAncestor` ends: it returns a pointer, an `assert` fails, a
handle lies outside the arena, or the fuel of the model runs out. -/
inductive Outcome where
  | returned (p : Option Nat)
  | assertFailed
  | badPointer
  | noFuel
deriving DecidableEq, Repr

/-- The loop of `LastCommonAncestor`: `while (pa != pb && pa && pb)`; the result is the
state `(pa, pb)` after the loop, `none` when a handle lies outside the arena or the fuel
runs out. -/
def LastCommonAncestorLoop (t : List CBlockIndex) :
    Nat → Option Nat → Option Nat → Option (Option Nat × Option Nat)
  | fuel, some a, some b =>
    if a ≠ b then
      match fuel with
      | 0 => none
      | fuel + 1 =>
        match t[a]?, t[b]? with
        | some na, some nb => LastCommonAncestorLoop t fuel na.pprev nb.pprev
        | _, _ => none
    else some (some a, some b)
  | _, pa, pb => some (pa, pb)

/-- Source function `LastCommonAncestor`. -/
def LastCommonAncestor (t : List CBlockIndex) (fuel : Nat) (pa pb : Nat) : Outcome :=
  match t[pa]?, t[pb]? with
  | some na, some nb =>
    let start : Option (Option Nat × Option Nat) :=
      if na.nHeight > nb.nHeight then
        (CBlockIndex.GetAncestor t pa nb.nHeight).map (fun p => (p, some pb))
      else if nb.nHeight > na.nHeight then
        (CBlockIndex.GetAncestor t pb na.nHeight).map (fun p => (some pa, p))
      else some (some pa, some pb)
    match start with
    | none => Outcome.assertFailed
    | some (pa, pb) =>
      match LastCommonAncestorLoop t fuel pa pb with
      | none => Outcome.noFuel
      | some (pa, pb) => if pa = pb then Outcome.returned pa else Outcome.assertFailed
  | _, _ => Outcome.badPointer

namespace CChain

/-- The chain holds the path from the root to `tip`: it has one slot for every height up to
that of `tip`, and slot `k` holds the ancestor of `tip` at height `k`. -/
def HoldsPath (t : List CBlockIndex) (vChain : List (Option Nat)) (tip : Nat) : Prop :=
  ∃ node, t[tip]? = some node ∧ (vChain.length : Int) = node.nHeight + 1 ∧
    ∀ k, k < vChain.length →
      vChain[k]? = some (CBlockIndex.naiveAncestor t (vChain.length - 1 - k) tip)

end CChain

namespace CBlockIndex

/-- A sample arena with two roots: the nodes `0` and `1` have height 0, node `2` stands on
top of `0` and node `3` on top of `1`. -/
def sampleForest : List CBlockIndex :=
  [⟨none, none, 0, 0x1d00ffff, 0, 20⟩, ⟨none, none, 0, 0x1d00ffff, 0, 21⟩,
   ⟨some 0, some 0, 1, 0x1d00ffff, 600, 22⟩, ⟨some 1, some 1, 1, 0x1d00ffff, 600, 23⟩]

end CBlockIndex

namespace CChain

/-- The heights a locator lists from height `h` on when `k` hashes stand before it, as the
specification words it: the height itself, and unless it is 0 the heights listed from
`max (h - 2 ^ max (k + 1 - 11) 0) 0` on; `fuel` bounds the length of the list. -/
def locatorHeights : Nat → Nat → Nat → List Nat
  | 0, _, _ => []
  | fuel + 1, h, k =>
    h :: (if h = 0 then [] else locatorHeights fuel (h - 2 ^ (k - 10)) (k + 1))

end CChain

namespace CBlockIndex

/-- A sample arena holding one chain of 20 blocks, without skip pointers: block `i` has
height `i`, time `600 * i` and hash `100 + i`. -/
def sampleLine : List CBlockIndex :=
  (List.range 20).map (fun i =>
    ⟨if i = 0 then none else some (i - 1), none, (i : Int), 0x1d00ffff, 600 * i, 100 + i⟩)

end CBlockIndex
/-! ## Limb arithmetic refines arithmetic on `Nat` -/

namespace base_uint

theorem range_WIDTH : List.range WIDTH = [0, 1, 2, 3, 4, 5, 6, 7] := by decide

theorem WF.cases {a : List Nat} (h : WF a) :
    ∃ a0 a1 a2 a3 a4 a5 a6 a7, a = [a0, a1, a2, a3, a4, a5, a6, a7] ∧
      a0 < 2 ^ 32 ∧ a1 < 2 ^ 32 ∧ a2 < 2 ^ 32 ∧ a3 < 2 ^ 32 ∧
      a4 < 2 ^ 32 ∧ a5 < 2 ^ 32 ∧ a6 < 2 ^ 32 ∧ a7 < 2 ^ 32 := by
  obtain ⟨hl, hb⟩ := h
  match a, hl with
  | [a0, a1, a2, a3, a4, a5, a6, a7], _ =>
    refine ⟨a0, a1, a2, a3, a4, a5, a6, a7, rfl, ?_⟩
    simp only [List.mem_cons, List.mem_singleton] at hb
    refine ⟨?_, ?_, ?_, ?_, ?_, ?_, ?_, ?_⟩ <;> apply hb <;> simp

theorem WF.mk8 {a0 a1 a2 a3 a4 a5 a6 a7 : Nat}
    (h0 : a0 < 2 ^ 32) (h1 : a1 < 2 ^ 32) (h2 : a2 < 2 ^ 32) (h3 : a3 < 2 ^ 32)
    (h4 : a4 < 2 ^ 32) (h5 : a5 < 2 ^ 32) (h6 : a6 < 2 ^ 32) (h7 : a7 < 2 ^ 32) :
    WF [a0, a1, a2, a3, a4, a5, a6, a7] := by
  refine ⟨rfl, ?_⟩
  intro x hx
  simp only [List.mem_cons, List.mem_singleton, List.not_mem_nil, or_false] at hx
  rcases hx with h | h | h | h | h | h | h | h <;> subst h <;> assumption

theorem toNat_lt {a : List Nat} (h : WF a) : toNat a < 2 ^ 256 := by
  obtain ⟨a0, a1, a2, a3, a4, a5, a6, a7, rfl, h0, h1, h2, h3, h4, h5, h6, h7⟩ := h.cases
  simp only [toNat]
  omega

theorem ofNat_wf (n : Nat) : WF (ofNat n) := by
  simp only [ofNat, range_WIDTH, List.map_cons, List.map_nil]
  apply WF.mk8 <;> exact Nat.mod_lt _ (by norm_num)

theorem toNat_ofNat (n : Nat) : toNat (ofNat n) = n % 2 ^ 256 := by
  simp only [ofNat, range_WIDTH, List.map_cons, List.map_nil, toNat]
  norm_num
  omega

theorem ofNat_toNat {a : List Nat} (h : WF a) : ofNat (toNat a) = a := by
  obtain ⟨a0, a1, a2, a3, a4, a5, a6, a7, rfl, h0, h1, h2, h3, h4, h5, h6, h7⟩ := h.cases
  simp only [ofNat, range_WIDTH, List.map_cons, List.map_nil, toNat]
  norm_num
  refine ⟨?_, ?_, ?_, ?_, ?_, ?_, ?_, ?_⟩ <;> omega

theorem toNat_inj {a b : List Nat} (ha : WF a) (hb : WF b) (h : toNat a = toNat b) : a = b := by
  rw [← ofNat_toNat ha, ← ofNat_toNat hb, h]

theorem ofUInt64_wf (b : Nat) : WF (ofUInt64 b) := by
  simp only [ofUInt64, WIDTH, List.replicate]
  apply WF.mk8 <;> first | exact Nat.mod_lt _ (by norm_num) | norm_num

theorem toNat_ofUInt64 (b : Nat) : toNat (ofUInt64 b) = b % 2 ^ 64 := by
  simp only [ofUInt64, WIDTH, List.replicate, toNat]
  omega


theorem toNat_replicate_append (k : Nat) (l : List Nat) :
    toNat (List.replicate k 0 ++ l) = 2 ^ (32 * k) * toNat l := by
  induction k with
  | zero => simp
  | succ k ih =>
    rw [List.replicate_succ, List.cons_append, toNat, ih, Nat.mul_succ, pow_add]
    ring

theorem toNat_lt_of_limbs {l : List Nat} (h : ∀ x ∈ l, x < 2 ^ 32) :
    toNat l < 2 ^ (32 * l.length) := by
  induction l with
  | nil => simp [toNat]
  | cons x xs ih =>
    have hx : x < 2 ^ 32 := h x (List.mem_cons_self _ _)
    have hxs := ih (fun y hy => h y (List.mem_cons_of_mem _ hy))
    rw [toNat, List.length_cons, Nat.mul_succ, pow_add]
    have : 2 ^ 32 * (toNat xs + 1) ≤ 2 ^ 32 * 2 ^ (32 * xs.length) := Nat.mul_le_mul_left _ hxs
    rw [mul_comm (2 ^ (32 * xs.length))]
    omega

theorem mod_limb_aux (x T M : Nat) (hx : x < 2 ^ 32) (hM : 0 < M) :
    (x + 2 ^ 32 * T) % (2 ^ 32 * M) = x + 2 ^ 32 * (T % M) := by
  have h := Nat.mod_add_div T M
  have e : x + 2 ^ 32 * T = (x + 2 ^ 32 * (T % M)) + (2 ^ 32 * M) * (T / M) := by
    conv_lhs => rw [← h]
    ring
  rw [e, Nat.add_mul_mod_self_left, Nat.mod_eq_of_lt]
  have h1 : T % M + 1 ≤ M := Nat.mod_lt _ hM
  have := Nat.mul_le_mul_left (2 ^ 32) h1
  omega

theorem toNat_take (j : Nat) {l : List Nat} (h : ∀ x ∈ l, x < 2 ^ 32) :
    toNat (l.take j) = toNat l % 2 ^ (32 * j) := by
  induction j generalizing l with
  | zero => simp [toNat, Nat.mod_one]
  | succ j ih =>
    cases l with
    | nil => simp [toNat]
    | cons x xs =>
      have hx : x < 2 ^ 32 := h x (List.mem_cons_self _ _)
      rw [List.take_succ_cons, toNat, toNat, ih (fun y hy => h y (List.mem_cons_of_mem _ hy)),
        Nat.mul_succ, pow_add, mul_comm (2 ^ (32 * j)) (2 ^ 32),
        mod_limb_aux x _ _ hx (by positivity)]

theorem toNat_drop (j : Nat) {l : List Nat} (h : ∀ x ∈ l, x < 2 ^ 32) :
    toNat (l.drop j) = toNat l / 2 ^ (32 * j) := by
  induction j generalizing l with
  | zero => simp
  | succ j ih =>
    cases l with
    | nil => simp [toNat]
    | cons x xs =>
      have hx : x < 2 ^ 32 := h x (List.mem_cons_self _ _)
      rw [List.drop_succ_cons, toNat, ih (fun y hy => h y (List.mem_cons_of_mem _ hy)),
        Nat.mul_succ, pow_add, mul_comm (2 ^ (32 * j)) (2 ^ 32), ← Nat.div_div_eq_div_mul]
      congr 1
      omega

theorem toNat_append_replicate (k : Nat) (l : List Nat) :
    toNat (l ++ List.replicate k 0) = toNat l := by
  induction l with
  | nil =>
    induction k with
    | zero => simp [toNat]
    | succ k ih => rw [List.nil_append] at ih; simp [List.replicate_succ, toNat, ih]
  | cons x xs ih => rw [List.cons_append, toNat, toNat, ih]

/-- The two halves of a limb an in-word shift by `s` produces never overlap. -/
theorem limb_or (x y s : Nat) (hy : y < 2 ^ 32) (hs : s < 32) :
    (y >>> (32 - s)) ||| ((x <<< s) % 2 ^ 32) = (x * 2 ^ s) % 2 ^ 32 + (y * 2 ^ s) / 2 ^ 32 ∧
    (x * 2 ^ s) % 2 ^ 32 + (y * 2 ^ s) / 2 ^ 32 < 2 ^ 32 := by
  have e : (2 : Nat) ^ 32 = 2 ^ s * 2 ^ (32 - s) := by rw [← pow_add]; congr 1; omega
  have hP : 0 < 2 ^ s := by positivity
  have hQ : 0 < 2 ^ (32 - s) := by positivity
  have h1 : y >>> (32 - s) = (y * 2 ^ s) / 2 ^ 32 := by
    rw [Nat.shiftRight_eq_div_pow, e, mul_comm y, Nat.mul_div_mul_left _ _ hP]
  have h2 : (x <<< s) % 2 ^ 32 = 2 ^ s * (x % 2 ^ (32 - s)) := by
    rw [Nat.shiftLeft_eq, e, mul_comm x, Nat.mul_mod_mul_left]
  have h3 : (x * 2 ^ s) % 2 ^ 32 = 2 ^ s * (x % 2 ^ (32 - s)) := by
    rw [e, mul_comm x, Nat.mul_mod_mul_left]
  have h4 : (y * 2 ^ s) / 2 ^ 32 < 2 ^ s := by
    rw [Nat.div_lt_iff_lt_mul (by positivity), mul_comm (2 ^ s)]
    exact Nat.mul_lt_mul_of_pos_right hy hP
  rw [h1, h2, h3, Nat.lor_comm, ← Nat.mul_add_lt_is_or h4]
  refine ⟨rfl, ?_⟩
  have h5 : x % 2 ^ (32 - s) + 1 ≤ 2 ^ (32 - s) := Nat.mod_lt _ hQ
  calc 2 ^ s * (x % 2 ^ (32 - s)) + (y * 2 ^ s) / 2 ^ 32
      < 2 ^ s * (x % 2 ^ (32 - s)) + 2 ^ s := by omega
    _ = 2 ^ s * (x % 2 ^ (32 - s) + 1) := by ring
    _ ≤ 2 ^ s * 2 ^ (32 - s) := Nat.mul_le_mul_left _ h5
    _ = 2 ^ 32 := e.symm

theorem clear_eq (a0 a1 a2 a3 a4 a5 a6 a7 : Nat) :
    clear [a0, a1, a2, a3, a4, a5, a6, a7] = [0, 0, 0, 0, 0, 0, 0, 0] := by
  simp [clear, range_WIDTH]

theorem shl_big (a0 a1 a2 a3 a4 a5 a6 a7 n : Nat) (h : 8 ≤ n / 32) :
    shl [a0, a1, a2, a3, a4, a5, a6, a7] n = [0, 0, 0, 0, 0, 0, 0, 0] := by
  have h1 : ∀ i, ¬ (i + n / 32 < WIDTH) := fun i => by simp only [WIDTH]; omega
  have h2 : ∀ i, ¬ (i + n / 32 + 1 < WIDTH ∧ n % 32 ≠ 0) := fun i => by simp only [WIDTH]; omega
  simp only [shl, clear_eq, range_WIDTH, List.foldl_cons, List.foldl_nil, h1, h2, if_false]

theorem shl_split (a0 a1 a2 a3 a4 a5 a6 a7 k s : Nat) (hk : k < 8) (hs : s < 32) :
    shl [a0, a1, a2, a3, a4, a5, a6, a7] (32 * k + s) =
      List.replicate k 0 ++ (shl [a0, a1, a2, a3, a4, a5, a6, a7] s).take (8 - k) := by
  have e1 : (32 * k + s) / 32 = k := by omega
  have e2 : (32 * k + s) % 32 = s := by omega
  have e3 : s / 32 = 0 := by omega
  have e4 : s % 32 = s := by omega
  simp only [shl, clear_eq, range_WIDTH, List.foldl_cons, List.foldl_nil, e1, e2, e3, e4]
  by_cases h0 : s = 0
  · subst h0
    interval_cases k <;> simp [WIDTH, List.replicate]
  · interval_cases k <;> simp [WIDTH, List.replicate, h0]


theorem shl_small (a0 a1 a2 a3 a4 a5 a6 a7 s : Nat) (hs : s < 32)
    (b0 : a0 < 2 ^ 32) (b1 : a1 < 2 ^ 32) (b2 : a2 < 2 ^ 32) (b3 : a3 < 2 ^ 32)
    (b4 : a4 < 2 ^ 32) (b5 : a5 < 2 ^ 32) (b6 : a6 < 2 ^ 32) (_b7 : a7 < 2 ^ 32) :
    WF (shl [a0, a1, a2, a3, a4, a5, a6, a7] s) ∧
    toNat (shl [a0, a1, a2, a3, a4, a5, a6, a7] s) =
      toNat [a0, a1, a2, a3, a4, a5, a6, a7] * 2 ^ s % 2 ^ 256 := by
  have e3 : s / 32 = 0 := by omega
  have e4 : s % 32 = s := by omega
  have l0 : (a0 <<< s) % 2 ^ 32 = (a0 * 2 ^ s) % 2 ^ 32 := by rw [Nat.shiftLeft_eq]
  have l1 := limb_or a1 a0 s b0 hs
  have l2 := limb_or a2 a1 s b1 hs
  have l3 := limb_or a3 a2 s b2 hs
  have l4 := limb_or a4 a3 s b3 hs
  have l5 := limb_or a5 a4 s b4 hs
  have l6 := limb_or a6 a5 s b5 hs
  have l7 := limb_or a7 a6 s b6 hs
  have key : shl [a0, a1, a2, a3, a4, a5, a6, a7] s =
      [(a0 * 2 ^ s) % 2 ^ 32,
       (a1 * 2 ^ s) % 2 ^ 32 + (a0 * 2 ^ s) / 2 ^ 32,
       (a2 * 2 ^ s) % 2 ^ 32 + (a1 * 2 ^ s) / 2 ^ 32,
       (a3 * 2 ^ s) % 2 ^ 32 + (a2 * 2 ^ s) / 2 ^ 32,
       (a4 * 2 ^ s) % 2 ^ 32 + (a3 * 2 ^ s) / 2 ^ 32,
       (a5 * 2 ^ s) % 2 ^ 32 + (a4 * 2 ^ s) / 2 ^ 32,
       (a6 * 2 ^ s) % 2 ^ 32 + (a5 * 2 ^ s) / 2 ^ 32,
       (a7 * 2 ^ s) % 2 ^ 32 + (a6 * 2 ^ s) / 2 ^ 32] := by
    by_cases h0 : s = 0
    · subst h0
      simp only [shl, clear_eq, range_WIDTH, List.foldl_cons, List.foldl_nil, e3, e4]
      simp [WIDTH]
      refine ⟨?_, ?_, ?_, ?_, ?_, ?_, ?_⟩ <;> omega
    · rw [← l0, ← l1.1, ← l2.1, ← l3.1, ← l4.1, ← l5.1, ← l6.1, ← l7.1]
      simp only [shl, clear_eq, range_WIDTH, List.foldl_cons, List.foldl_nil, e3, e4]
      simp [WIDTH, h0]
  rw [key]
  have hP : 0 < 2 ^ s := by positivity
  have m0 : (a0 * 2 ^ s) % 2 ^ 32 < 2 ^ 32 := Nat.mod_lt _ (by norm_num)
  refine ⟨WF.mk8 m0 l1.2 l2.2 l3.2 l4.2 l5.2 l6.2 l7.2, ?_⟩
  have r1 := l1.2
  have r2 := l2.2
  have r3 := l3.2
  have r4 := l4.2
  have r5 := l5.2
  have r6 := l6.2
  have r7 := l7.2
  clear l0 l1 l2 l3 l4 l5 l6 l7 key
  have e : toNat [a0, a1, a2, a3, a4, a5, a6, a7] * 2 ^ s =
      toNat [a0 * 2 ^ s, a1 * 2 ^ s, a2 * 2 ^ s, a3 * 2 ^ s, a4 * 2 ^ s, a5 * 2 ^ s,
        a6 * 2 ^ s, a7 * 2 ^ s] := by
    simp only [toNat]; ring
  rw [e]
  simp only [toNat]
  generalize a0 * 2 ^ s = p0 at *
  generalize a1 * 2 ^ s = p1 at *
  generalize a2 * 2 ^ s = p2 at *
  generalize a3 * 2 ^ s = p3 at *
  generalize a4 * 2 ^ s = p4 at *
  generalize a5 * 2 ^ s = p5 at *
  generalize a6 * 2 ^ s = p6 at *
  generalize a7 * 2 ^ s = p7 at *
  omega


theorem zeros_wf : WF [0, 0, 0, 0, 0, 0, 0, 0] := by decide

/-- Function `operator<<=` is multiplication by `2 ^ shift` modulo `2 ^ 256`. -/
theorem shl_spec {a : List Nat} (h : WF a) (n : Nat) :
    WF (shl a n) ∧ toNat (shl a n) = toNat a * 2 ^ n % 2 ^ 256 := by
  obtain ⟨a0, a1, a2, a3, a4, a5, a6, a7, rfl, h0, h1, h2, h3, h4, h5, h6, h7⟩ := h.cases
  by_cases hk : 8 ≤ n / 32
  · rw [shl_big _ _ _ _ _ _ _ _ _ hk]
    refine ⟨zeros_wf, ?_⟩
    have e : n = 256 + (n - 256) := by omega
    rw [e, pow_add, ← Nat.mul_assoc, Nat.mul_comm _ (2 ^ 256), Nat.mul_assoc,
      Nat.mul_mod_right]
    rfl
  · have e : n = 32 * (n / 32) + n % 32 := (Nat.div_add_mod n 32).symm
    have hs : n % 32 < 32 := Nat.mod_lt _ (by norm_num)
    have hk' : n / 32 < 8 := by omega
    generalize n / 32 = k at *
    generalize n % 32 = s at *
    subst e
    obtain ⟨hw, hv⟩ := shl_small a0 a1 a2 a3 a4 a5 a6 a7 s hs h0 h1 h2 h3 h4 h5 h6 h7
    rw [shl_split _ _ _ _ _ _ _ _ k s hk' hs]
    refine ⟨⟨?_, ?_⟩, ?_⟩
    · rw [List.length_append, List.length_replicate, List.length_take, hw.1]
      simp only [WIDTH]; omega
    · intro x hx
      rw [List.mem_append] at hx
      rcases hx with hx | hx
      · rw [List.eq_of_mem_replicate hx]; norm_num
      · exact hw.2 x (List.mem_of_mem_take hx)
    · rw [toNat_replicate_append, toNat_take _ hw.2, hv]
      have e1 : (2 : Nat) ^ 256 = 2 ^ (32 * k) * 2 ^ (32 * (8 - k)) := by
        rw [← pow_add]; congr 1; omega
      have e2 : toNat [a0, a1, a2, a3, a4, a5, a6, a7] * 2 ^ (32 * k + s) =
          2 ^ (32 * k) * (toNat [a0, a1, a2, a3, a4, a5, a6, a7] * 2 ^ s) := by
        rw [pow_add]; ring
      rw [e2, Nat.mod_mod_of_dvd _ ⟨2 ^ (32 * k), by rw [e1, Nat.mul_comm]⟩, e1,
        Nat.mul_mod_mul_left]


end base_uint

namespace base_uint

theorem shr_big (a0 a1 a2 a3 a4 a5 a6 a7 n : Nat) (h : 8 ≤ n / 32) :
    shr [a0, a1, a2, a3, a4, a5, a6, a7] n = [0, 0, 0, 0, 0, 0, 0, 0] := by
  have h1 : ∀ i, i < 8 → ¬ (n / 32 ≤ i) := fun i hi => by omega
  have h2 : ∀ i, i < 8 → ¬ (n / 32 + 1 ≤ i ∧ n % 32 ≠ 0) := fun i hi => by omega
  simp only [shr, clear_eq, range_WIDTH, List.foldl_cons, List.foldl_nil]
  simp only [h1 0 (by norm_num), h1 1 (by norm_num), h1 2 (by norm_num), h1 3 (by norm_num),
    h1 4 (by norm_num), h1 5 (by norm_num), h1 6 (by norm_num), h1 7 (by norm_num),
    h2 0 (by norm_num), h2 1 (by norm_num), h2 2 (by norm_num), h2 3 (by norm_num),
    h2 4 (by norm_num), h2 5 (by norm_num), h2 6 (by norm_num), h2 7 (by norm_num), if_false]

theorem shr_split (a0 a1 a2 a3 a4 a5 a6 a7 k s : Nat) (hk : k < 8) (hs : s < 32) :
    shr [a0, a1, a2, a3, a4, a5, a6, a7] (32 * k + s) =
      (shr [a0, a1, a2, a3, a4, a5, a6, a7] s).drop k ++ List.replicate k 0 := by
  have e1 : (32 * k + s) / 32 = k := by omega
  have e2 : (32 * k + s) % 32 = s := by omega
  have e3 : s / 32 = 0 := by omega
  have e4 : s % 32 = s := by omega
  simp only [shr, clear_eq, range_WIDTH, List.foldl_cons, List.foldl_nil, e1, e2, e3, e4]
  by_cases h0 : s = 0
  · subst h0
    interval_cases k <;> simp [List.replicate]
  · interval_cases k <;> simp [List.replicate, h0]

theorem limb_or_right (x y s : Nat) (hx : x < 2 ^ 32) (hs : s < 32) (h0 : s ≠ 0) :
    (x >>> s) ||| ((y <<< (32 - s)) % 2 ^ 32) =
        (y * 2 ^ (32 - s)) % 2 ^ 32 + (x * 2 ^ (32 - s)) / 2 ^ 32 ∧
      (y * 2 ^ (32 - s)) % 2 ^ 32 + (x * 2 ^ (32 - s)) / 2 ^ 32 < 2 ^ 32 := by
  have h := limb_or y x (32 - s) hx (by omega)
  have e : 32 - (32 - s) = s := by omega
  rw [e] at h
  exact h

theorem shr_small (a0 a1 a2 a3 a4 a5 a6 a7 s : Nat) (hs : s < 32)
    (b0 : a0 < 2 ^ 32) (b1 : a1 < 2 ^ 32) (b2 : a2 < 2 ^ 32) (b3 : a3 < 2 ^ 32)
    (b4 : a4 < 2 ^ 32) (b5 : a5 < 2 ^ 32) (b6 : a6 < 2 ^ 32) (b7 : a7 < 2 ^ 32) :
    WF (shr [a0, a1, a2, a3, a4, a5, a6, a7] s) ∧
    toNat (shr [a0, a1, a2, a3, a4, a5, a6, a7] s) =
      toNat [a0, a1, a2, a3, a4, a5, a6, a7] / 2 ^ s := by
  have e3 : s / 32 = 0 := by omega
  have e4 : s % 32 = s := by omega
  by_cases h0 : s = 0
  · subst h0
    have key : shr [a0, a1, a2, a3, a4, a5, a6, a7] 0 = [a0, a1, a2, a3, a4, a5, a6, a7] := by
      simp only [shr, clear_eq, range_WIDTH, List.foldl_cons, List.foldl_nil]
      simp
    rw [key]
    exact ⟨WF.mk8 b0 b1 b2 b3 b4 b5 b6 b7, by simp⟩
  · have l0 := limb_or_right a0 a1 s b0 hs h0
    have l1 := limb_or_right a1 a2 s b1 hs h0
    have l2 := limb_or_right a2 a3 s b2 hs h0
    have l3 := limb_or_right a3 a4 s b3 hs h0
    have l4 := limb_or_right a4 a5 s b4 hs h0
    have l5 := limb_or_right a5 a6 s b5 hs h0
    have l6 := limb_or_right a6 a7 s b6 hs h0
    have l7 : a7 >>> s = (a7 * 2 ^ (32 - s)) / 2 ^ 32 := by
      have e : (2 : Nat) ^ 32 = 2 ^ s * 2 ^ (32 - s) := by rw [← pow_add]; congr 1; omega
      rw [Nat.shiftRight_eq_div_pow, e, Nat.mul_div_mul_right _ _ (by positivity)]
    have key : shr [a0, a1, a2, a3, a4, a5, a6, a7] s =
        [(a1 * 2 ^ (32 - s)) % 2 ^ 32 + (a0 * 2 ^ (32 - s)) / 2 ^ 32,
         (a2 * 2 ^ (32 - s)) % 2 ^ 32 + (a1 * 2 ^ (32 - s)) / 2 ^ 32,
         (a3 * 2 ^ (32 - s)) % 2 ^ 32 + (a2 * 2 ^ (32 - s)) / 2 ^ 32,
         (a4 * 2 ^ (32 - s)) % 2 ^ 32 + (a3 * 2 ^ (32 - s)) / 2 ^ 32,
         (a5 * 2 ^ (32 - s)) % 2 ^ 32 + (a4 * 2 ^ (32 - s)) / 2 ^ 32,
         (a6 * 2 ^ (32 - s)) % 2 ^ 32 + (a5 * 2 ^ (32 - s)) / 2 ^ 32,
         (a7 * 2 ^ (32 - s)) % 2 ^ 32 + (a6 * 2 ^ (32 - s)) / 2 ^ 32,
         (a7 * 2 ^ (32 - s)) / 2 ^ 32] := by
      rw [← l0.1, ← l1.1, ← l2.1, ← l3.1, ← l4.1, ← l5.1, ← l6.1, ← l7]
      simp only [shr, clear_eq, range_WIDTH, List.foldl_cons, List.foldl_nil, e3, e4]
      simp [h0]
    rw [key]
    have m7 : (a7 * 2 ^ (32 - s)) / 2 ^ 32 < 2 ^ 32 := by
      rw [← l7, Nat.shiftRight_eq_div_pow]
      exact lt_of_le_of_lt (Nat.div_le_self _ _) b7
    refine ⟨WF.mk8 l0.2 l1.2 l2.2 l3.2 l4.2 l5.2 l6.2 m7, ?_⟩
    have e : toNat [a0, a1, a2, a3, a4, a5, a6, a7] / 2 ^ s =
        toNat [a0 * 2 ^ (32 - s), a1 * 2 ^ (32 - s), a2 * 2 ^ (32 - s), a3 * 2 ^ (32 - s),
          a4 * 2 ^ (32 - s), a5 * 2 ^ (32 - s), a6 * 2 ^ (32 - s), a7 * 2 ^ (32 - s)] / 2 ^ 32 := by
      have e1 : (2 : Nat) ^ 32 = 2 ^ s * 2 ^ (32 - s) := by rw [← pow_add]; congr 1; omega
      have e2 : toNat [a0 * 2 ^ (32 - s), a1 * 2 ^ (32 - s), a2 * 2 ^ (32 - s),
          a3 * 2 ^ (32 - s), a4 * 2 ^ (32 - s), a5 * 2 ^ (32 - s), a6 * 2 ^ (32 - s),
          a7 * 2 ^ (32 - s)] = toNat [a0, a1, a2, a3, a4, a5, a6, a7] * 2 ^ (32 - s) := by
        simp only [toNat]; ring
      rw [e2, e1, Nat.mul_div_mul_right _ _ (by positivity)]
    rw [e]
    have r0 := l0.2
    have r1 := l1.2
    have r2 := l2.2
    have r3 := l3.2
    have r4 := l4.2
    have r5 := l5.2
    have r6 := l6.2
    clear l0 l1 l2 l3 l4 l5 l6 l7 key e b0 b1 b2 b3 b4 b5 b6 b7 e3 e4 hs h0
    simp only [toNat]
    generalize a0 * 2 ^ (32 - s) = p0 at *
    generalize a1 * 2 ^ (32 - s) = p1 at *
    generalize a2 * 2 ^ (32 - s) = p2 at *
    generalize a3 * 2 ^ (32 - s) = p3 at *
    generalize a4 * 2 ^ (32 - s) = p4 at *
    generalize a5 * 2 ^ (32 - s) = p5 at *
    generalize a6 * 2 ^ (32 - s) = p6 at *
    generalize a7 * 2 ^ (32 - s) = p7 at *
    omega

/-- Function `operator>>=` is division by `2 ^ shift`. -/
theorem shr_spec {a : List Nat} (h : WF a) (n : Nat) :
    WF (shr a n) ∧ toNat (shr a n) = toNat a / 2 ^ n := by
  have hlt := toNat_lt h
  obtain ⟨a0, a1, a2, a3, a4, a5, a6, a7, rfl, h0, h1, h2, h3, h4, h5, h6, h7⟩ := h.cases
  by_cases hk : 8 ≤ n / 32
  · rw [shr_big _ _ _ _ _ _ _ _ _ hk]
    refine ⟨zeros_wf, ?_⟩
    have e : (2 : Nat) ^ 256 ≤ 2 ^ n := Nat.pow_le_pow_right (by norm_num) (by omega)
    rw [Nat.div_eq_of_lt (lt_of_lt_of_le hlt e)]
    rfl
  · have e : n = 32 * (n / 32) + n % 32 := (Nat.div_add_mod n 32).symm
    have hs : n % 32 < 32 := Nat.mod_lt _ (by norm_num)
    have hk' : n / 32 < 8 := by omega
    generalize n / 32 = k at *
    generalize n % 32 = s at *
    subst e
    obtain ⟨hw, hv⟩ := shr_small a0 a1 a2 a3 a4 a5 a6 a7 s hs h0 h1 h2 h3 h4 h5 h6 h7
    rw [shr_split _ _ _ _ _ _ _ _ k s hk' hs]
    refine ⟨⟨?_, ?_⟩, ?_⟩
    · rw [List.length_append, List.length_replicate, List.length_drop, hw.1]
      simp only [WIDTH]; omega
    · intro x hx
      rw [List.mem_append] at hx
      rcases hx with hx | hx
      · exact hw.2 x (List.mem_of_mem_drop hx)
      · rw [List.eq_of_mem_replicate hx]; norm_num
    · rw [toNat_append_replicate, toNat_drop _ hw.2, hv, Nat.div_div_eq_div_mul, ← pow_add,
        Nat.add_comm]

end base_uint

namespace base_uint

theorem and_mask32 (x : Nat) : x &&& 4294967295 = x % 2 ^ 32 :=
  Nat.and_pow_two_sub_one_eq_mod x 32

theorem mul_word_le {b x : Nat} (hb : b < 2 ^ 32) (hx : x < 2 ^ 32) :
    b * x ≤ 18446744065119617025 := by
  have h := Nat.mul_le_mul (Nat.le_of_lt_succ hb) (Nat.le_of_lt_succ hx)
  norm_num at h
  exact h

/-- The loop of `operator*=(uint32_t)` from limb `done.length` on: the limbs still to
come are replaced by the low words of `carry + b32 * rest`, and the 64-bit sums never
overflow. -/
theorem mulWord_loop (b32 : Nat) (hb : b32 < 2 ^ 32) (F : List Nat × Nat → Nat → List Nat × Nat)
    (hF : ∀ st i, F st i =
      (st.1.set i (((st.2 + b32 * st.1.getD i 0) % 2 ^ 64) &&& 0xffffffff),
        ((st.2 + b32 * st.1.getD i 0) % 2 ^ 64) >>> 32)) (rest : List Nat) :
    ∀ (done : List Nat) (carry : Nat), carry < 2 ^ 32 → (∀ x ∈ rest, x < 2 ^ 32) →
      ∃ out c,
        (List.range' done.length rest.length).foldl F (done ++ rest, carry) = (done ++ out, c) ∧
        out.length = rest.length ∧ (∀ x ∈ out, x < 2 ^ 32) ∧ c < 2 ^ 32 ∧
        toNat out + 2 ^ (32 * rest.length) * c = carry + b32 * toNat rest := by
  induction rest with
  | nil =>
    intro done carry hc _
    exact ⟨[], carry, rfl, rfl, fun x hx => absurd hx (List.not_mem_nil x), hc, by simp [toNat]⟩
  | cons x xs ih =>
    intro done carry hc hrest
    have hx : x < 2 ^ 32 := hrest x (List.mem_cons_self _ _)
    have hp := mul_word_le hb hx
    have hn : (carry + b32 * x) % 2 ^ 64 = carry + b32 * x := Nat.mod_eq_of_lt (by omega)
    have hget : (done ++ x :: xs).getD done.length 0 = x := by
      rw [List.getD_eq_getElem?_getD, List.getElem?_append_right (le_refl _)]
      simp
    have hset : ∀ v, (done ++ x :: xs).set done.length v = (done ++ [v]) ++ xs := by
      intro v
      rw [List.set_append_right _ _ (le_refl _)]
      simp
    obtain ⟨out, c, hfold, hlen, hout, hc', hval⟩ :=
      ih (done ++ [(carry + b32 * x) % 2 ^ 32]) ((carry + b32 * x) / 2 ^ 32) (by omega)
        (fun y hy => hrest y (List.mem_cons_of_mem _ hy))
    refine ⟨(carry + b32 * x) % 2 ^ 32 :: out, c, ?_, by simp [hlen], ?_, hc', ?_⟩
    · have hstep : F (done ++ x :: xs, carry) done.length =
          (done ++ [(carry + b32 * x) % 2 ^ 32] ++ xs, (carry + b32 * x) / 2 ^ 32) := by
        rw [hF]
        simp only [hget, hn, and_mask32, Nat.shiftRight_eq_div_pow, hset]
      rw [List.length_append, List.length_singleton] at hfold
      rw [List.length_cons, List.range'_succ, List.foldl_cons, hstep, hfold]
      simp
    · intro y hy
      rcases List.mem_cons.mp hy with h | h
      · rw [h]; exact Nat.mod_lt _ (by norm_num)
      · exact hout y h
    · rw [toNat, toNat, List.length_cons, Nat.mul_succ, pow_add, Nat.mul_add]
      have h1 := Nat.div_add_mod (carry + b32 * x) (2 ^ 32)
      have h2 : 2 ^ 32 * toNat out + 2 ^ 32 * (2 ^ (32 * xs.length) * c) =
          2 ^ 32 * ((carry + b32 * x) / 2 ^ 32) + 2 ^ 32 * (b32 * toNat xs) := by
        rw [← Nat.mul_add, hval, Nat.mul_add]
      have h3 : 2 ^ (32 * xs.length) * 2 ^ 32 * c = 2 ^ 32 * (2 ^ (32 * xs.length) * c) := by
        ring
      have h4 : b32 * (2 ^ 32 * toNat xs) = 2 ^ 32 * (b32 * toNat xs) := by ring
      rw [h3, h4]
      omega

/-- Function `operator*=(uint32_t)` is multiplication modulo `2 ^ 256`. -/
theorem mulWord_spec {a : List Nat} (h : WF a) {b : Nat} (hb : b < 2 ^ 32) :
    WF (mulWord a b) ∧ toNat (mulWord a b) = toNat a * b % 2 ^ 256 := by
  obtain ⟨out, c, hfold, hlen, hout, _, hval⟩ :=
    mulWord_loop b hb _ (fun _ _ => rfl) a [] 0 (by norm_num) h.2
  have hm : mulWord a b = out := by
    rw [mulWord, List.range_eq_range', ← h.1]
    simp only [List.length_nil, List.nil_append] at hfold
    rw [hfold]
  rw [hm]
  have hlt := toNat_lt_of_limbs hout
  rw [hlen, h.1] at hlt
  rw [h.1] at hval
  refine ⟨⟨by rw [hlen, h.1], hout⟩, ?_⟩
  simp only [WIDTH] at hlt hval
  rw [Nat.mul_comm (toNat a) b]
  omega

end base_uint

namespace base_uint

theorem size_eq_of_bounds {w m : Nat} (h1 : 2 ^ m ≤ w) (h2 : w < 2 ^ (m + 1)) :
    Nat.size w = m + 1 := by
  apply le_antisymm
  · exact Nat.size_le.mpr h2
  · exact Nat.lt_size.mpr h1

theorem size_bounds {w : Nat} (hw : 0 < w) : 2 ^ (Nat.size w - 1) ≤ w ∧ w < 2 ^ Nat.size w := by
  refine ⟨?_, Nat.size_le.mp le_rfl⟩
  have h : 0 < Nat.size w := Nat.size_pos.mpr hw
  exact Nat.lt_size.mp (by omega)

theorem and_pow_ne_zero_iff (w i : Nat) (h : w < 2 ^ (i + 1)) :
    w &&& (1 <<< i) ≠ 0 ↔ 2 ^ i ≤ w := by
  rw [Nat.one_shiftLeft, Nat.and_two_pow]
  have hp : 0 < 2 ^ i := by positivity
  constructor
  · intro hne
    cases hb : w.testBit i with
    | false => simp [hb] at hne
    | true => exact Nat.testBit_implies_ge hb
  · intro hle
    have hb : w.testBit i = true := by
      rw [Nat.testBit_to_div_mod]
      have h1 : w / 2 ^ i = 1 := by
        apply le_antisymm
        · have : w / 2 ^ i < 2 := by
            rw [Nat.div_lt_iff_lt_mul hp]; rw [pow_succ] at h; omega
          omega
        · exact (Nat.le_div_iff_mul_le hp).mpr (by omega)
      simp [h1]
    simp [hb]

theorem bitsWord_eq (n w pos : Nat) (hw : 0 < w) (h : w < 2 ^ (n + 1)) :
    bitsWord w pos n = 32 * pos + Nat.size w := by
  induction n with
  | zero =>
    have : w = 1 := by omega
    subst this
    simp [bitsWord]
  | succ n ih =>
    rw [bitsWord]
    by_cases hb : 2 ^ (n + 1) ≤ w
    · rw [if_pos ((and_pow_ne_zero_iff w (n + 1) h).mpr hb), size_eq_of_bounds hb h]
      omega
    · rw [if_neg (fun hc => hb ((and_pow_ne_zero_iff w (n + 1) h).mp hc))]
      exact ih (by omega)

theorem toNat_append_singleton (l : List Nat) (x : Nat) :
    toNat (l ++ [x]) = toNat l + 2 ^ (32 * l.length) * x := by
  induction l with
  | nil => simp [toNat]
  | cons y ys ih =>
    rw [List.cons_append, toNat, ih, toNat, List.length_cons, Nat.mul_succ, pow_add]
    ring

theorem size_top {r w j : Nat} (hr : r < 2 ^ (32 * j)) (hw : 0 < w) :
    Nat.size (r + 2 ^ (32 * j) * w) = 32 * j + Nat.size w := by
  obtain ⟨h1, h2⟩ := size_bounds hw
  have hs : 0 < Nat.size w := Nat.size_pos.mpr hw
  have e : 32 * j + Nat.size w = (32 * j + (Nat.size w - 1)) + 1 := by omega
  rw [e]
  apply size_eq_of_bounds
  · rw [pow_add]
    calc 2 ^ (32 * j) * 2 ^ (Nat.size w - 1) ≤ 2 ^ (32 * j) * w := Nat.mul_le_mul_left _ h1
      _ ≤ r + 2 ^ (32 * j) * w := Nat.le_add_left _ _
  · rw [← e, pow_add]
    calc r + 2 ^ (32 * j) * w < 2 ^ (32 * j) + 2 ^ (32 * j) * w := by omega
      _ = 2 ^ (32 * j) * (w + 1) := by ring
      _ ≤ 2 ^ (32 * j) * 2 ^ Nat.size w := Nat.mul_le_mul_left _ h2

theorem bitsFrom_eq (pn : List Nat) (h : ∀ x ∈ pn, x < 2 ^ 32) (j : Nat) :
    bitsFrom pn j = Nat.size (toNat (pn.take j)) := by
  induction j with
  | zero => simp [bitsFrom, toNat]
  | succ j ih =>
    rw [bitsFrom]
    by_cases hj : j < pn.length
    · have hx : pn[j] < 2 ^ 32 := h _ (List.getElem_mem _)
      have hg : pn.getD j 0 = pn[j] := by simp [List.getD_eq_getElem?_getD, hj]
      have ht : pn.take (j + 1) = pn.take j ++ [pn[j]] := by
        rw [List.take_succ]; simp [hj]
      have hl : (pn.take j).length = j := by rw [List.length_take]; omega
      have hr : toNat (pn.take j) < 2 ^ (32 * j) := by
        have := toNat_lt_of_limbs (l := pn.take j) (fun x hx => h x (List.mem_of_mem_take hx))
        rwa [hl] at this
      rw [hg, ht, toNat_append_singleton, hl]
      by_cases h0 : pn[j] = 0
      · rw [if_neg (by simpa using h0), ih, h0]; simp
      · rw [if_pos h0, bitsWord_eq 31 _ _ (Nat.pos_of_ne_zero h0) hx,
          size_top hr (Nat.pos_of_ne_zero h0)]
    · have hg : pn.getD j 0 = 0 := by
        rw [List.getD_eq_getElem?_getD, List.getElem?_eq_none (by omega)]; rfl
      rw [hg, if_neg (by simp), ih, List.take_of_length_le (by omega),
        List.take_of_length_le (by omega)]

/-- Function `bits()` is the bit length of the value. -/
theorem bits_eq {a : List Nat} (h : WF a) : bits a = Nat.size (toNat a) := by
  rw [bits, bitsFrom_eq a h.2, List.take_of_length_le (by rw [h.1])]

end base_uint

namespace base_uint

theorem toNat_take_succ (pn : List Nat) (h : ∀ x ∈ pn, x < 2 ^ 32) (j : Nat)
    (hj : j < pn.length) :
    toNat (pn.take (j + 1)) = toNat (pn.take j) + 2 ^ (32 * j) * pn.getD j 0 ∧
      toNat (pn.take j) < 2 ^ (32 * j) := by
  have hg : pn.getD j 0 = pn[j] := by simp [List.getD_eq_getElem?_getD, hj]
  have ht : pn.take (j + 1) = pn.take j ++ [pn[j]] := by
    rw [List.take_succ]; simp [hj]
  have hl : (pn.take j).length = j := by rw [List.length_take]; omega
  have hr : toNat (pn.take j) < 2 ^ (32 * j) := by
    have := toNat_lt_of_limbs (l := pn.take j) (fun x hx => h x (List.mem_of_mem_take hx))
    rwa [hl] at this
  rw [hg, ht, toNat_append_singleton, hl]
  exact ⟨rfl, hr⟩

theorem CompareFrom_eq (a b : List Nat) (ha : ∀ x ∈ a, x < 2 ^ 32) (hb : ∀ x ∈ b, x < 2 ^ 32)
    (j : Nat) (hja : j ≤ a.length) (hjb : j ≤ b.length) :
    CompareFrom a b j =
      if toNat (a.take j) < toNat (b.take j) then -1
      else if toNat (a.take j) > toNat (b.take j) then 1 else 0 := by
  induction j with
  | zero => simp [CompareFrom, toNat]
  | succ j ih =>
    obtain ⟨ea, la⟩ := toNat_take_succ a ha j (by omega)
    obtain ⟨eb, lb⟩ := toNat_take_succ b hb j (by omega)
    rw [CompareFrom, ea, eb, ih (by omega) (by omega)]
    generalize a.getD j 0 = x at *
    generalize b.getD j 0 = y at *
    generalize toNat (a.take j) = A at *
    generalize toNat (b.take j) = B at *
    generalize 2 ^ (32 * j) = M at *
    rcases lt_trichotomy x y with h | h | h
    · have : M * (x + 1) ≤ M * y := Nat.mul_le_mul_left _ h
      rw [Nat.mul_add, Nat.mul_one] at this
      split_ifs <;> first | rfl | omega
    · subst h
      split_ifs <;> first | rfl | omega
    · have : M * (y + 1) ≤ M * x := Nat.mul_le_mul_left _ h
      rw [Nat.mul_add, Nat.mul_one] at this
      split_ifs <;> first | rfl | omega

/-- Function `CompareTo` compares the values. -/
theorem CompareTo_eq {a b : List Nat} (ha : WF a) (hb : WF b) :
    CompareTo a b =
      if toNat a < toNat b then -1 else if toNat a > toNat b then 1 else 0 := by
  have h := CompareFrom_eq a b ha.2 hb.2 WIDTH (by rw [ha.1]) (by rw [hb.1])
  rwa [List.take_of_length_le (by rw [ha.1]), List.take_of_length_le (by rw [hb.1])] at h

theorem CompareTo_pos {a b : List Nat} (ha : WF a) (hb : WF b) :
    CompareTo a b > 0 ↔ toNat a > toNat b := by
  rw [CompareTo_eq ha hb]
  split_ifs <;> omega

theorem CompareTo_nonneg {a b : List Nat} (ha : WF a) (hb : WF b) :
    CompareTo a b ≥ 0 ↔ toNat a ≥ toNat b := by
  rw [CompareTo_eq ha hb]
  split_ifs <;> omega

/-- Function `EqualTo(uint64_t)` compares the value with the word. -/
theorem EqualTo_eq {a : List Nat} (ha : WF a) {b : Nat} (hb : b < 2 ^ 64) :
    EqualTo a b = true ↔ toNat a = b := by
  obtain ⟨a0, a1, a2, a3, a4, a5, a6, a7, rfl, h0, h1, h2, h3, h4, h5, h6, h7⟩ := ha.cases
  have e : highLimbsZero [a0, a1, a2, a3, a4, a5, a6, a7] = true ↔
      (a2 = 0 ∧ a3 = 0 ∧ a4 = 0 ∧ a5 = 0 ∧ a6 = 0 ∧ a7 = 0) := by
    simp [highLimbsZero, WIDTH, List.range_succ]
  simp only [EqualTo, e, List.getD_cons_zero, List.getD_cons_succ, and_mask32,
    Nat.shiftRight_eq_div_pow, toNat]
  split_ifs <;> simp <;> omega

end base_uint

theorem base_uint.ofUInt64_zero : base_uint.ofUInt64 0 = [0, 0, 0, 0, 0, 0, 0, 0] := by decide

/-- Case analysis on a `uint256`: it is a list of 32 bytes. -/
theorem uint256.WF.bytes {P : List Nat → Prop}
    (hP : ∀ c0 c1 c2 c3 c4 c5 c6 c7 c8 c9 c10 c11 c12 c13 c14 c15
      c16 c17 c18 c19 c20 c21 c22 c23 c24 c25 c26 c27 c28 c29 c30 c31 : Nat,
      c0 < 2 ^ 8 → c1 < 2 ^ 8 → c2 < 2 ^ 8 → c3 < 2 ^ 8 → c4 < 2 ^ 8 → c5 < 2 ^ 8 →
      c6 < 2 ^ 8 → c7 < 2 ^ 8 → c8 < 2 ^ 8 → c9 < 2 ^ 8 → c10 < 2 ^ 8 → c11 < 2 ^ 8 →
      c12 < 2 ^ 8 → c13 < 2 ^ 8 → c14 < 2 ^ 8 → c15 < 2 ^ 8 → c16 < 2 ^ 8 → c17 < 2 ^ 8 →
      c18 < 2 ^ 8 → c19 < 2 ^ 8 → c20 < 2 ^ 8 → c21 < 2 ^ 8 → c22 < 2 ^ 8 → c23 < 2 ^ 8 →
      c24 < 2 ^ 8 → c25 < 2 ^ 8 → c26 < 2 ^ 8 → c27 < 2 ^ 8 → c28 < 2 ^ 8 → c29 < 2 ^ 8 →
      c30 < 2 ^ 8 → c31 < 2 ^ 8 →
      P
     [c0, c1, c2, c3, c4, c5, c6, c7, c8, c9, c10, c11, c12, c13, c14, c15, c16, c17, c18, c19,
      c20, c21, c22, c23, c24, c25, c26, c27, c28, c29, c30, c31])
    {a : List Nat} (h : uint256.WF a) : P a := by
  obtain ⟨hl, hb⟩ := h
  match a, hl, hb with
  | [c0, c1, c2, c3, c4, c5, c6, c7, c8, c9, c10, c11, c12, c13, c14, c15, c16, c17, c18, c19, c20, c21, c22, c23, c24, c25, c26, c27, c28, c29, c30, c31], _, hb =>
    simp only [List.mem_cons, List.mem_singleton] at hb
    apply hP <;> apply hb <;> simp

theorem readLE32_aux {x0 x1 x2 x3 : Nat} (h0 : x0 < 2 ^ 8) (h1 : x1 < 2 ^ 8) (h2 : x2 < 2 ^ 8)
    (h3 : x3 < 2 ^ 8) :
    (x0 + 2 ^ 8 * x1 + 2 ^ 16 * x2 + 2 ^ 24 * x3) % 2 ^ 32 =
      x0 + 2 ^ 8 * x1 + 2 ^ 16 * x2 + 2 ^ 24 * x3 := by
  omega

/-- Function `UintToArith256` keeps the little-endian value of the 32 bytes. -/
theorem UintToArith256_spec {a : List Nat} (h : uint256.WF a) :
    base_uint.WF (UintToArith256 a) ∧ base_uint.toNat (UintToArith256 a) = uint256.toNat a := by
  refine uint256.WF.bytes (P := fun a => base_uint.WF (UintToArith256 a) ∧
    base_uint.toNat (UintToArith256 a) = uint256.toNat a) ?_ h
  intro c0 c1 c2 c3 c4 c5 c6 c7 c8 c9 c10 c11 c12 c13 c14 c15 c16 c17 c18 c19 c20 c21 c22 c23 c24 c25 c26 c27 c28 c29 c30 c31 h0 h1 h2 h3 h4 h5 h6 h7 h8 h9 h10 h11 h12 h13 h14 h15 h16 h17 h18 h19 h20 h21 h22 h23 h24 h25 h26 h27 h28 h29 h30 h31
  have key : UintToArith256
     [c0, c1, c2, c3, c4, c5, c6, c7, c8, c9, c10, c11, c12, c13, c14, c15, c16, c17, c18, c19,
      c20, c21, c22, c23, c24, c25, c26, c27, c28, c29, c30, c31] =
      [(c0 + 2 ^ 8 * c1 + 2 ^ 16 * c2 + 2 ^ 24 * c3) % 2 ^ 32,
       (c4 + 2 ^ 8 * c5 + 2 ^ 16 * c6 + 2 ^ 24 * c7) % 2 ^ 32,
       (c8 + 2 ^ 8 * c9 + 2 ^ 16 * c10 + 2 ^ 24 * c11) % 2 ^ 32,
       (c12 + 2 ^ 8 * c13 + 2 ^ 16 * c14 + 2 ^ 24 * c15) % 2 ^ 32,
       (c16 + 2 ^ 8 * c17 + 2 ^ 16 * c18 + 2 ^ 24 * c19) % 2 ^ 32,
       (c20 + 2 ^ 8 * c21 + 2 ^ 16 * c22 + 2 ^ 24 * c23) % 2 ^ 32,
       (c24 + 2 ^ 8 * c25 + 2 ^ 16 * c26 + 2 ^ 24 * c27) % 2 ^ 32,
       (c28 + 2 ^ 8 * c29 + 2 ^ 16 * c30 + 2 ^ 24 * c31) % 2 ^ 32] := by
    simp only [UintToArith256, base_uint.range_WIDTH, List.foldl_cons, List.foldl_nil, ReadLE32,
      base_uint.ofUInt64_zero, List.set_cons_zero, List.set_cons_succ, List.getD_cons_zero,
      List.getD_cons_succ, Nat.reduceMul, Nat.reduceAdd]
  rw [key]
  refine ⟨?_, ?_⟩
  · apply base_uint.WF.mk8 <;> exact Nat.mod_lt _ (by norm_num)
  · rw [readLE32_aux h0 h1 h2 h3,
      readLE32_aux h4 h5 h6 h7,
      readLE32_aux h8 h9 h10 h11,
      readLE32_aux h12 h13 h14 h15,
      readLE32_aux h16 h17 h18 h19,
      readLE32_aux h20 h21 h22 h23,
      readLE32_aux h24 h25 h26 h27,
      readLE32_aux h28 h29 h30 h31]
    simp only [base_uint.toNat, uint256.toNat]
    ring

namespace base_uint

theorem toNat_append (l1 l2 : List Nat) :
    toNat (l1 ++ l2) = toNat l1 + 2 ^ (32 * l1.length) * toNat l2 := by
  induction l1 with
  | nil => simp [toNat]
  | cons y ys ih =>
    rw [List.cons_append, toNat, ih, toNat, List.length_cons, Nat.mul_succ, pow_add]
    ring

theorem toNat_set (l : List Nat) (i v : Nat) (hi : i < l.length) :
    toNat (l.set i v) =
      toNat (l.take i) + 2 ^ (32 * i) * (v + 2 ^ 32 * toNat (l.drop (i + 1))) := by
  have hl : (l.take i).length = i := by rw [List.length_take]; omega
  rw [List.set_eq_take_append_cons_drop, if_pos hi, toNat_append, hl, toNat]

theorem toNat_split (l : List Nat) (i : Nat) (hi : i < l.length) :
    toNat l =
      toNat (l.take i) + 2 ^ (32 * i) * (l.getD i 0 + 2 ^ 32 * toNat (l.drop (i + 1))) := by
  have hg : l.getD i 0 = l[i] := by simp [List.getD_eq_getElem?_getD, hi]
  have hl : (l.take i).length = i := by rw [List.length_take]; omega
  have e : l = l.take i ++ l[i] :: l.drop (i + 1) := by
    rw [← List.drop_eq_getElem_cons hi, List.take_append_drop]
  conv_lhs => rw [e]
  rw [toNat_append, hl, toNat, hg]

theorem sub_spec {a b : List Nat} (ha : WF a) (hb : WF b) (hle : toNat b ≤ toNat a) :
    WF (sub a b) ∧ toNat (sub a b) = toNat a - toNat b := by
  refine ⟨ofNat_wf _, ?_⟩
  have h1 := toNat_lt ha
  have h2 := toNat_lt hb
  rw [sub, toNat_ofNat]
  omega

theorem add_spec (a b : List Nat) :
    WF (add a b) ∧ toNat (add a b) = (toNat a + toNat b) % 2 ^ 256 := by
  refine ⟨ofNat_wf _, ?_⟩
  rw [add, toNat_ofNat, Nat.mod_mod]

theorem compl_spec {a : List Nat} (ha : WF a) :
    WF (compl a) ∧ toNat (compl a) = 2 ^ 256 - 1 - toNat a := by
  obtain ⟨a0, a1, a2, a3, a4, a5, a6, a7, rfl, h0, h1, h2, h3, h4, h5, h6, h7⟩ := ha.cases
  simp only [compl, List.map_cons, List.map_nil]
  refine ⟨?_, ?_⟩
  · apply WF.mk8 <;> omega
  · simp only [toNat]
    omega

/-- Setting bit `shift` of a quotient whose low `shift + 1` bits are clear adds
`2 ^ shift`. -/
theorem setBit_spec {pn : List Nat} (h : WF pn) (shift : Nat) (hs : shift < 256)
    (hdvd : toNat pn % 2 ^ (shift + 1) = 0) :
    WF (pn.set (shift / 32)
        (pn.getD (shift / 32) 0 ||| ((1 <<< (shift &&& 31)) % 2 ^ 32))) ∧
    toNat (pn.set (shift / 32)
        (pn.getD (shift / 32) 0 ||| ((1 <<< (shift &&& 31)) % 2 ^ 32))) =
      toNat pn + 2 ^ shift := by
  have hi : shift / 32 < pn.length := by rw [h.1]; simp only [WIDTH]; omega
  have e31 : shift &&& 31 = shift % 32 := Nat.and_pow_two_sub_one_eq_mod shift 5
  have hs32 : shift % 32 < 32 := Nat.mod_lt _ (by norm_num)
  have hshift : shift = 32 * (shift / 32) + shift % 32 := (Nat.div_add_mod shift 32).symm
  generalize hi' : shift / 32 = i at *
  generalize hs' : shift % 32 = s at *
  have hpow : (2 : Nat) ^ s < 2 ^ 32 := Nat.pow_lt_pow_right (by norm_num) hs32
  rw [e31, Nat.one_shiftLeft, Nat.mod_eq_of_lt hpow]
  have hx : pn.getD i 0 < 2 ^ 32 := by
    have hg : pn.getD i 0 = pn[i] := by simp [List.getD_eq_getElem?_getD, hi]
    rw [hg]; exact h.2 _ (List.getElem_mem _)
  have hsplit := toNat_split pn i hi
  have hset := fun v => toNat_set pn i v hi
  have hT : toNat (pn.take i) < 2 ^ (32 * i) := by
    have hl : (pn.take i).length = i := by rw [List.length_take]; omega
    have := toNat_lt_of_limbs (l := pn.take i) (fun x hx => h.2 x (List.mem_of_mem_take hx))
    rwa [hl] at this
  generalize toNat (pn.take i) = T at *
  generalize toNat (pn.drop (i + 1)) = R at *
  generalize pn.getD i 0 = x at *
  -- the low part vanishes and the limb is a multiple of `2 ^ (s + 1)`
  have hD : 2 ^ (shift + 1) = 2 ^ (32 * i) * 2 ^ (s + 1) := by
    rw [← pow_add]; congr 1; omega
  have hdvd' : 2 ^ (32 * i) * 2 ^ (s + 1) ∣ T + 2 ^ (32 * i) * (x + 2 ^ 32 * R) := by
    rw [← hD, ← hsplit]; exact Nat.dvd_of_mod_eq_zero hdvd
  have hT0 : T = 0 := by
    have h1 : 2 ^ (32 * i) ∣ T + 2 ^ (32 * i) * (x + 2 ^ 32 * R) :=
      Dvd.dvd.trans (Dvd.intro _ rfl) hdvd'
    have h2 : 2 ^ (32 * i) ∣ T := (Nat.dvd_add_left (Dvd.intro _ rfl)).mp h1
    exact Nat.eq_zero_of_dvd_of_lt h2 hT
  subst hT0
  rw [Nat.zero_add] at hdvd'
  have hx2 : 2 ^ (s + 1) ∣ x := by
    have h1 : 2 ^ (s + 1) ∣ x + 2 ^ 32 * R :=
      Nat.dvd_of_mul_dvd_mul_left (by positivity) hdvd'
    have h2 : 2 ^ (s + 1) ∣ 2 ^ 32 * R :=
      Dvd.dvd.mul_right (Nat.pow_dvd_pow 2 (by omega)) R
    exact (Nat.dvd_add_left h2).mp h1
  obtain ⟨m, rfl⟩ := hx2
  have hor : 2 ^ (s + 1) * m ||| 2 ^ s = 2 ^ (s + 1) * m + 2 ^ s :=
    (Nat.mul_add_lt_is_or (Nat.pow_lt_pow_right (by norm_num) (Nat.lt_succ_self s)) m).symm
  have hlt : 2 ^ (s + 1) * m ||| 2 ^ s < 2 ^ 32 := Nat.or_lt_two_pow hx hpow
  refine ⟨⟨?_, ?_⟩, ?_⟩
  · rw [List.length_set]; exact h.1
  · intro y hy
    rcases List.mem_or_eq_of_mem_set hy with hy | hy
    · exact h.2 y hy
    · rw [hy]; exact hlt
  · rw [hset, hsplit, hor]
    have e : 2 ^ shift = 2 ^ (32 * i) * 2 ^ s := by rw [← pow_add]; congr 1
    rw [e]
    ring


/-- The long-division loop: entered with `div = b * 2 ^ shift`, a remainder below
`b * 2 ^ (shift + 1)` and a quotient whose low `shift + 1` bits are clear, it adds
`num / b` to the quotient. -/
theorem divLoop_spec (b : Nat) (hb : 0 < b) (n : Nat) :
    ∀ num div pn : List Nat, WF num → WF div → WF pn → n ≤ 256 →
      (∀ shift, n = shift + 1 → toNat div = b * 2 ^ shift) →
      toNat num < b * 2 ^ n → toNat pn % 2 ^ n = 0 →
      WF (divLoop num div pn n) ∧ toNat (divLoop num div pn n) = toNat pn + toNat num / b := by
  induction n with
  | zero =>
    intro num div pn _ _ hpn _ _ hlt _
    rw [divLoop]
    refine ⟨hpn, ?_⟩
    rw [pow_zero, Nat.mul_one] at hlt
    rw [Nat.div_eq_of_lt hlt, Nat.add_zero]
  | succ shift ih =>
    intro num div pn hnum hdiv hpn hn hd hlt hq
    have hdv : toNat div = b * 2 ^ shift := hd shift rfl
    obtain ⟨hdiv', hdiv'v⟩ := shr_spec hdiv 1
    have hd' : ∀ s, shift = s + 1 → toNat (shr div 1) = b * 2 ^ s := by
      intro s hs
      rw [hdiv'v, hdv, hs, pow_succ, ← Nat.mul_assoc, pow_one, Nat.mul_div_cancel _ (by norm_num)]
    have hq' : toNat pn % 2 ^ shift = 0 := by
      have h1 : 2 ^ shift ∣ 2 ^ (shift + 1) := Nat.pow_dvd_pow 2 (Nat.le_succ _)
      exact Nat.mod_eq_zero_of_dvd (Dvd.dvd.trans h1 (Nat.dvd_of_mod_eq_zero hq))
    rw [divLoop]
    by_cases hc : CompareTo num div ≥ 0
    · rw [if_pos hc]
      have hge : toNat div ≤ toNat num := (CompareTo_nonneg hnum hdiv).mp hc
      obtain ⟨hsubw, hsubv⟩ := sub_spec hnum hdiv hge
      obtain ⟨hsetw, hsetv⟩ := setBit_spec hpn shift (by omega) hq
      have hlt' : toNat (sub num div) < b * 2 ^ shift := by
        rw [hsubv, hdv]
        rw [pow_succ, ← Nat.mul_assoc] at hlt
        omega
      have hq'' : toNat (pn.set (shift / 32)
          (pn.getD (shift / 32) 0 ||| ((1 <<< (shift &&& 31)) % 2 ^ 32))) % 2 ^ shift = 0 := by
        rw [hsetv, Nat.add_mod, hq', Nat.mod_self]; rfl
      obtain ⟨hw, hv⟩ := ih _ _ _ hsubw hdiv' hsetw (by omega) hd' hlt' hq''
      refine ⟨hw, ?_⟩
      rw [hv, hsetv, hsubv, hdv]
      have e : toNat num = (toNat num - b * 2 ^ shift) + b * 2 ^ shift := by
        rw [hdv] at hge; omega
      conv_rhs => rw [e, Nat.add_mul_div_left _ _ hb]
      omega
    · rw [if_neg hc]
      have hlt' : toNat num < b * 2 ^ shift := by
        have := (CompareTo_nonneg hnum hdiv).not.mp hc
        rw [hdv] at this
        omega
      exact ih _ _ _ hnum hdiv' hpn (by omega) hd' hlt' hq'

/-- Function `operator/=` throws exactly on a zero divisor and otherwise returns the floor of the
quotient. -/
theorem div_spec {a b : List Nat} (ha : WF a) (hb : WF b) :
    (toNat b = 0 → div a b = none) ∧
    (toNat b ≠ 0 → ∃ q, div a b = some q ∧ WF q ∧ toNat q = toNat a / toNat b) := by
  have hbits_a := bits_eq ha
  have hbits_b := bits_eq hb
  have hA := toNat_lt ha
  have hB := toNat_lt hb
  constructor
  · intro h0
    have : bits b = 0 := by rw [hbits_b, h0, Nat.size_zero]
    simp only [div, this, if_true]
  · intro h0
    have hbpos : 0 < toNat b := Nat.pos_of_ne_zero h0
    have hsb : 0 < bits b := by rw [hbits_b]; exact Nat.size_pos.mpr hbpos
    obtain ⟨hb1, hb2⟩ := size_bounds hbpos
    have ha2 : toNat a < 2 ^ Nat.size (toNat a) := Nat.size_le.mp le_rfl
    have hsa : Nat.size (toNat a) ≤ 256 := Nat.size_le.mpr hA
    simp only [div, if_neg (Nat.ne_of_gt hsb)]
    rw [← hbits_a, ← hbits_b] at *
    by_cases hgt : bits b > bits a
    · rw [if_pos hgt]
      refine ⟨ofUInt64 0, rfl, ofUInt64_wf 0, ?_⟩
      rw [toNat_ofUInt64]
      have h1 : (2 : Nat) ^ bits a ≤ 2 ^ (bits b - 1) :=
        Nat.pow_le_pow_right (by norm_num) (by omega)
      rw [Nat.div_eq_of_lt (by omega)]
      rfl
    · rw [if_neg hgt]
      have hle : bits b ≤ bits a := by omega
      obtain ⟨hsw, hsv⟩ := shl_spec hb (bits a - bits b)
      have e1 : (2 : Nat) ^ bits a = 2 ^ bits b * 2 ^ (bits a - bits b) := by
        rw [← pow_add]; congr 1; omega
      have e2 : (2 : Nat) ^ bits a = 2 ^ (bits b - 1) * 2 ^ (bits a - bits b + 1) := by
        rw [← pow_add]; congr 1; omega
      have h256 : (2 : Nat) ^ bits a ≤ 2 ^ 256 := Nat.pow_le_pow_right (by norm_num) hsa
      have hshl : toNat (shl b (bits a - bits b)) = toNat b * 2 ^ (bits a - bits b) := by
        rw [hsv, Nat.mod_eq_of_lt]
        have : toNat b * 2 ^ (bits a - bits b) < 2 ^ bits b * 2 ^ (bits a - bits b) :=
          Nat.mul_lt_mul_of_pos_right hb2 (by positivity)
        omega
      have hnum : toNat a < toNat b * 2 ^ (bits a - bits b + 1) := by
        have : 2 ^ (bits b - 1) * 2 ^ (bits a - bits b + 1) ≤
            toNat b * 2 ^ (bits a - bits b + 1) := Nat.mul_le_mul_right _ hb1
        omega
      obtain ⟨hw, hv⟩ := divLoop_spec (toNat b) hbpos (bits a - bits b + 1) a
        (shl b (bits a - bits b)) (ofUInt64 0) ha hsw (ofUInt64_wf 0) (by omega)
        (fun s hs => by rw [hshl]; congr 2; omega) hnum (by rw [toNat_ofUInt64]; rfl)
      refine ⟨_, rfl, hw, ?_⟩
      rw [hv, toNat_ofUInt64]
      simp

end base_uint

/-! ## The compact codec -/

namespace arith_uint256
open base_uint

theorem pow256 (k : Nat) : (256 : Nat) ^ k = 2 ^ (8 * k) := by
  rw [pow_mul]; norm_num

theorem mantissa_eq (nBits : Nat) : nBits &&& 0x007fffff = nBits % 2 ^ 23 :=
  Nat.and_pow_two_sub_one_eq_mod nBits 23

theorem mantissa_lt (nBits : Nat) : nBits &&& 0x007fffff < 2 ^ 23 := by
  rw [mantissa_eq]; exact Nat.mod_lt _ (by norm_num)

/-- The value `SetCompact` stores, in terms of the mantissa and exponent fields. -/
theorem SetCompact_value (nBits : Nat) :
    WF (SetCompact nBits).value ∧
    toNat (SetCompact nBits).value =
      if nBits >>> 24 ≤ 3 then (nBits &&& 0x007fffff) / 256 ^ (3 - nBits >>> 24)
      else ((nBits &&& 0x007fffff) * 256 ^ (nBits >>> 24 - 3)) % 2 ^ 256 := by
  have hM := mantissa_lt nBits
  by_cases hE : nBits >>> 24 ≤ 3
  · simp only [SetCompact, if_pos hE]
    refine ⟨ofUInt64_wf _, ?_⟩
    rw [toNat_ofUInt64, Nat.shiftRight_eq_div_pow, pow256, Nat.mod_eq_of_lt]
    exact lt_of_le_of_lt (Nat.div_le_self _ _) (lt_trans hM (by norm_num))
  · simp only [SetCompact, if_neg hE]
    obtain ⟨hw, hv⟩ := shl_spec (ofUInt64_wf (nBits &&& 0x007fffff)) (8 * (nBits >>> 24 - 3))
    refine ⟨hw, ?_⟩
    rw [hv, toNat_ofUInt64, pow256, Nat.mod_eq_of_lt (lt_trans hM (by norm_num))]

/-- The flags `SetCompact` reports; the mantissa they read is the shifted one when the
exponent is at most 3. -/
theorem SetCompact_flags (nBits : Nat) :
    (SetCompact nBits).fNegative =
      decide ((if nBits >>> 24 ≤ 3 then (nBits &&& 0x007fffff) / 256 ^ (3 - nBits >>> 24)
          else nBits &&& 0x007fffff) ≠ 0 ∧ nBits &&& 0x00800000 ≠ 0) ∧
    (SetCompact nBits).fOverflow =
      decide (nBits &&& 0x007fffff ≠ 0 ∧ (nBits >>> 24 > 34 ∨
        (nBits &&& 0x007fffff > 0xff ∧ nBits >>> 24 > 33) ∨
        (nBits &&& 0x007fffff > 0xffff ∧ nBits >>> 24 > 32))) := by
  by_cases hE : nBits >>> 24 ≤ 3
  · have h1 : ¬ nBits >>> 24 > 34 := by omega
    have h2 : ¬ nBits >>> 24 > 33 := by omega
    have h3 : ¬ nBits >>> 24 > 32 := by omega
    simp only [SetCompact, if_pos hE, Nat.shiftRight_eq_div_pow _ (8 * _), pow256]
    simp [h1, h2, h3]
  · simp only [SetCompact, if_neg hE]
    simp [Bool.or_assoc]

end arith_uint256

/-! ## Claims about the compact decoder -/

namespace arith_uint256
open base_uint

theorem overflow_iff (M E : Nat) (hM : M < 2 ^ 23) :
    (M ≠ 0 ∧ (E > 34 ∨ (M > 0xff ∧ E > 33) ∨ (M > 0xffff ∧ E > 32))) ↔
      2 ^ 256 * 256 ^ 3 ≤ M * 256 ^ E := by
  by_cases h0 : M = 0
  · subst h0; simp
  · have hpos : 1 ≤ M := Nat.pos_of_ne_zero h0
    by_cases h35 : 35 ≤ E
    · have h1 : (256 : Nat) ^ 35 ≤ 256 ^ E := Nat.pow_le_pow_right (by norm_num) h35
      have h2 : 1 * 256 ^ E ≤ M * 256 ^ E := Nat.mul_le_mul_right _ hpos
      have h3 : (2 : Nat) ^ 256 * 256 ^ 3 = 256 ^ 35 := by norm_num
      constructor
      · intro _; omega
      · intro _; exact ⟨h0, Or.inl (by omega)⟩
    · by_cases h34 : E = 34
      · subst h34
        norm_num
        omega
      · by_cases h33 : E = 33
        · subst h33
          norm_num
          omega
        · have hE : E ≤ 32 := by omega
          have h1 : (256 : Nat) ^ E ≤ 256 ^ 32 := Nat.pow_le_pow_right (by norm_num) hE
          have h2 : M * 256 ^ E ≤ M * 256 ^ 32 := Nat.mul_le_mul_left _ h1
          have h3 : M * 256 ^ 32 < 2 ^ 256 * 256 ^ 3 := by norm_num; omega
          constructor
          · rintro ⟨_, h | h | h⟩ <;> omega
          · intro h; omega

/-- C6: for a 32-bit packed value with mantissa field `M = bits & 0x7fffff` and exponent
`E = bits >> 24`, `SetCompact` stores `floor(M / 256^(3-E))` when `E <= 3` and
`(M * 256^(E-3)) mod 2^256` when `E > 3`; `0x1d00ffff` decodes to `0xffff * 2^208`. -/
theorem SetCompact_decoded_value (nBits : Nat) (_h : nBits < 2 ^ 32) :
    toNat (SetCompact nBits).value =
        (if nBits >>> 24 ≤ 3 then (nBits &&& 0x007fffff) / 256 ^ (3 - nBits >>> 24)
         else ((nBits &&& 0x007fffff) * 256 ^ (nBits >>> 24 - 3)) % 2 ^ 256) ∧
      toNat (SetCompact 0x1d00ffff).value = 0xffff * 2 ^ 208 := by
  refine ⟨(SetCompact_value nBits).2, ?_⟩
  rw [(SetCompact_value 0x1d00ffff).2]
  decide

/-- Witness of C6 at the packed target `0x1b0404cb`. -/
theorem SetCompact_decoded_value_witness :
    0x1b0404cb < 2 ^ 32 ∧
      (toNat (SetCompact 0x1b0404cb).value =
        (if 0x1b0404cb >>> 24 ≤ 3 then (0x1b0404cb &&& 0x007fffff) / 256 ^ (3 - 0x1b0404cb >>> 24)
         else ((0x1b0404cb &&& 0x007fffff) * 256 ^ (0x1b0404cb >>> 24 - 3)) % 2 ^ 256) ∧
      toNat (SetCompact 0x1d00ffff).value = 0xffff * 2 ^ 208) :=
  ⟨by norm_num, SetCompact_decoded_value 0x1b0404cb (by norm_num)⟩

/-- C7, as stated, fails: `0x01800001` has a non-zero mantissa field and bit `0x800000`
set, yet `SetCompact` reports it as not negative (the flag reads the mantissa after its
right shift by `8 * (3 - E)`, which is zero here). -/
theorem SetCompact_negative_counterexample :
    0x01800001 < 2 ^ 32 ∧ 0x01800001 &&& 0x007fffff = 1 ∧
      0x01800001 &&& 0x00800000 = 0x00800000 ∧
      (SetCompact 0x01800001).fNegative = false := by
  decide

/-- C7, amended: the negative flag is set exactly when bit `0x800000` is set and the
mantissa the decoder keeps is non-zero, that is `M` itself when `E > 3` and
`floor(M / 256^(3-E))` when `E <= 3`. -/
theorem SetCompact_negative_flag (nBits : Nat) (_h : nBits < 2 ^ 32) :
    (SetCompact nBits).fNegative = true ↔
      ((if nBits >>> 24 ≤ 3 then (nBits &&& 0x007fffff) / 256 ^ (3 - nBits >>> 24)
        else nBits &&& 0x007fffff) ≠ 0 ∧ nBits &&& 0x00800000 ≠ 0) := by
  rw [(SetCompact_flags nBits).1, decide_eq_true_iff]

/-- Witness of the amended C7 at `0x01fedcba`. -/
theorem SetCompact_negative_flag_witness :
    0x01fedcba < 2 ^ 32 ∧
      ((SetCompact 0x01fedcba).fNegative = true ↔
        ((if 0x01fedcba >>> 24 ≤ 3 then (0x01fedcba &&& 0x007fffff) / 256 ^ (3 - 0x01fedcba >>> 24)
          else 0x01fedcba &&& 0x007fffff) ≠ 0 ∧ 0x01fedcba &&& 0x00800000 ≠ 0)) :=
  ⟨by norm_num, SetCompact_negative_flag 0x01fedcba (by norm_num)⟩

/-- C8: with `M = bits & 0x7fffff` and `E = bits >> 24`, the overflow flag equals
`M != 0 AND (E > 34 OR (M > 0xff AND E > 33) OR (M > 0xffff AND E > 32))`; it is set
exactly when the untruncated value `M * 256^(E-3)` reaches `2^256` (stated without the
fraction as `2^256 * 256^3 <= M * 256^E`); and when it is clear the stored value is the
exact one, `floor(M / 256^(3-E))` for `E <= 3` and `M * 256^(E-3)` for `E > 3`. -/
theorem SetCompact_overflow_flag (nBits : Nat) (_h : nBits < 2 ^ 32) :
    (SetCompact nBits).fOverflow =
        decide (nBits &&& 0x007fffff ≠ 0 ∧ (nBits >>> 24 > 34 ∨
          (nBits &&& 0x007fffff > 0xff ∧ nBits >>> 24 > 33) ∨
          (nBits &&& 0x007fffff > 0xffff ∧ nBits >>> 24 > 32))) ∧
      ((SetCompact nBits).fOverflow = true ↔
        2 ^ 256 * 256 ^ 3 ≤ (nBits &&& 0x007fffff) * 256 ^ (nBits >>> 24)) ∧
      ((SetCompact nBits).fOverflow = false →
        toNat (SetCompact nBits).value =
          if nBits >>> 24 ≤ 3 then (nBits &&& 0x007fffff) / 256 ^ (3 - nBits >>> 24)
          else (nBits &&& 0x007fffff) * 256 ^ (nBits >>> 24 - 3)) := by
  have hf := (SetCompact_flags nBits).2
  have hiff := overflow_iff (nBits &&& 0x007fffff) (nBits >>> 24) (mantissa_lt nBits)
  have h2 : (SetCompact nBits).fOverflow = true ↔
      2 ^ 256 * 256 ^ 3 ≤ (nBits &&& 0x007fffff) * 256 ^ (nBits >>> 24) := by
    rw [hf, decide_eq_true_iff]; exact hiff
  refine ⟨hf, h2, ?_⟩
  intro hfalse
  rw [(SetCompact_value nBits).2]
  by_cases hE : nBits >>> 24 ≤ 3
  · rw [if_pos hE, if_pos hE]
  · rw [if_neg hE, if_neg hE]
    apply Nat.mod_eq_of_lt
    have hlt : (nBits &&& 0x007fffff) * 256 ^ (nBits >>> 24) < 2 ^ 256 * 256 ^ 3 := by
      by_contra hc
      rw [h2.mpr (Nat.le_of_not_lt hc)] at hfalse
      exact Bool.noConfusion hfalse
    have e : nBits >>> 24 = (nBits >>> 24 - 3) + 3 := by omega
    rw [e, pow_add, ← Nat.mul_assoc] at hlt
    exact Nat.lt_of_mul_lt_mul_right hlt

/-- Witness of C8 at the overflowing packed value `0x21010000`. -/
theorem SetCompact_overflow_flag_witness :
    0x21010000 < 2 ^ 32 ∧
      ((SetCompact 0x21010000).fOverflow =
          decide (0x21010000 &&& 0x007fffff ≠ 0 ∧ (0x21010000 >>> 24 > 34 ∨
            (0x21010000 &&& 0x007fffff > 0xff ∧ 0x21010000 >>> 24 > 33) ∨
            (0x21010000 &&& 0x007fffff > 0xffff ∧ 0x21010000 >>> 24 > 32))) ∧
        ((SetCompact 0x21010000).fOverflow = true ↔
          2 ^ 256 * 256 ^ 3 ≤ (0x21010000 &&& 0x007fffff) * 256 ^ (0x21010000 >>> 24)) ∧
        ((SetCompact 0x21010000).fOverflow = false →
          toNat (SetCompact 0x21010000).value =
            if 0x21010000 >>> 24 ≤ 3 then
              (0x21010000 &&& 0x007fffff) / 256 ^ (3 - 0x21010000 >>> 24)
            else (0x21010000 &&& 0x007fffff) * 256 ^ (0x21010000 >>> 24 - 3))) :=
  ⟨by norm_num, SetCompact_overflow_flag 0x21010000 (by norm_num)⟩

end arith_uint256

/-! ## The compact encoder -/

namespace arith_uint256
open base_uint

/-- Byte length of a number: `e0 = ceil(bitLength / 8)` bytes hold it, and no fewer. -/
theorem byteLength_bounds (v : Nat) :
    v < 256 ^ ((Nat.size v + 7) / 8) ∧ (v ≠ 0 → 256 ^ ((Nat.size v + 7) / 8 - 1) ≤ v) := by
  constructor
  · have h1 : v < 2 ^ Nat.size v := Nat.size_le.mp le_rfl
    have h2 : (2 : Nat) ^ Nat.size v ≤ 2 ^ (8 * ((Nat.size v + 7) / 8)) :=
      Nat.pow_le_pow_right (by norm_num) (by omega)
    rw [pow256]; omega
  · intro h0
    obtain ⟨h1, _⟩ := size_bounds (Nat.pos_of_ne_zero h0)
    have hs : 0 < Nat.size v := Nat.size_pos.mpr (Nat.pos_of_ne_zero h0)
    have h2 : (2 : Nat) ^ (8 * ((Nat.size v + 7) / 8 - 1)) ≤ 2 ^ (Nat.size v - 1) :=
      Nat.pow_le_pow_right (by norm_num) (by omega)
    rw [pow256]; omega

theorem GetLow64_eq {a : List Nat} (h : WF a) : GetLow64 a = toNat a % 2 ^ 64 := by
  obtain ⟨a0, a1, a2, a3, a4, a5, a6, a7, rfl, h0, h1, h2, h3, h4, h5, h6, h7⟩ := h.cases
  simp only [GetLow64, List.getD_cons_zero, List.getD_cons_succ, base_uint.toNat,
    Nat.shiftLeft_eq]
  rw [Nat.lor_comm, Nat.mul_comm a1, ← Nat.mul_add_lt_is_or h0]
  omega

theorem and_high_mask_eq_zero {m : Nat} (h : m < 2 ^ 23) : m &&& 0xff800000 = 0 := by
  apply Nat.eq_of_testBit_eq
  intro i
  rw [Nat.testBit_and, Nat.zero_testBit]
  by_cases hi : i < 23
  · have : Nat.testBit 0xff800000 i = false := by
      interval_cases i <;> decide
    rw [this, Bool.and_false]
  · have : m.testBit i = false :=
      Nat.testBit_lt_two_pow (lt_of_lt_of_le h (Nat.pow_le_pow_right (by norm_num) (by omega)))
    rw [this, Bool.false_and]

theorem or_sign_bit {e m : Nat} (h : m < 2 ^ 23) :
    (m + 2 ^ 24 * e) ||| 0x00800000 = m + 2 ^ 24 * e + 2 ^ 23 := by
  have h1 : 2 ^ 24 * e + m = 2 ^ 24 * e ||| m := Nat.mul_add_lt_is_or (by omega) e
  have h2 : 2 ^ 23 * 1 + m = 2 ^ 23 * 1 ||| m := Nat.mul_add_lt_is_or h 1
  have h3 : 2 ^ 24 * e + (2 ^ 23 * 1 + m) = 2 ^ 24 * e ||| (2 ^ 23 * 1 + m) :=
    Nat.mul_add_lt_is_or (by omega) e
  have e0 : (0x00800000 : Nat) = 2 ^ 23 * 1 := by norm_num
  rw [Nat.add_comm m, h1, e0, Nat.lor_assoc, Nat.lor_comm m, ← h2, ← h3]
  omega

/-- Function `GetCompact` on limbs computes the packed form of the value, and never fails an
assertion. -/
theorem GetCompact_eq {a : List Nat} (h : WF a) (fNegative : Bool) :
    GetCompact a fNegative = some (compactOfNat (toNat a) fNegative) := by
  have hbits := bits_eq h
  obtain ⟨hv1, _⟩ := byteLength_bounds (toNat a)
  have hlt := toNat_lt h
  have he0 : (Nat.size (toNat a) + 7) / 8 ≤ 32 := by
    have : Nat.size (toNat a) ≤ 256 := Nat.size_le.mpr hlt
    omega
  simp only [GetCompact, compactOfNat, hbits]
  generalize hv : toNat a = v at *
  generalize he : (Nat.size v + 7) / 8 = e0 at *
  -- the three top bytes
  have hm0 : (if e0 ≤ 3 then ((GetLow64 a <<< (8 * (3 - e0))) % 2 ^ 64) % 2 ^ 32
        else GetLow64 (shr a (8 * (e0 - 3))) % 2 ^ 32) =
      (if e0 ≤ 3 then v * 256 ^ (3 - e0) else v / 256 ^ (e0 - 3)) ∧
      (if e0 ≤ 3 then v * 256 ^ (3 - e0) else v / 256 ^ (e0 - 3)) < 2 ^ 24 := by
    by_cases hc : e0 ≤ 3
    · rw [if_pos hc, if_pos hc]
      have hb : v * 256 ^ (3 - e0) < 2 ^ 24 := by
        have e : (2 : Nat) ^ 24 = 256 ^ e0 * 256 ^ (3 - e0) := by
          have : (2 : Nat) ^ 24 = 256 ^ 3 := by norm_num
          rw [this, ← pow_add]; congr 1; omega
        rw [e]
        exact Nat.mul_lt_mul_of_pos_right hv1 (by positivity)
      have hv64 : v < 2 ^ 64 := by
        have : v * 1 ≤ v * 256 ^ (3 - e0) := Nat.mul_le_mul_left _ (Nat.one_le_pow _ _ (by norm_num))
        omega
      rw [GetLow64_eq h, hv, Nat.mod_eq_of_lt hv64, Nat.shiftLeft_eq, ← pow256,
        Nat.mod_eq_of_lt (show v * 256 ^ (3 - e0) < 2 ^ 64 by omega),
        Nat.mod_eq_of_lt (show v * 256 ^ (3 - e0) < 2 ^ 32 by omega)]
      exact ⟨rfl, hb⟩
    · rw [if_neg hc, if_neg hc]
      obtain ⟨hw, hsv⟩ := shr_spec h (8 * (e0 - 3))
      have hb : v / 256 ^ (e0 - 3) < 2 ^ 24 := by
        have e : (256 : Nat) ^ e0 = 2 ^ 24 * 256 ^ (e0 - 3) := by
          have : (2 : Nat) ^ 24 = 256 ^ 3 := by norm_num
          rw [this, ← pow_add]; congr 1; omega
        rw [Nat.div_lt_iff_lt_mul (by positivity), ← e]
        exact hv1
      rw [GetLow64_eq hw, hsv, hv, ← pow256,
        Nat.mod_eq_of_lt (show v / 256 ^ (e0 - 3) < 2 ^ 64 by omega),
        Nat.mod_eq_of_lt (show v / 256 ^ (e0 - 3) < 2 ^ 32 by omega)]
      exact ⟨rfl, hb⟩
  rw [hm0.1]
  have hm0lt := hm0.2
  generalize (if e0 ≤ 3 then v * 256 ^ (3 - e0) else v / 256 ^ (e0 - 3)) = m0 at *
  have hbit : m0 &&& 0x00800000 ≠ 0 ↔ 2 ^ 23 ≤ m0 := and_pow_ne_zero_iff m0 23 hm0lt
  by_cases hc : 2 ^ 23 ≤ m0
  · have hm : m0 / 256 < 2 ^ 23 := by omega
    have hmask := and_high_mask_eq_zero hm
    have he24 : ((e0 + 1) <<< 24) % 2 ^ 32 = 2 ^ 24 * (e0 + 1) := by
      rw [Nat.shiftLeft_eq, Nat.mod_eq_of_lt (by omega), Nat.mul_comm]
    have hor : m0 / 256 ||| 2 ^ 24 * (e0 + 1) = m0 / 256 + 2 ^ 24 * (e0 + 1) := by
      rw [Nat.lor_comm, ← Nat.mul_add_lt_is_or (by omega), Nat.add_comm]
    have hlow : (m0 / 256 + 2 ^ 24 * (e0 + 1)) &&& 0x007fffff = m0 / 256 := by
      rw [mantissa_eq]; omega
    simp only [if_pos (hbit.mpr hc), if_pos hc, Nat.shiftRight_eq_div_pow, hmask, he24, hor,
      hlow, ne_eq, not_true_eq_false, if_false, show ¬ (¬ e0 + 1 < 256) by omega]
    split_ifs with h1
    · exact congrArg some (or_sign_bit hm)
    · simp only [Nat.or_zero, Nat.add_zero]
  · have hm : m0 < 2 ^ 23 := by omega
    have hmask := and_high_mask_eq_zero hm
    have he24 : (e0 <<< 24) % 2 ^ 32 = 2 ^ 24 * e0 := by
      rw [Nat.shiftLeft_eq, Nat.mod_eq_of_lt (by omega), Nat.mul_comm]
    have hor : m0 ||| 2 ^ 24 * e0 = m0 + 2 ^ 24 * e0 := by
      rw [Nat.lor_comm, ← Nat.mul_add_lt_is_or (by omega), Nat.add_comm]
    have hlow : (m0 + 2 ^ 24 * e0) &&& 0x007fffff = m0 := by
      rw [mantissa_eq]; omega
    simp only [if_neg (fun hh => hc (hbit.mp hh)), if_neg hc, hmask, he24, hor,
      hlow, ne_eq, not_true_eq_false, if_false, show ¬ (¬ e0 < 256) by omega]
    split_ifs with h1
    · exact congrArg some (or_sign_bit hm)
    · simp only [Nat.or_zero, Nat.add_zero]

end arith_uint256

namespace arith_uint256
open base_uint

/-- The fields of the packed form of `v` (positive sign): mantissa `m` below `2^23`,
exponent `e` at most 33, and the value they denote is `v` with its bytes below position
`e - 3` cleared. -/
theorem compactOfNat_fields (v : Nat) (hv : v < 2 ^ 256) :
    ∃ m e, compactOfNat v false = m + 2 ^ 24 * e ∧ m < 2 ^ 23 ∧ e ≤ 33 ∧
      (e = 33 → m < 2 ^ 16) ∧
      (if e ≤ 3 then m / 256 ^ (3 - e) else m * 256 ^ (e - 3)) =
        v / 256 ^ (e - 3) * 256 ^ (e - 3) ∧
      (∀ m1 k, v = m1 * 256 ^ k → m1 < 2 ^ 23 → e - 3 ≤ k) := by
  obtain ⟨hv1, hv2⟩ := byteLength_bounds v
  have he0 : (Nat.size v + 7) / 8 ≤ 32 := by
    have : Nat.size v ≤ 256 := Nat.size_le.mpr hv
    omega
  have hz : v = 0 → (Nat.size v + 7) / 8 = 0 := by
    intro h0; rw [h0, Nat.size_zero]
  simp only [compactOfNat, Bool.false_eq_true, false_and, if_false, Nat.add_zero]
  generalize (Nat.size v + 7) / 8 = e0 at *
  have h256 : (256 : Nat) ^ 3 = 2 ^ 24 := by norm_num
  -- a value of the form `m1 * 256 ^ k` with `m1 < 2 ^ 23` has at most `k + 3` bytes
  have hlen : ∀ m1 k, v = m1 * 256 ^ k → m1 < 2 ^ 23 → e0 ≤ k + 3 := by
    intro m1 k hvk hm1
    by_contra hc
    have hne : v ≠ 0 := by
      intro h0
      have := hz h0
      omega
    have h1 := hv2 hne
    have h2 : (256 : Nat) ^ (k + 3) ≤ 256 ^ (e0 - 1) :=
      Nat.pow_le_pow_right (by norm_num) (by omega)
    have h3 : m1 * 256 ^ k < 2 ^ 24 * 256 ^ k :=
      Nat.mul_lt_mul_of_pos_right (by omega) (by positivity)
    rw [pow_add, h256, Nat.mul_comm] at h2
    omega
  by_cases hc : e0 ≤ 3
  · rw [if_pos hc]
    have hm0 : v * 256 ^ (3 - e0) < 2 ^ 24 := by
      have e : (2 : Nat) ^ 24 = 256 ^ e0 * 256 ^ (3 - e0) := by
        rw [← h256, ← pow_add]; congr 1; omega
      rw [e]
      exact Nat.mul_lt_mul_of_pos_right hv1 (by positivity)
    by_cases hb : 2 ^ 23 ≤ v * 256 ^ (3 - e0)
    · rw [if_pos hb, if_pos hb]
      refine ⟨_, _, rfl, by omega, by omega, by omega, ?_, ?_⟩
      · by_cases h3 : e0 = 3
        · subst h3
          norm_num
        · have e1 : 3 - e0 = (3 - (e0 + 1)) + 1 := by omega
          have e2 : e0 + 1 - 3 = 0 := by omega
          rw [if_pos (by omega), e2, pow_zero, Nat.div_one, Nat.mul_one, e1, pow_succ,
            ← Nat.mul_assoc, Nat.mul_div_cancel _ (by norm_num),
            Nat.mul_div_cancel _ (by positivity)]
      · intro m1 k hvk hm1
        have := hlen m1 k hvk hm1
        by_contra hcon
        have hk : k = 0 := by omega
        have he : e0 = 3 := by omega
        subst hk; subst he
        rw [pow_zero, Nat.mul_one] at hvk
        norm_num at hb
        omega
    · rw [if_neg hb, if_neg hb]
      refine ⟨_, _, rfl, by omega, by omega, by omega, ?_, ?_⟩
      · have e2 : e0 - 3 = 0 := by omega
        rw [if_pos hc, e2, pow_zero, Nat.div_one, Nat.mul_one,
          Nat.mul_div_cancel _ (by positivity)]
      · intro m1 k _ _
        omega
  · rw [if_neg hc]
    have hm0 : v / 256 ^ (e0 - 3) < 2 ^ 24 := by
      have e : (256 : Nat) ^ e0 = 2 ^ 24 * 256 ^ (e0 - 3) := by
        rw [← h256, ← pow_add]; congr 1; omega
      rw [Nat.div_lt_iff_lt_mul (by positivity), ← e]
      exact hv1
    by_cases hb : 2 ^ 23 ≤ v / 256 ^ (e0 - 3)
    · rw [if_pos hb, if_pos hb]
      have e1 : e0 + 1 - 3 = (e0 - 3) + 1 := by omega
      refine ⟨_, _, rfl, by omega, by omega, by omega, ?_, ?_⟩
      · rw [if_neg (by omega), e1, pow_succ, Nat.div_div_eq_div_mul]
      · intro m1 k hvk hm1
        have := hlen m1 k hvk hm1
        by_contra hcon
        have hk : k ≤ e0 - 3 := by omega
        have e3 : e0 - 3 = k + (e0 - 3 - k) := by omega
        have h4 : v / 256 ^ (e0 - 3) ≤ m1 := by
          rw [hvk, e3, pow_add, ← Nat.div_div_eq_div_mul,
            Nat.mul_div_cancel _ (by positivity)]
          exact Nat.div_le_self _ _
        omega
    · rw [if_neg hb, if_neg hb]
      refine ⟨_, _, rfl, by omega, by omega, by omega, ?_, ?_⟩
      · rw [if_neg hc]
      · intro m1 k hvk hm1
        have := hlen m1 k hvk hm1
        omega


/-- Decoding the packed form of `v` (positive sign): no flag is raised and the value is
`v` with its bytes below position `E - 3` cleared, so never above `v`; it is `v` itself
when `v` is a 23-bit mantissa times a power of 256. -/
theorem SetCompact_compactOfNat (v : Nat) (hv : v < 2 ^ 256) :
    compactOfNat v false < 2 ^ 32 ∧
    (SetCompact (compactOfNat v false)).fNegative = false ∧
    (SetCompact (compactOfNat v false)).fOverflow = false ∧
    toNat (SetCompact (compactOfNat v false)).value =
      v / 256 ^ (compactOfNat v false >>> 24 - 3) * 256 ^ (compactOfNat v false >>> 24 - 3) ∧
    toNat (SetCompact (compactOfNat v false)).value ≤ v ∧
    (∀ m1 k, v = m1 * 256 ^ k → m1 < 2 ^ 23 →
      toNat (SetCompact (compactOfNat v false)).value = v) := by
  obtain ⟨m, e, hc, hm, he, he33, hval, hexact⟩ := compactOfNat_fields v hv
  obtain ⟨hfn, hfo⟩ := SetCompact_flags (compactOfNat v false)
  have hvalue := (SetCompact_value (compactOfNat v false)).2
  have hE : compactOfNat v false >>> 24 = e := by
    rw [Nat.shiftRight_eq_div_pow, hc]; omega
  have hM : compactOfNat v false &&& 0x007fffff = m := by
    rw [mantissa_eq, hc]; omega
  have hS : compactOfNat v false &&& 0x00800000 = 0 := by
    have e23 : (0x00800000 : Nat) = 2 ^ 23 := by norm_num
    have hb : (compactOfNat v false).testBit 23 = false := by
      rw [Nat.testBit_to_div_mod, hc]
      simp only [decide_eq_false_iff_not]
      omega
    rw [e23, Nat.and_two_pow, hb]
    rfl
  have hle : v / 256 ^ (e - 3) * 256 ^ (e - 3) ≤ v := Nat.div_mul_le_self _ _
  have hdec : toNat (SetCompact (compactOfNat v false)).value =
      v / 256 ^ (e - 3) * 256 ^ (e - 3) := by
    rw [hvalue, hE, hM, ← hval]
    by_cases h3 : e ≤ 3
    · rw [if_pos h3, if_pos h3]
    · rw [if_neg h3, if_neg h3]
      apply Nat.mod_eq_of_lt
      have := hval
      rw [if_neg h3] at this
      omega
  refine ⟨by rw [hc]; omega, ?_, ?_, ?_, ?_, ?_⟩
  · rw [hfn, hS]; simp
  · rw [hfo, hE, hM, decide_eq_false_iff_not]
    intro hcon
    obtain ⟨-, h | h | h⟩ := hcon
    · omega
    · omega
    · have := he33 (by omega); omega
  · rw [hdec, hE]
  · rw [hdec]; exact hle
  · intro m1 k hvk hm1
    rw [hdec]
    have hjk := hexact m1 k hvk hm1
    have e3 : k = (k - (e - 3)) + (e - 3) := by omega
    have hdvd : 256 ^ (e - 3) ∣ v := by
      rw [hvk, e3, pow_add, ← Nat.mul_assoc]
      exact Dvd.intro_left _ rfl
    exact Nat.div_mul_cancel hdvd

/-- C9, as stated, fails: `0x800001` fits in 24 bits, but its packed form is `0x04008000`
(the mantissa is shifted down a byte to keep bit `0x800000` free), which decodes to
`0x800000`. -/
theorem compact_roundtrip_counterexample :
    0x800001 = 0x800001 * 256 ^ 0 ∧ 0x800001 < 2 ^ 24 ∧
      GetCompact (ofNat 0x800001) false = some 0x04008000 ∧
      toNat (SetCompact 0x04008000).value = 0x800000 := by
  decide

/-- C9, amended: for every 256-bit value `v = m * 256^k` whose mantissa `m` fits in 23
bits, `GetCompact` succeeds and `SetCompact` of the result stores exactly `v`, raising no
flag. -/
theorem compact_roundtrip (m k : Nat) (hm : m < 2 ^ 23) (hv : m * 256 ^ k < 2 ^ 256) :
    ∃ nBits, GetCompact (ofNat (m * 256 ^ k)) false = some nBits ∧
      toNat (SetCompact nBits).value = m * 256 ^ k ∧
      (SetCompact nBits).fNegative = false ∧ (SetCompact nBits).fOverflow = false := by
  have h1 := GetCompact_eq (ofNat_wf (m * 256 ^ k)) false
  rw [toNat_ofNat, Nat.mod_eq_of_lt hv] at h1
  obtain ⟨_, hn, ho, _, _, hex⟩ := SetCompact_compactOfNat (m * 256 ^ k) hv
  exact ⟨_, h1, hex m k rfl hm, hn, ho⟩

/-- Witness of the amended C9 at `0x123456 * 256^5`. -/
theorem compact_roundtrip_witness :
    0x123456 < 2 ^ 23 ∧ 0x123456 * 256 ^ 5 < 2 ^ 256 ∧
      ∃ nBits, GetCompact (ofNat (0x123456 * 256 ^ 5)) false = some nBits ∧
        toNat (SetCompact nBits).value = 0x123456 * 256 ^ 5 ∧
        (SetCompact nBits).fNegative = false ∧ (SetCompact nBits).fOverflow = false :=
  ⟨by norm_num, by norm_num, compact_roundtrip 0x123456 5 (by norm_num) (by norm_num)⟩

end arith_uint256

/-! ## Proof-of-work check and block proof -/

open base_uint arith_uint256

/-- The acceptance condition shared by `CheckProofOfWork` and `CheckProofOfWorkNew`. -/
theorem CheckProofOfWorkNew_iff (hash : List Nat) (nBits : Nat) (powLimit : List Nat)
    (hh : uint256.WF hash) (hp : uint256.WF powLimit) :
    CheckProofOfWorkNew hash nBits powLimit = true ↔
      ((SetCompact nBits).fNegative = false ∧ (SetCompact nBits).fOverflow = false ∧
        toNat (SetCompact nBits).value ≠ 0 ∧
        toNat (SetCompact nBits).value ≤ uint256.toNat powLimit ∧
        uint256.toNat hash ≤ toNat (SetCompact nBits).value) := by
  obtain ⟨hw, _⟩ := SetCompact_value nBits
  obtain ⟨hpw, hpv⟩ := UintToArith256_spec hp
  obtain ⟨hhw, hhv⟩ := UintToArith256_spec hh
  have h0 := EqualTo_eq hw (b := 0) (by norm_num)
  have h1 := CompareTo_pos hw hpw
  have h2 := CompareTo_pos hhw hw
  rw [hpv] at h1
  rw [hhv] at h2
  simp only [CheckProofOfWorkNew]
  cases hn : (SetCompact nBits).fNegative <;> cases ho : (SetCompact nBits).fOverflow <;>
    cases hz : EqualTo (SetCompact nBits).value 0 <;>
    simp only [Bool.or_true, Bool.true_or, Bool.or_false, Bool.false_or, if_true,
      Bool.false_eq_true, false_and, and_false, iff_false, not_true_eq_false, not_false_eq_true,
      true_and, ne_eq, decide_eq_true_eq, reduceCtorEq] <;>
    try (rw [hz] at h0; simp only [Bool.false_eq_true, false_iff, true_iff] at h0)
  · by_cases hc : CompareTo (SetCompact nBits).value (UintToArith256 powLimit) > 0
    · rw [if_pos hc]
      have := h1.mp hc
      simp only [Bool.false_eq_true, false_iff, not_and]
      omega
    · rw [if_neg hc]
      have hle := h1.not.mp hc
      by_cases hc2 : CompareTo (UintToArith256 hash) (SetCompact nBits).value > 0
      · rw [if_pos hc2]
        have := h2.mp hc2
        simp only [Bool.false_eq_true, false_iff, not_and]
        omega
      · rw [if_neg hc2]
        have := h2.not.mp hc2
        simp only [true_iff]
        omega
  · simp [h0]

/-- C2: `CheckProofOfWork` (with `params.powLimit`) and `CheckProofOfWorkNew` (with an
explicit `powLimit`) accept exactly when decoding `nBits` raises neither flag and gives a
non-zero target that is at most `powLimit`, and the hash, read as a 256-bit unsigned
integer, is at most that target; so a hash equal to an admissible target is accepted and
the hash one above the target is rejected. -/
theorem CheckProofOfWork_iff (hash : List Nat) (nBits : Nat) (params : Consensus.Params)
    (powLimit : List Nat) (_hn : nBits < 2 ^ 32) (hh : uint256.WF hash)
    (hp : uint256.WF params.powLimit) (hq : uint256.WF powLimit) :
    (CheckProofOfWork hash nBits params = true ↔
      ((SetCompact nBits).fNegative = false ∧ (SetCompact nBits).fOverflow = false ∧
        toNat (SetCompact nBits).value ≠ 0 ∧
        toNat (SetCompact nBits).value ≤ uint256.toNat params.powLimit ∧
        uint256.toNat hash ≤ toNat (SetCompact nBits).value)) ∧
    (CheckProofOfWorkNew hash nBits powLimit = true ↔
      ((SetCompact nBits).fNegative = false ∧ (SetCompact nBits).fOverflow = false ∧
        toNat (SetCompact nBits).value ≠ 0 ∧
        toNat (SetCompact nBits).value ≤ uint256.toNat powLimit ∧
        uint256.toNat hash ≤ toNat (SetCompact nBits).value)) ∧
    (uint256.toNat hash = toNat (SetCompact nBits).value →
      (SetCompact nBits).fNegative = false → (SetCompact nBits).fOverflow = false →
      toNat (SetCompact nBits).value ≠ 0 →
      (toNat (SetCompact nBits).value ≤ uint256.toNat params.powLimit →
        CheckProofOfWork hash nBits params = true) ∧
      (toNat (SetCompact nBits).value ≤ uint256.toNat powLimit →
        CheckProofOfWorkNew hash nBits powLimit = true)) ∧
    (uint256.toNat hash = toNat (SetCompact nBits).value + 1 →
      CheckProofOfWork hash nBits params = false ∧
      CheckProofOfWorkNew hash nBits powLimit = false) := by
  have e : CheckProofOfWork hash nBits params =
      CheckProofOfWorkNew hash nBits params.powLimit := rfl
  have h1 := CheckProofOfWorkNew_iff hash nBits params.powLimit hh hp
  have h2 := CheckProofOfWorkNew_iff hash nBits powLimit hh hq
  rw [e]
  refine ⟨h1, h2, ?_, ?_⟩
  · intro heq hn ho hz
    exact ⟨fun hle => h1.mpr ⟨hn, ho, hz, hle, by omega⟩,
      fun hle => h2.mpr ⟨hn, ho, hz, hle, by omega⟩⟩
  · intro heq
    constructor
    · rw [← Bool.not_eq_true]
      intro hc
      have := (h1.mp hc).2.2.2.2
      omega
    · rw [← Bool.not_eq_true]
      intro hc
      have := (h2.mp hc).2.2.2.2
      omega

/-- A decoded target is never `2 ^ 256 - 1`, so adding one to it does not wrap. -/
theorem SetCompact_value_succ_lt (nBits : Nat) :
    toNat (SetCompact nBits).value + 1 < 2 ^ 256 := by
  obtain ⟨hw, hv⟩ := SetCompact_value nBits
  have hlt := toNat_lt hw
  have hM := mantissa_lt nBits
  by_cases hE : nBits >>> 24 ≤ 3
  · rw [hv, if_pos hE]
    have := Nat.div_le_self (nBits &&& 0x007fffff) (256 ^ (3 - nBits >>> 24))
    omega
  · have h256 : toNat (SetCompact nBits).value % 256 = 0 := by
      rw [hv, if_neg hE]
      have e : nBits >>> 24 - 3 = (nBits >>> 24 - 3 - 1) + 1 := by omega
      rw [Nat.mod_mod_of_dvd _ (by norm_num), e, pow_succ, ← Nat.mul_assoc]
      exact Nat.mul_mod_left _ _
    omega

/-- C10: `GetBlockProof` returns 0 when decoding `nBits` reports negative, overflow or a
zero value; otherwise the division does not throw and the result is exactly
`floor(2^256 / (target + 1))`, which is non-zero, neither `target + 1` nor the final
`+ 1` wrapping modulo `2^256`. -/
theorem GetBlockProof_spec (nBits : Nat) (_h : nBits < 2 ^ 32) :
    (((SetCompact nBits).fNegative = true ∨ (SetCompact nBits).fOverflow = true ∨
        toNat (SetCompact nBits).value = 0) →
      ∃ w, GetBlockProof nBits = some w ∧ toNat w = 0) ∧
    ((SetCompact nBits).fNegative = false → (SetCompact nBits).fOverflow = false →
        toNat (SetCompact nBits).value ≠ 0 →
      ∃ w, GetBlockProof nBits = some w ∧ WF w ∧
        toNat w = 2 ^ 256 / (toNat (SetCompact nBits).value + 1) ∧ toNat w ≠ 0 ∧
        toNat (SetCompact nBits).value + 1 < 2 ^ 256 ∧
        toNat (add (SetCompact nBits).value (ofUInt64 1)) =
          toNat (SetCompact nBits).value + 1 ∧
        (2 ^ 256 - 1 - toNat (SetCompact nBits).value) /
          (toNat (SetCompact nBits).value + 1) + 1 < 2 ^ 256) := by
  obtain ⟨hw, _⟩ := SetCompact_value nBits
  have hsucc := SetCompact_value_succ_lt nBits
  have h0 := EqualTo_eq hw (b := 0) (by norm_num)
  constructor
  · intro hcase
    refine ⟨ofUInt64 0, ?_, by rw [toNat_ofUInt64]; rfl⟩
    have hcond : ((SetCompact nBits).fNegative || (SetCompact nBits).fOverflow ||
        EqualTo (SetCompact nBits).value 0) = true := by
      rcases hcase with h | h | h
      · rw [h]; rfl
      · rw [h, Bool.or_true, Bool.true_or]
      · rw [h0.mpr h, Bool.or_true]
    simp only [GetBlockProof, hcond, if_true]
  · intro hn ho hz
    have hcond : ((SetCompact nBits).fNegative || (SetCompact nBits).fOverflow ||
        EqualTo (SetCompact nBits).value 0) = false := by
      have : EqualTo (SetCompact nBits).value 0 = false := by
        rw [← Bool.not_eq_true]; exact fun hc => hz (h0.mp hc)
      rw [hn, ho, this]; rfl
    obtain ⟨hcw, hcv⟩ := compl_spec hw
    obtain ⟨haw, hav⟩ := add_spec (SetCompact nBits).value (ofUInt64 1)
    have h1 : toNat (ofUInt64 1) = 1 := by rw [toNat_ofUInt64]; rfl
    rw [h1, Nat.mod_eq_of_lt hsucc] at hav
    obtain ⟨q, hq, hqw, hqv⟩ := (div_spec hcw haw).2 (by rw [hav]; omega)
    rw [hcv, hav] at hqv
    generalize toNat (SetCompact nBits).value = t at *
    have hpos : 0 < t + 1 := Nat.succ_pos t
    have hsplit : 2 ^ 256 = (2 ^ 256 - 1 - t) + (t + 1) * 1 := by omega
    have hquot : 2 ^ 256 / (t + 1) = (2 ^ 256 - 1 - t) / (t + 1) + 1 := by
      conv_lhs => rw [hsplit]
      rw [Nat.add_mul_div_left _ _ hpos]
    have hsmall : (2 ^ 256 - 1 - t) / (t + 1) + 1 < 2 ^ 256 := by
      rw [← hquot]
      apply Nat.div_lt_self (by norm_num)
      omega
    obtain ⟨hrw, hrv⟩ := add_spec q (ofUInt64 1)
    rw [h1, hqv, Nat.mod_eq_of_lt hsmall] at hrv
    refine ⟨add q (ofUInt64 1), ?_, hrw, ?_, ?_, hsucc, hav, hsmall⟩
    · simp only [GetBlockProof, hcond, Bool.false_eq_true, if_false, hq, Option.map_some']
    · rw [hrv, hquot]
    · rw [hrv]; omega

/-- Witness of C10 at the difficulty-1 target `0x1d00ffff`, whose decoding raises no flag
and is non-zero. -/
theorem GetBlockProof_spec_witness :
    0x1d00ffff < 2 ^ 32 ∧
    ∃ w, GetBlockProof 0x1d00ffff = some w ∧ WF w ∧
      toNat w = 2 ^ 256 / (toNat (SetCompact 0x1d00ffff).value + 1) ∧ toNat w ≠ 0 ∧
      toNat (SetCompact 0x1d00ffff).value + 1 < 2 ^ 256 ∧
      toNat (add (SetCompact 0x1d00ffff).value (ofUInt64 1)) =
        toNat (SetCompact 0x1d00ffff).value + 1 ∧
      (2 ^ 256 - 1 - toNat (SetCompact 0x1d00ffff).value) /
        (toNat (SetCompact 0x1d00ffff).value + 1) + 1 < 2 ^ 256 :=
  ⟨by norm_num,
    (GetBlockProof_spec 0x1d00ffff (by norm_num)).2 (by decide) (by decide) (by decide)⟩

/-! ## Retargeting -/

theorem wrapInt64_eq (x : Int) (h1 : -(2 ^ 63) ≤ x) (h2 : x < 2 ^ 63) : wrapInt64 x = x := by
  rw [wrapInt64]
  omega

/-- The number `CalculateNextWorkRequired` packs: the decoded previous target times the
clamped timespan (the `int64_t` the code computes, as a `uint32_t`), truncated to 256
bits, divided by the target timespan, and capped by `powLimit`. -/
theorem CalculateNextWorkRequired_value (pindexLast : CBlockIndex) (nFirstBlockTime : Int)
    (params : Consensus.Params) (hr : params.fPowNoRetargeting = false)
    (hT0 : 0 < params.nPowTargetTimespan) (hT1 : params.nPowTargetTimespan < 2 ^ 63)
    (hp : uint256.WF params.powLimit) :
    ∃ bn, WF bn ∧
      toNat bn = min
        ((toNat (SetCompact pindexLast.nBits).value *
            ((min (max (wrapInt64 (pindexLast.GetBlockTime - nFirstBlockTime))
                (params.nPowTargetTimespan / 4)) (wrapInt64 (params.nPowTargetTimespan * 4)))
              % 2 ^ 32).toNat
          % 2 ^ 256) / params.nPowTargetTimespan.toNat)
        (uint256.toNat params.powLimit) ∧
      CalculateNextWorkRequired pindexLast nFirstBlockTime params = GetCompact bn false := by
  obtain ⟨hw, _⟩ := SetCompact_value pindexLast.nBits
  obtain ⟨hpw, hpv⟩ := UintToArith256_spec hp
  have htd : Int.tdiv params.nPowTargetTimespan 4 = params.nPowTargetTimespan / 4 :=
    Int.tdiv_eq_ediv (le_of_lt hT0) (by norm_num)
  simp only [CalculateNextWorkRequired, hr, Bool.false_eq_true, if_false, htd]
  generalize wrapInt64 (pindexLast.GetBlockTime - nFirstBlockTime) = D
  generalize wrapInt64 (params.nPowTargetTimespan * 4) = U
  -- the clamped timespan
  have hclamp : (if (if D < params.nPowTargetTimespan / 4 then params.nPowTargetTimespan / 4
          else D) > U then U
        else (if D < params.nPowTargetTimespan / 4 then params.nPowTargetTimespan / 4
          else D)) = min (max D (params.nPowTargetTimespan / 4)) U := by
    split_ifs <;> omega
  generalize hA : min (max D (params.nPowTargetTimespan / 4)) U = A at *
  have hA32 : (A % 2 ^ 32).toNat < 2 ^ 32 := by
    have h1 : A % 2 ^ 32 < 2 ^ 32 := Int.emod_lt_of_pos _ (by norm_num)
    have h2 : 0 ≤ A % 2 ^ 32 := Int.emod_nonneg _ (by norm_num)
    omega
  have hT64 : (params.nPowTargetTimespan % 2 ^ 64).toNat = params.nPowTargetTimespan.toNat := by
    rw [Int.emod_eq_of_lt (le_of_lt hT0) (by omega)]
  have hTpos : 0 < params.nPowTargetTimespan.toNat := by omega
  have hTlt : params.nPowTargetTimespan.toNat < 2 ^ 64 := by omega
  obtain ⟨hmw, hmv⟩ := mulWord_spec hw hA32
  have hdw := ofUInt64_wf (params.nPowTargetTimespan % 2 ^ 64).toNat
  have hdv : toNat (ofUInt64 (params.nPowTargetTimespan % 2 ^ 64).toNat) =
      params.nPowTargetTimespan.toNat := by
    rw [toNat_ofUInt64, hT64, Nat.mod_eq_of_lt hTlt]
  obtain ⟨q, hq, hqw, hqv⟩ := (div_spec hmw hdw).2 (by rw [hdv]; omega)
  rw [hmv, hdv] at hqv
  have hcmp := CompareTo_pos hqw hpw
  simp only [hclamp, hq]
  by_cases hc : CompareTo q (UintToArith256 params.powLimit) > 0
  · rw [if_pos hc]
    refine ⟨_, hpw, ?_, rfl⟩
    have := hcmp.mp hc
    rw [hpv, ← hqv]
    rw [hpv] at this
    omega
  · rw [if_neg hc]
    refine ⟨_, hqw, ?_, rfl⟩
    have := hcmp.not.mp hc
    rw [← hqv]
    rw [hpv] at this
    omega

/-- C3, as stated, fails: with the previous target `0x207fffff` (decoding to
`0x7fffff * 2^232`), an actual timespan of `2 * targetTimespan = 2419200` and
`powLimit = 2^255 - 1`, the exact product is above `powLimit`, so the claimed result is
`encode(powLimit) = 0x207fffff`; the code multiplies modulo `2^256` and returns
`0x1e0bdebb`. -/
theorem CalculateNextWorkRequired_counterexample :
    CalculateNextWorkRequired
        { pprev := none, pskip := none, nHeight := 2015, nBits := 0x207fffff,
          nTime := 2419200, hash := 0 } 0
        { powLimit := List.replicate 31 0xff ++ [0x7f], fPowAllowMinDifficultyBlocks := false,
          fPowNoRetargeting := false, nPowTargetSpacing := 600,
          nPowTargetTimespan := 1209600 } = some 0x1e0bdebb ∧
      GetCompact (ofNat (min (toNat (SetCompact 0x207fffff).value * 2419200 / 1209600)
        (uint256.toNat (List.replicate 31 0xff ++ [0x7f])))) false = some 0x207fffff := by
  decide

/-- C3, amended: let `A` be `lastNode.timestamp - firstTimestamp` clamped to
`[targetTimespan/4, targetTimespan*4]`.  With retargeting enabled, `0 < targetTimespan`,
and the timespans within the integer widths the code gives them (the difference of the two
times and `targetTimespan*4` fit an `int64_t`, `A` fits the 32-bit multiplier), the result
is `encode(min(floor(((decode(lastNode.target) * A) mod 2^256) / targetTimespan),
powLimit))`: the product is the one truncated to 256 bits.  When the product is below
`2^256` it is `encode(min(floor(decode * A / targetTimespan), powLimit))`, and when
moreover the actual timespan is `2 * targetTimespan` it is
`encode(min(2 * decode, powLimit))`.  With retargeting disabled the result is `lastNode`'s
packed target. -/
theorem CalculateNextWorkRequired_spec (pindexLast : CBlockIndex) (nFirstBlockTime : Int)
    (params : Consensus.Params)
    (hT0 : 0 < params.nPowTargetTimespan) (hT1 : params.nPowTargetTimespan * 4 < 2 ^ 63)
    (hp : uint256.WF params.powLimit)
    (hF1 : -(2 ^ 63) ≤ pindexLast.GetBlockTime - nFirstBlockTime)
    (hF2 : pindexLast.GetBlockTime - nFirstBlockTime < 2 ^ 63)
    (A : Nat)
    (hA : min (max (pindexLast.GetBlockTime - nFirstBlockTime)
      (params.nPowTargetTimespan / 4)) (params.nPowTargetTimespan * 4) = (A : Int))
    (hA32 : A < 2 ^ 32) :
    (params.fPowNoRetargeting = true →
      CalculateNextWorkRequired pindexLast nFirstBlockTime params = some pindexLast.nBits) ∧
    (params.fPowNoRetargeting = false →
      CalculateNextWorkRequired pindexLast nFirstBlockTime params =
        GetCompact (ofNat (min
          ((toNat (SetCompact pindexLast.nBits).value * A % 2 ^ 256) /
            params.nPowTargetTimespan.toNat)
          (uint256.toNat params.powLimit))) false ∧
      (toNat (SetCompact pindexLast.nBits).value * A < 2 ^ 256 →
        CalculateNextWorkRequired pindexLast nFirstBlockTime params =
          GetCompact (ofNat (min
            (toNat (SetCompact pindexLast.nBits).value * A / params.nPowTargetTimespan.toNat)
            (uint256.toNat params.powLimit))) false) ∧
      (pindexLast.GetBlockTime - nFirstBlockTime = 2 * params.nPowTargetTimespan →
        toNat (SetCompact pindexLast.nBits).value * A < 2 ^ 256 →
        CalculateNextWorkRequired pindexLast nFirstBlockTime params =
          GetCompact (ofNat (min (2 * toNat (SetCompact pindexLast.nBits).value)
            (uint256.toNat params.powLimit))) false)) := by
  constructor
  · intro hr
    simp only [CalculateNextWorkRequired, hr, if_true]
  · intro hr
    obtain ⟨bn, hbw, hbv, hres⟩ :=
      CalculateNextWorkRequired_value pindexLast nFirstBlockTime params hr hT0 (by omega) hp
    have hbn : bn = ofNat (toNat bn) := (ofNat_toNat hbw).symm
    have e1 : ((A : Int) % 2 ^ 32).toNat = A := by
      rw [Int.emod_eq_of_lt (by omega) (by omega)]; rfl
    rw [wrapInt64_eq _ hF1 hF2, wrapInt64_eq _ (by omega) hT1, hA, e1] at hbv
    have hmain : CalculateNextWorkRequired pindexLast nFirstBlockTime params =
        GetCompact (ofNat (min
          ((toNat (SetCompact pindexLast.nBits).value * A % 2 ^ 256) /
            params.nPowTargetTimespan.toNat)
          (uint256.toNat params.powLimit))) false := by
      rw [hres, hbn, hbv]
    refine ⟨hmain, ?_, ?_⟩
    · intro hprod
      rw [hmain, Nat.mod_eq_of_lt hprod]
    · intro h2T hprod
      have hA2 : A = 2 * params.nPowTargetTimespan.toNat := by
        rw [h2T] at hA
        omega
      rw [hmain, Nat.mod_eq_of_lt hprod, hA2, ← Nat.mul_assoc,
        Nat.mul_div_cancel _ (by omega), Nat.mul_comm]

/-- Witness of the amended C3 on main-network parameters (`powLimit = 0xffff * 2^208`,
timespan 1209600 s): the actual timespan is twice the target timespan. -/
theorem CalculateNextWorkRequired_spec_witness :
    (0 : Int) < 1209600 ∧ (1209600 : Int) * 4 < 2 ^ 63 ∧
    uint256.WF (List.replicate 26 0 ++ [0xff, 0xff, 0, 0, 0, 0]) ∧
    CalculateNextWorkRequired
        { pprev := none, pskip := none, nHeight := 2015, nBits := 0x1c00ffff,
          nTime := 2419200, hash := 0 } 0
        { powLimit := List.replicate 26 0 ++ [0xff, 0xff, 0, 0, 0, 0],
          fPowAllowMinDifficultyBlocks := false, fPowNoRetargeting := false,
          nPowTargetSpacing := 600, nPowTargetTimespan := 1209600 } =
      GetCompact (ofNat (min (2 * toNat (SetCompact 0x1c00ffff).value)
        (uint256.toNat (List.replicate 26 0 ++ [0xff, 0xff, 0, 0, 0, 0])))) false :=
  ⟨by norm_num, by norm_num, by decide,
    ((CalculateNextWorkRequired_spec
        { pprev := none, pskip := none, nHeight := 2015, nBits := 0x1c00ffff,
          nTime := 2419200, hash := 0 } 0
        { powLimit := List.replicate 26 0 ++ [0xff, 0xff, 0, 0, 0, 0],
          fPowAllowMinDifficultyBlocks := false, fPowNoRetargeting := false,
          nPowTargetSpacing := 600, nPowTargetTimespan := 1209600 }
        (by norm_num) (by norm_num) (by decide) (by decide) (by decide) 2419200 (by decide)
        (by norm_num)).2 rfl).2.2 (by decide)
      (by rw [(SetCompact_value 0x1c00ffff).2]; decide)⟩

/-- C4: with retargeting enabled and `0 < targetTimespan`, `CalculateNextWorkRequired`
returns a packed target that decodes with both flags clear to a value at most `powLimit`,
whatever the previous target and the timestamps (the `int64_t` timespans may wrap, the
multiplier may lose its high bits: the final comparison with `powLimit` caps the
result). -/
theorem CalculateNextWorkRequired_le_powLimit (pindexLast : CBlockIndex)
    (nFirstBlockTime : Int) (params : Consensus.Params)
    (hr : params.fPowNoRetargeting = false)
    (hT0 : 0 < params.nPowTargetTimespan) (hT1 : params.nPowTargetTimespan < 2 ^ 63)
    (hp : uint256.WF params.powLimit) :
    ∃ nBits, CalculateNextWorkRequired pindexLast nFirstBlockTime params = some nBits ∧
      nBits < 2 ^ 32 ∧
      (SetCompact nBits).fNegative = false ∧ (SetCompact nBits).fOverflow = false ∧
      toNat (SetCompact nBits).value ≤ uint256.toNat params.powLimit := by
  obtain ⟨bn, hbw, hbv, hres⟩ :=
    CalculateNextWorkRequired_value pindexLast nFirstBlockTime params hr hT0 hT1 hp
  obtain ⟨h32, hn, ho, _, hle, _⟩ := SetCompact_compactOfNat (toNat bn) (toNat_lt hbw)
  refine ⟨_, by rw [hres]; exact GetCompact_eq hbw false, h32, hn, ho, ?_⟩
  have hmin : toNat bn ≤ uint256.toNat params.powLimit := by
    rw [hbv]; exact Nat.min_le_right _ _
  omega

/-- Witness of C4 where the difference of the two times wraps: the first time is the
least `int64_t`, the code clamps the wrapped (negative) timespan to `targetTimespan/4` and
returns `0x1b3fffc0`. -/
theorem CalculateNextWorkRequired_le_powLimit_witness :
    (0 : Int) < 1209600 ∧ (1209600 : Int) < 2 ^ 63 ∧
    uint256.WF (List.replicate 31 0xff ++ [0x7f]) ∧
    CalculateNextWorkRequired
          { pprev := none, pskip := none, nHeight := 2015, nBits := 0x1c00ffff,
            nTime := 2419200, hash := 0 } (-(2 ^ 63))
          { powLimit := List.replicate 31 0xff ++ [0x7f],
            fPowAllowMinDifficultyBlocks := false, fPowNoRetargeting := false,
            nPowTargetSpacing := 600, nPowTargetTimespan := 1209600 } = some 0x1b3fffc0 ∧
    ∃ nBits, CalculateNextWorkRequired
          { pprev := none, pskip := none, nHeight := 2015, nBits := 0x1c00ffff,
            nTime := 2419200, hash := 0 } (-(2 ^ 63))
          { powLimit := List.replicate 31 0xff ++ [0x7f],
            fPowAllowMinDifficultyBlocks := false, fPowNoRetargeting := false,
            nPowTargetSpacing := 600, nPowTargetTimespan := 1209600 } = some nBits ∧
      nBits < 2 ^ 32 ∧
      (SetCompact nBits).fNegative = false ∧ (SetCompact nBits).fOverflow = false ∧
      toNat (SetCompact nBits).value ≤ uint256.toNat (List.replicate 31 0xff ++ [0x7f]) :=
  ⟨by norm_num, by norm_num, by decide, by decide,
    CalculateNextWorkRequired_le_powLimit
      { pprev := none, pskip := none, nHeight := 2015, nBits := 0x1c00ffff,
        nTime := 2419200, hash := 0 } (-(2 ^ 63))
      { powLimit := List.replicate 31 0xff ++ [0x7f],
        fPowAllowMinDifficultyBlocks := false, fPowNoRetargeting := false,
        nPowTargetSpacing := 600, nPowTargetTimespan := 1209600 }
      rfl (by norm_num) (by norm_num) (by decide)⟩

/-! ## The skip list -/

theorem InvertLowestOne_bounds (n : Int) (h : 0 ≤ n) :
    0 ≤ InvertLowestOne n ∧ InvertLowestOne n ≤ n ∧ (1 ≤ n → InvertLowestOne n < n) := by
  obtain ⟨m, rfl⟩ := Int.eq_ofNat_of_zero_le h
  cases m with
  | zero =>
    have e : InvertLowestOne ((0 : Nat) : Int) = 0 := by decide
    rw [e]
    exact ⟨le_refl _, le_refl _, fun h1 => absurd h1 (by decide)⟩
  | succ k =>
    have e : ((k + 1 : Nat) : Int) - 1 = (k : Int) := by push_cast; ring
    have hl : InvertLowestOne ((k + 1 : Nat) : Int) = (((k + 1) &&& k : Nat) : Int) := by
      rw [InvertLowestOne, e]; rfl
    have hle : (k + 1) &&& k ≤ k := Nat.and_le_right
    rw [hl]
    refine ⟨Int.ofNat_nonneg _, ?_, fun _ => ?_⟩ <;> omega

/-- The skip height of a positive height is a smaller, non-negative height. -/
theorem GetSkipHeight_bounds (h : Int) (h1 : 1 ≤ h) :
    0 ≤ GetSkipHeight h ∧ GetSkipHeight h < h := by
  rw [GetSkipHeight]
  by_cases h2 : h < 2
  · rw [if_pos h2]; omega
  · rw [if_neg h2]
    by_cases hodd : intAnd h 1 ≠ 0
    · rw [if_pos hodd]
      obtain ⟨a1, a2, _⟩ := InvertLowestOne_bounds (h - 1) (by omega)
      obtain ⟨b1, b2, _⟩ := InvertLowestOne_bounds (InvertLowestOne (h - 1)) a1
      have a3 := (InvertLowestOne_bounds (h - 1) (by omega)).2.2 (by omega)
      omega
    · rw [if_neg hodd]
      obtain ⟨a1, _, a3⟩ := InvertLowestOne_bounds h (by omega)
      have := a3 (by omega)
      omega

namespace CBlockIndex

/-- What `wfNode` says about a node, as propositions. -/
theorem wfNode_links {t : List CBlockIndex} (hwf : WFTree t) {i : Nat} {node : CBlockIndex}
    (hi : t[i]? = some node) :
    (node.pprev = none → node.nHeight = 0) ∧
    (∀ p, node.pprev = some p →
      ∃ prev, t[p]? = some prev ∧ prev.nHeight = node.nHeight - 1) ∧
    (∀ s, node.pskip = some s →
      ∃ p, node.pprev = some p ∧
        GetAncestor t p (GetSkipHeight node.nHeight) = some (some s)) := by
  have hlt : i < t.length := by
    by_contra hc
    rw [List.getElem?_eq_none (by omega)] at hi
    exact Option.noConfusion hi
  have h := hwf i hlt
  unfold wfNode at h
  simp only [hi, Bool.and_eq_true] at h
  obtain ⟨h1, h2⟩ := h
  cases hp : node.pprev with
  | none =>
    rw [hp] at h1
    refine ⟨fun _ => by simpa using h1, fun p hp2 => Option.noConfusion hp2, ?_⟩
    intro s hs
    rw [hs, hp] at h2
    simp at h2
  | some p =>
    rw [hp] at h1
    refine ⟨fun hp2 => Option.noConfusion hp2, ?_, ?_⟩
    · intro q hq
      cases hq
      cases hg : t[p]? with
      | none => simp [hg] at h1
      | some prev => exact ⟨prev, rfl, by simpa [hg] using h1⟩
    · intro s hs
      rw [hs] at h2
      simp only [hp, Option.isSome_some, Bool.true_and, decide_eq_true_eq] at h2
      refine ⟨p, rfl, ?_⟩
      rw [BuildSkip] at h2
      simpa [hi, hp] using h2

/-- Heights are not negative: along `pprev` the height drops by one at every step and a
node without predecessor has height 0, so a negative height would give an endless chain
of distinct nodes in a finite arena. -/
theorem height_nonneg {t : List CBlockIndex} (hwf : WFTree t) {i : Nat} {node : CBlockIndex}
    (hi : t[i]? = some node) : 0 ≤ node.nHeight := by
  by_contra hneg
  have chain : ∀ k : Nat, ∃ (j : Nat) (nd : CBlockIndex),
      t[j]? = some nd ∧ nd.nHeight = node.nHeight - k := by
    intro k
    induction k with
    | zero => exact ⟨i, node, hi, by simp⟩
    | succ k ih =>
      obtain ⟨j, nd, hj, hh⟩ := ih
      obtain ⟨hroot, hprev, _⟩ := wfNode_links hwf hj
      cases hp : nd.pprev with
      | none => have := hroot hp; omega
      | some p =>
        obtain ⟨prev, hpg, hph⟩ := hprev p hp
        exact ⟨p, prev, hpg, by rw [hph, hh]; push_cast; ring⟩
  choose f nd hf hh using chain
  have hlt : ∀ k, f k < t.length := by
    intro k
    by_contra hc
    have := hf k
    rw [List.getElem?_eq_none (by omega)] at this
    exact Option.noConfusion this
  obtain ⟨x, _, y, _, hxy, hfxy⟩ :=
    Finset.exists_ne_map_eq_of_card_lt_of_maps_to
      (s := Finset.range (t.length + 1)) (t := Finset.range t.length) (f := f)
      (by simp) (fun k _ => Finset.mem_range.mpr (hlt k))
  have h1 := hf x
  have h2 := hf y
  rw [hfxy, h2] at h1
  have h3 : nd y = nd x := Option.some.inj h1
  have h4 := hh x
  have h5 := hh y
  rw [h3] at h5
  omega

/-- The facts about a node of a well-formed tree. -/
theorem node_facts {t : List CBlockIndex} (hwf : WFTree t) {i : Nat} {node : CBlockIndex}
    (hi : t[i]? = some node) :
    0 ≤ node.nHeight ∧
    (node.pprev = none → node.nHeight = 0) ∧
    (∀ p, node.pprev = some p →
      ∃ prev, t[p]? = some prev ∧ prev.nHeight = node.nHeight - 1) ∧
    (∀ s, node.pskip = some s →
      ∃ p, node.pprev = some p ∧
        GetAncestor t p (GetSkipHeight node.nHeight) = some (some s)) :=
  ⟨height_nonneg hwf hi, wfNode_links hwf hi⟩

theorem naiveAncestor_add (t : List CBlockIndex) (a b i : Nat) :
    naiveAncestor t (a + b) i = (naiveAncestor t a i).bind (naiveAncestor t b) := by
  induction a generalizing i with
  | zero =>
    rw [Nat.zero_add, naiveAncestor]
    by_cases hi : i < t.length
    · rw [if_pos hi]; rfl
    · rw [if_neg hi, Option.none_bind]
      cases b with
      | zero => rw [naiveAncestor, if_neg hi]
      | succ b => rw [naiveAncestor, List.getElem?_eq_none (by omega)]
  | succ a ih =>
    rw [Nat.succ_add, naiveAncestor, naiveAncestor]
    cases hg : t[i]? with
    | none => simp
    | some node =>
      cases hp : node.pprev with
      | none => simp [hp]
      | some p => simp only [hp]; exact ih p

/-- In a well-formed tree the naive walk of `n` steps from a node of height `H ≥ n` ends
at a node of height `H - n`. -/
theorem naiveAncestor_height {t : List CBlockIndex} (hwf : WFTree t) (n : Nat) :
    ∀ (i : Nat) (node : CBlockIndex), t[i]? = some node → (n : Int) ≤ node.nHeight →
      ∃ j anc, naiveAncestor t n i = some j ∧ t[j]? = some anc ∧
        anc.nHeight = node.nHeight - n := by
  induction n with
  | zero =>
    intro i node hi _
    have hlt : i < t.length := by
      by_contra hc
      rw [List.getElem?_eq_none (by omega)] at hi
      exact Option.noConfusion hi
    exact ⟨i, node, by rw [naiveAncestor, if_pos hlt], hi, by simp⟩
  | succ n ih =>
    intro i node hi hle
    obtain ⟨h0, hroot, hprev, _⟩ := node_facts hwf hi
    cases hp : node.pprev with
    | none =>
      have := hroot hp
      push_cast at hle
      omega
    | some p =>
      obtain ⟨prev, hpg, hph⟩ := hprev p hp
      obtain ⟨j, anc, hj, hja, hjh⟩ := ih p prev hpg (by rw [hph]; push_cast at hle; omega)
      refine ⟨j, anc, ?_, hja, ?_⟩
      · rw [naiveAncestor, hi]
        simp only [hp]
        exact hj
      · rw [hjh, hph]; push_cast; ring

end CBlockIndex

namespace CBlockIndex

theorem naiveAncestor_succ_of_pprev {t : List CBlockIndex} {w p : Nat} {walk : CBlockIndex}
    (hw : t[w]? = some walk) (hp : walk.pprev = some p) (n : Nat) :
    naiveAncestor t (n + 1) w = naiveAncestor t n p := by
  rw [naiveAncestor, hw]
  simp only [hp]

/-- The walk of `GetAncestor`, started at a node `w` of height `heightWalk` with enough
fuel, ends without failing at the naive ancestor of `w` at the target height. -/
theorem GetAncestorWalk_eq {t : List CBlockIndex} (hwf : WFTree t) (N : Int)
    (hskip : SkipOK t N) (height : Int) (h0 : 0 ≤ height) (fuel : Nat) :
    ∀ (w : Nat) (walk : CBlockIndex), t[w]? = some walk → walk.nHeight ≤ N →
      height ≤ walk.nHeight → walk.nHeight - height ≤ fuel →
      GetAncestorWalk t height fuel w walk.nHeight =
        some (naiveAncestor t (walk.nHeight - height).toNat w) := by
  induction fuel with
  | zero =>
    intro w walk hw _ hle hfuel
    have heq : walk.nHeight = height := by omega
    have hlt : w < t.length := by
      by_contra hc
      rw [List.getElem?_eq_none (by omega)] at hw
      exact Option.noConfusion hw
    rw [GetAncestorWalk, if_neg (by omega), heq]
    simp [naiveAncestor, hlt]
  | succ fuel ih =>
    intro w walk hw hN hle hfuel
    have hlt : w < t.length := by
      by_contra hc
      rw [List.getElem?_eq_none (by omega)] at hw
      exact Option.noConfusion hw
    rw [GetAncestorWalk]
    by_cases hgt : walk.nHeight > height
    · rw [if_pos hgt]
      simp only [hw]
      obtain ⟨_, hroot, hprev, _⟩ := node_facts hwf hw
      obtain ⟨hs0, hs1⟩ := GetSkipHeight_bounds walk.nHeight (by omega)
      -- the step to `pprev`, taken when the skip pointer is unset or would overshoot
      have hstep : ∀ p, walk.pprev = some p →
          GetAncestorWalk t height fuel p (walk.nHeight - 1) =
            some (naiveAncestor t (walk.nHeight - height).toNat w) := by
        intro p hp
        obtain ⟨prev, hpg, hph⟩ := hprev p hp
        have := ih p prev hpg (by omega) (by omega) (by omega)
        rw [hph] at this
        rw [this]
        have e : (walk.nHeight - height).toNat = (walk.nHeight - 1 - height).toNat + 1 := by
          omega
        rw [e, naiveAncestor_succ_of_pprev hw hp]
      have hprevsome : ∃ p, walk.pprev = some p := by
        cases hp : walk.pprev with
        | none => have := hroot hp; omega
        | some p => exact ⟨p, rfl⟩
      obtain ⟨p, hp⟩ := hprevsome
      cases hs : walk.pskip with
      | none =>
        simp only [hp]
        exact hstep p hp
      | some s =>
        simp only []
        split_ifs with hcond
        · have hsk := hskip w walk s hw hN hs
          obtain ⟨j, anc, hj, hja, hjh⟩ := naiveAncestor_height hwf
            (walk.nHeight - GetSkipHeight walk.nHeight).toNat w walk hw (by omega)
          rw [hsk] at hj
          cases hj
          have hah : anc.nHeight = GetSkipHeight walk.nHeight := by
            rw [hjh]; omega
          have hge : height ≤ GetSkipHeight walk.nHeight := by
            rcases hcond with h | h <;> omega
          have := ih s anc hja (by omega) (by omega) (by omega)
          rw [hah] at this
          rw [this]
          have e : (walk.nHeight - height).toNat =
              (walk.nHeight - GetSkipHeight walk.nHeight).toNat +
                (GetSkipHeight walk.nHeight - height).toNat := by omega
          rw [e, naiveAncestor_add, hsk]
          rfl
        · simp only [hp]
          exact hstep p hp
    · rw [if_neg hgt]
      have heq : walk.nHeight = height := by omega
      rw [heq]
      simp [naiveAncestor, hlt]

/-- Function `GetAncestor` on a node, given that the skip pointers up to its height are right. -/
theorem GetAncestor_eq_of_SkipOK {t : List CBlockIndex} (hwf : WFTree t) (N : Int)
    (hskip : SkipOK t N) (i : Nat) (node : CBlockIndex) (hi : t[i]? = some node)
    (hN : node.nHeight ≤ N) (height : Int) (h0 : 0 ≤ height) (h1 : height ≤ node.nHeight) :
    GetAncestor t i height =
      some (naiveAncestor t (node.nHeight - height).toNat i) := by
  rw [GetAncestor]
  simp only [hi]
  rw [if_neg (by omega)]
  exact GetAncestorWalk_eq hwf N hskip height h0 _ i node hi hN h1 (by omega)

/-- Every skip pointer of a well-formed tree is the naive ancestor at the skip height. -/
theorem skipOK_all {t : List CBlockIndex} (hwf : WFTree t) (N : Nat) : SkipOK t (N : Int) := by
  induction N with
  | zero =>
    intro w walk s hw hN hs
    obtain ⟨h0, hroot, hprev, hsk⟩ := node_facts hwf hw
    obtain ⟨p, hp, _⟩ := hsk s hs
    obtain ⟨prev, hpg, hph⟩ := hprev p hp
    obtain ⟨hp0, _, _, _⟩ := node_facts hwf hpg
    push_cast at hN
    omega
  | succ N ih =>
    intro w walk s hw hN hs
    by_cases hle : walk.nHeight ≤ (N : Int)
    · exact ih w walk s hw hle hs
    · obtain ⟨h0, hroot, hprev, hsk⟩ := node_facts hwf hw
      obtain ⟨p, hp, hga⟩ := hsk s hs
      obtain ⟨prev, hpg, hph⟩ := hprev p hp
      obtain ⟨hs0, hs1⟩ := GetSkipHeight_bounds walk.nHeight (by push_cast at hN; omega)
      have := GetAncestor_eq_of_SkipOK hwf (N : Int) ih p prev hpg
        (by push_cast at hN; omega) (GetSkipHeight walk.nHeight) hs0 (by omega)
      rw [hga] at this
      have e : (walk.nHeight - GetSkipHeight walk.nHeight).toNat =
          (prev.nHeight - GetSkipHeight walk.nHeight).toNat + 1 := by omega
      rw [e, naiveAncestor_succ_of_pprev hw hp]
      exact (Option.some.inj this).symm

end CBlockIndex

namespace CBlockIndex

/-- C1: in a well-formed block tree (heights drop by one along `pprev`, a node without
predecessor has height 0, every `pskip` is unset or as `BuildSkip` sets it),
`GetAncestor(node, h)` returns null when `h < 0` or `h > node.height`; otherwise it
terminates, passes the `pprev` assertion, and returns the node reached from `node` by
following `pprev` exactly `node.height - h` times, which has height `h`. -/
theorem GetAncestor_spec (t : List CBlockIndex) (hwf : WFTree t) (i : Nat)
    (node : CBlockIndex) (hi : t[i]? = some node) (height : Int) :
    ((height < 0 ∨ height > node.nHeight) → GetAncestor t i height = some none) ∧
    (0 ≤ height → height ≤ node.nHeight →
      ∃ j anc, GetAncestor t i height = some (some j) ∧
        naiveAncestor t (node.nHeight - height).toNat i = some j ∧
        t[j]? = some anc ∧ anc.nHeight = height) := by
  constructor
  · intro hout
    rw [GetAncestor]
    simp only [hi]
    rw [if_pos (by omega)]
  · intro h0 h1
    have hn0 := height_nonneg hwf hi
    have hN : node.nHeight ≤ ((node.nHeight.toNat : Nat) : Int) := by omega
    have hga := GetAncestor_eq_of_SkipOK hwf _ (skipOK_all hwf node.nHeight.toNat) i node hi
      hN height h0 h1
    obtain ⟨j, anc, hj, hja, hjh⟩ := naiveAncestor_height hwf
      (node.nHeight - height).toNat i node hi (by omega)
    exact ⟨j, anc, by rw [hga, hj], hj, hja, by rw [hjh]; omega⟩

/-- Witness of C1 on `sampleTree`: from the tip `5`, the ancestor at height 1 is found
and is the node four steps down `pprev`. -/
theorem GetAncestor_spec_witness :
    WFTree sampleTree ∧
    sampleTree[5]? = some ⟨some 4, some 1, 5, 0x1d00ffff, 3000, 15⟩ ∧
    ∃ j anc, GetAncestor sampleTree 5 1 = some (some j) ∧
      naiveAncestor sampleTree ((5 : Int) - 1).toNat 5 = some j ∧
      sampleTree[j]? = some anc ∧ anc.nHeight = 1 :=
  ⟨by decide, rfl,
    (GetAncestor_spec sampleTree (by decide) 5 ⟨some 4, some 1, 5, 0x1d00ffff, 3000, 15⟩
      rfl 1).2 (by decide) (by decide)⟩

end CBlockIndex

/-! ## Next work required -/

open base_uint arith_uint256 CBlockIndex

theorem UintToArith256_wf (a : List Nat) : WF (UintToArith256 a) := by
  simp only [UintToArith256, base_uint.range_WIDTH, List.foldl_cons, List.foldl_nil,
    base_uint.ofUInt64_zero, List.set_cons_zero, List.set_cons_succ]
  apply WF.mk8 <;> exact Nat.mod_lt _ (by norm_num)

/-- C5: under normal rules (minimum-difficulty mode off) and with a retarget interval of
at least 1, on a node of a well-formed tree: off a retarget boundary
`GetNextWorkRequired` returns the node's packed target; on a boundary the first height is
not negative, the ancestor at that height exists (it is the node reached by `interval - 1`
steps along `pprev`), no assertion fails, and the result is
`CalculateNextWorkRequired(lastNode, ancestor.timestamp, params)`. -/
theorem GetNextWorkRequired_spec (t : List CBlockIndex) (hwf : WFTree t) (last : Nat)
    (node : CBlockIndex) (hi : t[last]? = some node) (pblockTime : Int)
    (params : Consensus.Params) (hmin : params.fPowAllowMinDifficultyBlocks = false)
    (hint : 1 ≤ params.DifficultyAdjustmentInterval) :
    (Int.tmod (node.nHeight + 1) params.DifficultyAdjustmentInterval ≠ 0 →
      GetNextWorkRequired t (some last) pblockTime params = some node.nBits) ∧
    (Int.tmod (node.nHeight + 1) params.DifficultyAdjustmentInterval = 0 →
      0 ≤ node.nHeight - (params.DifficultyAdjustmentInterval - 1) ∧
      ∃ j first,
        GetAncestor t last (node.nHeight - (params.DifficultyAdjustmentInterval - 1)) =
          some (some j) ∧
        naiveAncestor t (params.DifficultyAdjustmentInterval - 1).toNat last = some j ∧
        t[j]? = some first ∧
        first.nHeight = node.nHeight - (params.DifficultyAdjustmentInterval - 1) ∧
        GetNextWorkRequired t (some last) pblockTime params =
          CalculateNextWorkRequired node first.GetBlockTime params) := by
  have hlim := GetCompact_eq (UintToArith256_wf params.powLimit) false
  obtain ⟨hn0, _⟩ := node_facts hwf hi
  constructor
  · intro hne
    simp only [GetNextWorkRequired, hi, hlim, hmin, Bool.false_eq_true, if_false]
    rw [if_pos hne]
  · intro heq
    have hmod : (node.nHeight + 1) % params.DifficultyAdjustmentInterval = 0 := by
      rw [← Int.tmod_eq_emod (by omega) (by omega)]; exact heq
    have hdvd : params.DifficultyAdjustmentInterval ∣ node.nHeight + 1 :=
      Int.dvd_of_emod_eq_zero hmod
    have hle : params.DifficultyAdjustmentInterval ≤ node.nHeight + 1 :=
      Int.le_of_dvd (by omega) hdvd
    have hfirst : 0 ≤ node.nHeight - (params.DifficultyAdjustmentInterval - 1) := by omega
    refine ⟨hfirst, ?_⟩
    have hN : node.nHeight ≤ ((node.nHeight.toNat : Nat) : Int) := by omega
    have hga0 := GetAncestor_eq_of_SkipOK hwf _ (skipOK_all hwf node.nHeight.toNat) last node
      hi hN (node.nHeight - (params.DifficultyAdjustmentInterval - 1)) hfirst (by omega)
    obtain ⟨j, first, hnaive, hj, hjh0⟩ := naiveAncestor_height hwf
      (node.nHeight - (node.nHeight - (params.DifficultyAdjustmentInterval - 1))).toNat
      last node hi (by omega)
    have hga : GetAncestor t last (node.nHeight - (params.DifficultyAdjustmentInterval - 1)) =
        some (some j) := by rw [hga0, hnaive]
    have hjh : first.nHeight = node.nHeight - (params.DifficultyAdjustmentInterval - 1) := by
      rw [hjh0]; omega
    have e : (node.nHeight - (node.nHeight - (params.DifficultyAdjustmentInterval - 1))).toNat =
        (params.DifficultyAdjustmentInterval - 1).toNat := by congr 1; ring
    rw [e] at hnaive
    refine ⟨j, first, hga, hnaive, hj, hjh, ?_⟩
    simp only [GetNextWorkRequired, hi, hlim]
    rw [if_neg (by rw [not_not]; exact heq), if_neg (by rw [not_not]; exact hfirst)]
    simp only [hga, hj]

/-- Witness of C5 on `sampleTree` with a retarget interval of 3: the tip has height 5, so
the next block is on a boundary and the first block of the period is at height 3. -/
theorem GetNextWorkRequired_spec_witness :
    WFTree sampleTree ∧
    sampleTree[5]? = some ⟨some 4, some 1, 5, 0x1d00ffff, 3000, 15⟩ ∧
    Consensus.sampleParams.fPowAllowMinDifficultyBlocks = false ∧
    1 ≤ Consensus.sampleParams.DifficultyAdjustmentInterval ∧
    0 ≤ (5 : Int) - (Consensus.sampleParams.DifficultyAdjustmentInterval - 1) ∧
    ∃ j first,
      GetAncestor sampleTree 5
          ((5 : Int) - (Consensus.sampleParams.DifficultyAdjustmentInterval - 1)) =
        some (some j) ∧
      naiveAncestor sampleTree
          (Consensus.sampleParams.DifficultyAdjustmentInterval - 1).toNat 5 = some j ∧
      sampleTree[j]? = some first ∧
      first.nHeight = (5 : Int) - (Consensus.sampleParams.DifficultyAdjustmentInterval - 1) ∧
      GetNextWorkRequired sampleTree (some 5) 3600 Consensus.sampleParams =
        CalculateNextWorkRequired ⟨some 4, some 1, 5, 0x1d00ffff, 3000, 15⟩
          first.GetBlockTime Consensus.sampleParams :=
  ⟨by decide, rfl, rfl, by decide,
    (GetNextWorkRequired_spec sampleTree (by decide) 5 ⟨some 4, some 1, 5, 0x1d00ffff, 3000, 15⟩
      rfl 3600 Consensus.sampleParams rfl (by decide)).2 (by decide)⟩

/-- Witness of C2: the genesis block hash meets its packed target `0x1d00ffff` under the
main-network limit. -/
theorem CheckProofOfWork_iff_witness :
    0x1d00ffff < 2 ^ 32 ∧ uint256.WF sampleHash ∧
    uint256.WF Consensus.sampleParams.powLimit ∧
    CheckProofOfWork sampleHash 0x1d00ffff Consensus.sampleParams = true ∧
    CheckProofOfWorkNew sampleHash 0x1d00ffff Consensus.sampleParams.powLimit = true :=
  ⟨by norm_num, by decide, by decide,
    (CheckProofOfWork_iff sampleHash 0x1d00ffff Consensus.sampleParams
      Consensus.sampleParams.powLimit (by norm_num) (by decide) (by decide) (by decide)).1.mpr
      (by decide),
    (CheckProofOfWork_iff sampleHash 0x1d00ffff Consensus.sampleParams
      Consensus.sampleParams.powLimit (by norm_num) (by decide) (by decide) (by decide)).2.1.mpr
      (by decide)⟩

/-! ## Division, multiplication and shifts of `base_uint` as arithmetic (C11 to C13) -/

namespace base_uint

/-- C11: for well-formed 256-bit operands `a` and `b`, `operator/=` throws "Division by zero"
(`none`) if and only if `b` is zero; otherwise it returns (the loop is a structural recursion,
so it terminates) a well-formed quotient whose value is exactly `floor (a / b)`; in particular
dividing by one returns `a` itself, and the result is zero whenever `b` has more significant
bits than `a`. -/
theorem div_floor {a b : List Nat} (ha : WF a) (hb : WF b) :
    (div a b = none ↔ toNat b = 0) ∧
    (toNat b ≠ 0 → ∃ q, div a b = some q ∧ WF q ∧ toNat q = toNat a / toNat b) ∧
    (toNat b = 1 → div a b = some a) ∧
    (bits b > bits a → ∃ q, div a b = some q ∧ WF q ∧ toNat q = 0) := by
  have hspec := div_spec ha hb
  refine ⟨⟨?_, hspec.1⟩, hspec.2, ?_, ?_⟩
  · intro hnone
    by_contra hne
    obtain ⟨q, hq, -⟩ := hspec.2 hne
    rw [hq] at hnone
    exact Option.noConfusion hnone
  · intro h1
    obtain ⟨q, hq, hwf, hval⟩ := hspec.2 (by omega)
    rw [hq]
    congr 1
    apply toNat_inj hwf ha
    rw [hval, h1, Nat.div_one]
  · intro hbits
    rw [bits_eq ha, bits_eq hb] at hbits
    have hbpos : 0 < toNat b := by
      rcases Nat.eq_zero_or_pos (toNat b) with h0 | h0
      · rw [h0, Nat.size_zero] at hbits
        omega
      · exact h0
    obtain ⟨q, hq, hwf, hval⟩ := hspec.2 (by omega)
    refine ⟨q, hq, hwf, ?_⟩
    rw [hval]
    apply Nat.div_eq_of_lt
    have h1 : toNat a < 2 ^ Nat.size (toNat a) := Nat.size_le.mp le_rfl
    have h2 : 2 ^ (Nat.size (toNat b) - 1) ≤ toNat b := (size_bounds hbpos).1
    have h3 : 2 ^ Nat.size (toNat a) ≤ 2 ^ (Nat.size (toNat b) - 1) :=
      Nat.pow_le_pow_right (by norm_num) (by omega)
    omega

/-- Witness of C11: dividing `7` by `2` gives `3`. -/
theorem div_floor_witness :
    (div (ofUInt64 7) (ofUInt64 2) = none ↔ toNat (ofUInt64 2) = 0) ∧
    (toNat (ofUInt64 2) ≠ 0 → ∃ q, div (ofUInt64 7) (ofUInt64 2) = some q ∧ WF q ∧
      toNat q = toNat (ofUInt64 7) / toNat (ofUInt64 2)) ∧
    (toNat (ofUInt64 2) = 1 → div (ofUInt64 7) (ofUInt64 2) = some (ofUInt64 7)) ∧
    (bits (ofUInt64 2) > bits (ofUInt64 7) →
      ∃ q, div (ofUInt64 7) (ofUInt64 2) = some q ∧ WF q ∧ toNat q = 0) :=
  div_floor (by decide) (by decide)

end base_uint

namespace base_uint
/-- C13: for a well-formed 256-bit `a` and every shift amount `n`, `operator<<=` gives
`(a * 2 ^ n) mod 2 ^ 256` and `operator>>=` gives `floor (a / 2 ^ n)`, both zero as soon as
`n ≥ 256`; hence for `n < 256` shifting left and then right by `n` gives
`a mod 2 ^ (256 - n)`. -/
theorem shift_spec {a : List Nat} (h : WF a) (n : Nat) :
    (WF (shl a n) ∧ toNat (shl a n) = toNat a * 2 ^ n % 2 ^ 256) ∧
    (WF (shr a n) ∧ toNat (shr a n) = toNat a / 2 ^ n) ∧
    (256 ≤ n → toNat (shl a n) = 0 ∧ toNat (shr a n) = 0) ∧
    (n < 256 → toNat (shr (shl a n) n) = toNat a % 2 ^ (256 - n)) := by
  have hl := shl_spec h n
  have hr := shr_spec h n
  refine ⟨hl, hr, ?_, ?_⟩
  · intro hn
    rw [hl.2, hr.2]
    have hlt := toNat_lt h
    have hpow : (2 : Nat) ^ 256 ≤ 2 ^ n := Nat.pow_le_pow_right (by norm_num) hn
    constructor
    · obtain ⟨k, rfl⟩ := Nat.exists_eq_add_of_le hn
      rw [pow_add, ← Nat.mul_assoc, Nat.mul_comm (toNat a) (2 ^ 256), Nat.mul_assoc]
      exact Nat.mul_mod_right _ _
    · exact Nat.div_eq_of_lt (by omega)
  · intro hn
    rw [(shr_spec hl.1 n).2, hl.2]
    have hsplit : (2 : Nat) ^ 256 = 2 ^ (256 - n) * 2 ^ n := by
      rw [← pow_add]
      congr 1
      omega
    rw [hsplit, Nat.mul_mod_mul_right]
    exact Nat.mul_div_cancel _ (Nat.pos_pow_of_pos n (by norm_num))

/-- Witness of C13: `0xffffffff00000001` shifted by `255`. -/
theorem shift_spec_witness :
    (WF (shl (ofUInt64 0xffffffff00000001) 255) ∧
      toNat (shl (ofUInt64 0xffffffff00000001) 255) =
        toNat (ofUInt64 0xffffffff00000001) * 2 ^ 255 % 2 ^ 256) ∧
    (WF (shr (ofUInt64 0xffffffff00000001) 255) ∧
      toNat (shr (ofUInt64 0xffffffff00000001) 255) =
        toNat (ofUInt64 0xffffffff00000001) / 2 ^ 255) ∧
    (256 ≤ 255 → toNat (shl (ofUInt64 0xffffffff00000001) 255) = 0 ∧
      toNat (shr (ofUInt64 0xffffffff00000001) 255) = 0) ∧
    (255 < 256 → toNat (shr (shl (ofUInt64 0xffffffff00000001) 255) 255) =
      toNat (ofUInt64 0xffffffff00000001) % 2 ^ (256 - 255)) :=
  shift_spec (by decide) 255
end base_uint

/-! ## Multiplication of two `base_uint` is multiplication modulo `2 ^ 256` (C12) -/

namespace base_uint

/-- A fold that carries a record along computes, in its first component, the fold without
the record. -/
theorem foldl_fst_eq {σ τ ι : Type} (F : σ → ι → σ) (G : σ × τ → ι → σ × τ)
    (h : ∀ s r i, (G (s, r) i).1 = F s i) (l : List ι) :
    ∀ s r, (l.foldl G (s, r)).1 = l.foldl F s := by
  induction l with
  | nil => intro s r; rfl
  | cons x xs ih =>
    intro s r
    rw [List.foldl_cons, List.foldl_cons, ← h s r x]
    exact ih _ _

theorem mul_add_word_le {c a x y : Nat} (hc : c < 2 ^ 32) (ha : a < 2 ^ 32) (hx : x < 2 ^ 32)
    (hy : y < 2 ^ 32) : c + a + x * y < 2 ^ 64 := by
  have h := mul_word_le hx hy
  omega

/-- The inner loop of `operator*=(const base_uint&)` from position `bdone.length` on: the
limbs of `a` still to come are replaced by the low words of `carry + rest + x * bs`, and
every recorded sum fits in 64 bits. -/
theorem mulRow_loop (x : Nat) (hx : x < 2 ^ 32) (j : Nat) (btl : List Nat)
    (F : List Nat → (List Nat × Nat) × List Nat → Nat → (List Nat × Nat) × List Nat)
    (hF : ∀ b st i, F b st i =
      ((st.1.1.set (i + j) (((st.1.2 + st.1.1.getD (i + j) 0 + x * b.getD i 0) % 2 ^ 64)
          &&& 0xffffffff),
        ((st.1.2 + st.1.1.getD (i + j) 0 + x * b.getD i 0) % 2 ^ 64) >>> 32),
       st.2 ++ [st.1.2 + st.1.1.getD (i + j) 0 + x * b.getD i 0])) (rest : List Nat) :
    ∀ (bs done bdone : List Nat) (carry : Nat) (tr : List Nat),
      bs.length = rest.length → done.length = bdone.length + j → carry < 2 ^ 32 →
      (∀ y ∈ rest, y < 2 ^ 32) → (∀ y ∈ bs, y < 2 ^ 32) →
      ∃ out c tr2,
        (List.range' bdone.length rest.length).foldl (F (bdone ++ bs ++ btl))
            ((done ++ rest, carry), tr) = ((done ++ out, c), tr ++ tr2) ∧
        out.length = rest.length ∧ (∀ y ∈ out, y < 2 ^ 32) ∧ c < 2 ^ 32 ∧
        tr2.length = rest.length ∧ (∀ n ∈ tr2, n < 2 ^ 64) ∧
        toNat out + 2 ^ (32 * rest.length) * c = carry + toNat rest + x * toNat bs := by
  induction rest with
  | nil =>
    intro bs done bdone carry tr hbs _ hc _ _
    have hb : bs = [] := List.length_eq_zero.mp hbs
    subst hb
    exact ⟨[], carry, [], by simp, rfl, fun y hy => absurd hy (List.not_mem_nil y), hc, rfl,
      fun y hy => absurd hy (List.not_mem_nil y), by simp [toNat]⟩
  | cons a as ih =>
    intro bs done bdone carry tr hbs hdone hc hrest hbsl
    obtain ⟨y, ys, rfl⟩ : ∃ y ys, bs = y :: ys := by
      cases bs with
      | nil => simp at hbs
      | cons y ys => exact ⟨y, ys, rfl⟩
    have hys : ys.length = as.length := by simpa using hbs
    have ha : a < 2 ^ 32 := hrest a (List.mem_cons_self _ _)
    have hy : y < 2 ^ 32 := hbsl y (List.mem_cons_self _ _)
    have hs := mul_add_word_le hc ha hx hy
    have hn : (carry + a + x * y) % 2 ^ 64 = carry + a + x * y := Nat.mod_eq_of_lt hs
    have hget : (done ++ a :: as).getD (bdone.length + j) 0 = a := by
      rw [← hdone, List.getD_eq_getElem?_getD, List.getElem?_append_right (le_refl _)]
      simp
    have hgetb : (bdone ++ y :: ys ++ btl).getD bdone.length 0 = y := by
      rw [List.append_assoc, List.getD_eq_getElem?_getD,
        List.getElem?_append_right (le_refl _)]
      simp
    have hset : ∀ v, (done ++ a :: as).set (bdone.length + j) v = (done ++ [v]) ++ as := by
      intro v
      rw [← hdone, List.set_append_right _ _ (le_refl _)]
      simp
    obtain ⟨out, c, tr2, hfold, hlen, hout, hc2, htl, htr, hval⟩ :=
      ih ys (done ++ [(carry + a + x * y) % 2 ^ 32]) (bdone ++ [y])
        ((carry + a + x * y) / 2 ^ 32) (tr ++ [carry + a + x * y]) hys
        (by simp [hdone]; omega) (by omega)
        (fun z hz => hrest z (List.mem_cons_of_mem _ hz))
        (fun z hz => hbsl z (List.mem_cons_of_mem _ hz))
    refine ⟨(carry + a + x * y) % 2 ^ 32 :: out, c, (carry + a + x * y) :: tr2, ?_,
      by simp [hlen], ?_, hc2, by simp [htl], ?_, ?_⟩
    · have hstep : F (bdone ++ y :: ys ++ btl) ((done ++ a :: as, carry), tr) bdone.length =
          ((done ++ [(carry + a + x * y) % 2 ^ 32] ++ as, (carry + a + x * y) / 2 ^ 32),
            tr ++ [carry + a + x * y]) := by
        rw [hF]
        simp only [hget, hgetb, hn, and_mask32, Nat.shiftRight_eq_div_pow, hset]
      have hb2 : bdone ++ [y] ++ ys ++ btl = bdone ++ y :: ys ++ btl := by simp
      rw [List.length_append, List.length_singleton, hb2] at hfold
      rw [List.length_cons, List.range'_succ, List.foldl_cons, hstep, hfold]
      simp
    · intro z hz
      rcases List.mem_cons.mp hz with h | h
      · rw [h]; exact Nat.mod_lt _ (by norm_num)
      · exact hout z h
    · intro z hz
      rcases List.mem_cons.mp hz with h | h
      · rw [h]; exact hs
      · exact htr z h
    · rw [toNat, toNat, toNat, List.length_cons, Nat.mul_succ, pow_add, Nat.mul_add]
      have h1 := Nat.div_add_mod (carry + a + x * y) (2 ^ 32)
      have h2 : 2 ^ 32 * toNat out + 2 ^ 32 * (2 ^ (32 * as.length) * c) =
          2 ^ 32 * ((carry + a + x * y) / 2 ^ 32) + 2 ^ 32 * toNat as +
            2 ^ 32 * (x * toNat ys) := by
        rw [← Nat.mul_add, hval, Nat.mul_add, Nat.mul_add]
      have h3 : 2 ^ (32 * as.length) * 2 ^ 32 * c = 2 ^ 32 * (2 ^ (32 * as.length) * c) := by
        ring
      have h4 : x * (2 ^ 32 * toNat ys) = 2 ^ 32 * (x * toNat ys) := by ring
      rw [h3, h4]
      omega

end base_uint

namespace base_uint
/-- One pass of the inner loop adds `2 ^ (32 * j) * pn[j] * b` to `a` modulo `2 ^ 256`,
and appends `WIDTH - j` sums to the record, each below `2 ^ 64`. -/
theorem mulRow_spec {self b a : List Nat} (hb : WF b) (ha : WF a) (j : Nat) (hj : j < 8)
    (hx : self.getD j 0 < 2 ^ 32) (tr : List Nat) :
    WF (mulRow self b j (a, tr)).1 ∧
    toNat (mulRow self b j (a, tr)).1 =
      (toNat a + 2 ^ (32 * j) * (self.getD j 0 * toNat b)) % 2 ^ 256 ∧
    ∃ tr2, (mulRow self b j (a, tr)).2 = tr ++ tr2 ∧ tr2.length = 8 - j ∧
      ∀ n ∈ tr2, n < 2 ^ 64 := by
  have hla : (a.drop j).length = 8 - j := by rw [List.length_drop, ha.1]; rfl
  have hlb : (b.take (8 - j)).length = 8 - j := by
    rw [List.length_take, hb.1]; simp only [WIDTH]; omega
  have hlt : (a.take j).length = j := by
    rw [List.length_take, ha.1]; simp only [WIDTH]; omega
  have hra : ∀ y ∈ a.drop j, y < 2 ^ 32 := fun y hy => ha.2 y (List.mem_of_mem_drop hy)
  have hrb : ∀ y ∈ b.take (8 - j), y < 2 ^ 32 := fun y hy => hb.2 y (List.mem_of_mem_take hy)
  have hta : ∀ y ∈ a.take j, y < 2 ^ 32 := fun y hy => ha.2 y (List.mem_of_mem_take hy)
  obtain ⟨out, c, tr2, hfold, hlen, hout, hc, htl, htr, hval⟩ :=
    mulRow_loop (self.getD j 0) hx j (b.drop (8 - j)) _ (fun _ _ _ => rfl) (a.drop j)
      (b.take (8 - j)) (a.take j) [] 0 tr (by rw [hla, hlb]) (by simp [hlt]) (by norm_num)
      hra hrb
  have hm : mulRow self b j (a, tr) = (a.take j ++ out, tr ++ tr2) := by
    rw [mulRow]
    simp only [List.nil_append, List.take_append_drop, List.length_nil, hla] at hfold
    simp only [WIDTH, List.range_eq_range']
    rw [hfold]
  rw [hm]
  refine ⟨⟨?_, ?_⟩, ?_, tr2, rfl, by rw [htl, hla], htr⟩
  · rw [List.length_append, hlt, hlen, hla]; simp only [WIDTH]; omega
  · intro y hy
    rcases List.mem_append.mp hy with h | h
    · exact hta y h
    · exact hout y h
  · show toNat (a.take j ++ out) = _
    rw [toNat_append, hlt]
    have hA : toNat a = toNat (a.take j) + 2 ^ (32 * j) * toNat (a.drop j) := by
      conv_lhs => rw [← List.take_append_drop j a]
      rw [toNat_append, hlt]
    have hB : toNat b = toNat (b.take (8 - j)) +
        2 ^ (32 * (8 - j)) * toNat (b.drop (8 - j)) := by
      conv_lhs => rw [← List.take_append_drop (8 - j) b]
      rw [toNat_append, hlb]
    have hT := toNat_lt_of_limbs hta
    have hO := toNat_lt_of_limbs hout
    rw [hlt] at hT
    rw [hlen, hla] at hO
    rw [hla, Nat.zero_add] at hval
    have hPQ : (2 : Nat) ^ 256 = 2 ^ (32 * j) * 2 ^ (32 * (8 - j)) := by
      rw [← pow_add]; congr 1; omega
    rw [hA, hB, hPQ]
    generalize toNat (a.take j) = T at *
    generalize toNat (a.drop j) = R at *
    generalize toNat (b.take (8 - j)) = Bs at *
    generalize toNat (b.drop (8 - j)) = Bt at *
    generalize toNat out = O at *
    generalize self.getD j 0 = x at *
    generalize (2 : Nat) ^ (32 * j) = P at *
    generalize (2 : Nat) ^ (32 * (8 - j)) = Q at *
    have e : T + P * R + P * (x * (Bs + Q * Bt)) = (T + P * O) + P * Q * (c + x * Bt) := by
      have : R + x * Bs = O + Q * c := by omega
      calc T + P * R + P * (x * (Bs + Q * Bt))
          = T + P * (R + x * Bs) + P * Q * (x * Bt) := by ring
        _ = T + P * (O + Q * c) + P * Q * (x * Bt) := by rw [this]
        _ = (T + P * O) + P * Q * (c + x * Bt) := by ring
    rw [e, Nat.add_mul_mod_self_left, Nat.mod_eq_of_lt]
    have h1 : P * (O + 1) ≤ P * Q := Nat.mul_le_mul_left P hO
    rw [Nat.mul_add, Nat.mul_one] at h1
    omega
end base_uint

namespace base_uint
/-- The outer loop of `operator*=(const base_uint&)` after `j` passes: `a` holds the
product of the low `j` limbs of `pn` with `b`, modulo `2 ^ 256`. -/
theorem mulSums_rows {self b : List Nat} (hs : WF self) (hb : WF b) (j : Nat) (hj : j ≤ 8) :
    WF ((List.range j).foldl (fun a j => mulRow self b j a) (List.replicate WIDTH 0, [])).1 ∧
    toNat ((List.range j).foldl (fun a j => mulRow self b j a) (List.replicate WIDTH 0, [])).1 =
      toNat (self.take j) * toNat b % 2 ^ 256 ∧
    2 * ((List.range j).foldl (fun a j => mulRow self b j a)
      (List.replicate WIDTH 0, [])).2.length = j * (17 - j) ∧
    ∀ n ∈ ((List.range j).foldl (fun a j => mulRow self b j a)
      (List.replicate WIDTH 0, [])).2, n < 2 ^ 64 := by
  induction j with
  | zero =>
    refine ⟨?_, ?_, by simp, ?_⟩
    · simp only [List.range_zero, List.foldl_nil]
      decide
    · simp only [List.range_zero, List.foldl_nil, List.take_zero, toNat, Nat.zero_mul,
        Nat.zero_mod]
      decide
    · intro n hn
      simp at hn
  | succ j ih =>
    obtain ⟨hwf, hval, hlen, htr⟩ := ih (by omega)
    rw [List.range_succ, List.foldl_append, List.foldl_cons, List.foldl_nil]
    generalize (List.range j).foldl (fun a j => mulRow self b j a)
      (List.replicate WIDTH 0, []) = st at *
    obtain ⟨a, tr⟩ := st
    have hjl : j < self.length := by rw [hs.1]; simp only [WIDTH]; omega
    have hx : self.getD j 0 < 2 ^ 32 := by
      have hg : self.getD j 0 = self[j] := by simp [List.getD_eq_getElem?_getD, hjl]
      rw [hg]
      exact hs.2 _ (List.getElem_mem _)
    obtain ⟨hwf2, hval2, tr2, htr2, hlen2, hbound⟩ := mulRow_spec hb hwf j (by omega) hx tr
    refine ⟨hwf2, ?_, ?_, ?_⟩
    · rw [hval2, (toNat_take_succ self hs.2 j hjl).1]
      simp only at hval
      rw [hval, Nat.mod_add_mod]
      congr 1
      ring
    · rw [htr2, List.length_append, hlen2]
      simp only at hlen
      have h8 : j ≤ 7 := by omega
      interval_cases j <;> omega
    · rw [htr2]
      intro n hn
      rcases List.mem_append.mp hn with h | h
      · exact htr n h
      · exact hbound n h

/-- Function `operator*=(const base_uint&)` is multiplication modulo `2 ^ 256`; it
evaluates 36 sums, each below `2 ^ 64`. -/
theorem mulSums_spec {a b : List Nat} (ha : WF a) (hb : WF b) :
    WF (mul a b) ∧ toNat (mul a b) = toNat a * toNat b % 2 ^ 256 ∧
    (mulSums a b).2.length = 36 ∧ ∀ n ∈ (mulSums a b).2, n < 2 ^ 64 := by
  obtain ⟨h1, h2, h3, h4⟩ := mulSums_rows ha hb 8 (le_refl _)
  have ht : a.take 8 = a := List.take_of_length_le (by rw [ha.1]; simp [WIDTH])
  rw [ht] at h2
  refine ⟨h1, h2, ?_, h4⟩
  have : 2 * (mulSums a b).2.length = 8 * (17 - 8) := h3
  omega

/-- The recorded loop of `operator*=(uint32_t)` from limb `done.length` on: every
recorded sum fits in 64 bits. -/
theorem mulWordSums_loop (b32 : Nat) (hb : b32 < 2 ^ 32)
    (F : (List Nat × Nat) × List Nat → Nat → (List Nat × Nat) × List Nat)
    (hF : ∀ st i, F st i =
      ((st.1.1.set i (((st.1.2 + b32 * st.1.1.getD i 0) % 2 ^ 64) &&& 0xffffffff),
        ((st.1.2 + b32 * st.1.1.getD i 0) % 2 ^ 64) >>> 32),
       st.2 ++ [st.1.2 + b32 * st.1.1.getD i 0])) (rest : List Nat) :
    ∀ (done : List Nat) (carry : Nat) (tr : List Nat), carry < 2 ^ 32 →
      (∀ x ∈ rest, x < 2 ^ 32) →
      ∃ out c tr2,
        (List.range' done.length rest.length).foldl F ((done ++ rest, carry), tr) =
          ((done ++ out, c), tr ++ tr2) ∧
        c < 2 ^ 32 ∧ tr2.length = rest.length ∧ ∀ n ∈ tr2, n < 2 ^ 64 := by
  induction rest with
  | nil =>
    intro done carry tr hc _
    exact ⟨[], carry, [], by simp, hc, rfl, fun y hy => absurd hy (List.not_mem_nil y)⟩
  | cons x xs ih =>
    intro done carry tr hc hrest
    have hx : x < 2 ^ 32 := hrest x (List.mem_cons_self _ _)
    have hp := mul_word_le hb hx
    have hs : carry + b32 * x < 2 ^ 64 := by omega
    have hn : (carry + b32 * x) % 2 ^ 64 = carry + b32 * x := Nat.mod_eq_of_lt hs
    have hget : (done ++ x :: xs).getD done.length 0 = x := by
      rw [List.getD_eq_getElem?_getD, List.getElem?_append_right (le_refl _)]
      simp
    have hset : ∀ v, (done ++ x :: xs).set done.length v = (done ++ [v]) ++ xs := by
      intro v
      rw [List.set_append_right _ _ (le_refl _)]
      simp
    obtain ⟨out, c, tr2, hfold, hc2, htl, htr⟩ :=
      ih (done ++ [(carry + b32 * x) % 2 ^ 32]) ((carry + b32 * x) / 2 ^ 32)
        (tr ++ [carry + b32 * x]) (by omega)
        (fun y hy => hrest y (List.mem_cons_of_mem _ hy))
    refine ⟨(carry + b32 * x) % 2 ^ 32 :: out, c, (carry + b32 * x) :: tr2, ?_, hc2,
      by simp [htl], ?_⟩
    · have hstep : F ((done ++ x :: xs, carry), tr) done.length =
          ((done ++ [(carry + b32 * x) % 2 ^ 32] ++ xs, (carry + b32 * x) / 2 ^ 32),
            tr ++ [carry + b32 * x]) := by
        rw [hF]
        simp only [hget, hn, and_mask32, Nat.shiftRight_eq_div_pow, hset]
      rw [List.length_append, List.length_singleton] at hfold
      rw [List.length_cons, List.range'_succ, List.foldl_cons, hstep, hfold]
      simp
    · intro z hz
      rcases List.mem_cons.mp hz with h | h
      · rw [h]; exact hs
      · exact htr z h

/-- The recorded loop of `operator*=(uint32_t)` computes `mulWord`, and its eight sums fit
in 64 bits. -/
theorem mulWordSums_spec {a : List Nat} (h : WF a) {b : Nat} (hb : b < 2 ^ 32) :
    (mulWordSums a b).1 = mulWord a b ∧ (mulWordSums a b).2.length = 8 ∧
    ∀ n ∈ (mulWordSums a b).2, n < 2 ^ 64 := by
  refine ⟨?_, ?_⟩
  · rw [mulWordSums, mulWord]
    simp only
    rw [foldl_fst_eq (fun (st : List Nat × Nat) i =>
      ((st.1.set i (((st.2 + b * st.1.getD i 0) % 2 ^ 64) &&& 0xffffffff),
        ((st.2 + b * st.1.getD i 0) % 2 ^ 64) >>> 32))) _ (fun _ _ _ => rfl)]
  · obtain ⟨out, c, tr2, hfold, _, htl, htr⟩ :=
      mulWordSums_loop b hb _ (fun _ _ => rfl) a [] 0 [] (by norm_num) h.2
    have hm : (mulWordSums a b).2 = tr2 := by
      rw [mulWordSums]
      simp only [List.length_nil, List.nil_append] at hfold
      simp only [List.range_eq_range']
      rw [← h.1, hfold]
    rw [hm, htl, h.1]
    exact ⟨rfl, htr⟩
end base_uint

namespace base_uint
/-- C12: for well-formed 256-bit `a`, `b` and a 32-bit word `w`, `operator*=(const
base_uint&)` returns `(a * b) mod 2 ^ 256` and `operator*=(uint32_t)` returns
`(a * w) mod 2 ^ 256`; none of the 36 (respectively 8) intermediate sums
`carry + limb + limb * limb` exceeds `2 ^ 64 - 1`, so the `uint64_t` arithmetic never
wraps; and multiplication is commutative. -/
theorem mul_spec {a b : List Nat} (ha : WF a) (hb : WF b) {w : Nat} (hw : w < 2 ^ 32) :
    (WF (mul a b) ∧ toNat (mul a b) = toNat a * toNat b % 2 ^ 256) ∧
    (WF (mulWord a w) ∧ toNat (mulWord a w) = toNat a * w % 2 ^ 256) ∧
    ((mulSums a b).2.length = 36 ∧ ∀ n ∈ (mulSums a b).2, n ≤ 2 ^ 64 - 1) ∧
    ((mulWordSums a w).1 = mulWord a w ∧ (mulWordSums a w).2.length = 8 ∧
      ∀ n ∈ (mulWordSums a w).2, n ≤ 2 ^ 64 - 1) ∧
    mul a b = mul b a := by
  obtain ⟨h1, h2, h3, h4⟩ := mulSums_spec ha hb
  obtain ⟨g1, g2, _, _⟩ := mulSums_spec hb ha
  obtain ⟨k1, k2, k3⟩ := mulWordSums_spec ha hw
  refine ⟨⟨h1, h2⟩, mulWord_spec ha hw, ⟨h3, fun n hn => ?_⟩, ⟨k1, k2, fun n hn => ?_⟩, ?_⟩
  · have := h4 n hn
    omega
  · have := k3 n hn
    omega
  · apply toNat_inj h1 g1
    rw [h2, g2, Nat.mul_comm]

/-- Witness of C12 at the boundary operands `2 ^ 256 - 1` and `1` and the word
`0xffffffff`. -/
theorem mul_spec_witness :
    WF (List.replicate 8 0xffffffff) ∧ WF (ofUInt64 1) ∧
    mul (List.replicate 8 0xffffffff) (ofUInt64 1) = List.replicate 8 0xffffffff ∧
    mul (List.replicate 8 0xffffffff) (List.replicate 8 0xffffffff) = ofUInt64 1 ∧
    mul (List.replicate 8 0xffffffff) (ofUInt64 0) = ofUInt64 0 ∧
    mul (List.replicate 8 0xffffffff) (ofUInt64 1) =
      mul (ofUInt64 1) (List.replicate 8 0xffffffff) :=
  ⟨by decide, by decide, by decide, by decide, by decide,
    (@mul_spec (List.replicate 8 0xffffffff) (ofUInt64 1) (by decide) (by decide)
      0xffffffff (by norm_num)).2.2.2.2⟩
end base_uint

open base_uint arith_uint256
/-! ## The skip height (C19) -/

theorem intAnd_one (h : Int) (h0 : 0 ≤ h) : intAnd h 1 = h % 2 := by
  obtain ⟨m, rfl⟩ := Int.eq_ofNat_of_zero_le h0
  show ((m &&& 1 : Nat) : Int) = (m : Int) % 2
  rw [Nat.and_one_is_mod]
  norm_cast

/-- On a positive natural number, `n & (n - 1)` subtracts the lowest power of two present in
`n`. -/
theorem and_pred_eq (n : Nat) : 0 < n →
    ∃ j : Nat, n % 2 ^ (j + 1) = 2 ^ j ∧ n &&& (n - 1) = n - 2 ^ j := by
  induction n using Nat.strong_induction_on with
  | _ n ih =>
    intro hn
    rcases Nat.even_or_odd' n with ⟨m, rfl | rfl⟩
    · have hm : 0 < m := by omega
      obtain ⟨j, hj1, hj2⟩ := ih m (by omega) hm
      refine ⟨j + 1, ?_, ?_⟩
      · rw [pow_succ 2 (j + 1), Nat.mul_comm (2 ^ (j + 1)) 2, Nat.mul_mod_mul_left, hj1]
        ring
      · have e1 : 2 * m - 1 = Nat.bit true (m - 1) := by
          rw [Nat.bit_val]; simp only [Bool.toNat_true]; omega
        have e2 : 2 * m = Nat.bit false m := by
          rw [Nat.bit_val]; simp only [Bool.toNat_false]; omega
        rw [e1]
        nth_rewrite 1 [e2]
        rw [Nat.land_bit, hj2, Nat.bit_val]
        simp only [Bool.false_and, Bool.toNat_false]
        have hle : 2 ^ j ≤ m := by
          have := Nat.mod_le m (2 ^ (j + 1))
          omega
        rw [pow_succ]
        omega
    · refine ⟨0, ?_, ?_⟩
      · simp only [zero_add, pow_one, pow_zero]
        omega
      · have e1 : 2 * m + 1 - 1 = Nat.bit false m := by
          rw [Nat.bit_val]; simp only [Bool.toNat_false]; omega
        have e2 : 2 * m + 1 = Nat.bit true m := by
          rw [Nat.bit_val]; simp only [Bool.toNat_true]
        rw [e1]
        nth_rewrite 1 [e2]
        rw [Nat.land_bit, Nat.and_self, Nat.bit_val]
        simp only [Bool.true_and, Bool.toNat_false, pow_zero]
        omega

/-- C19: for every height `h ≥ 1`, `GetSkipHeight h` is non-negative and strictly below `h`;
it is `0` for `h < 2`, `InvertLowestOne (InvertLowestOne (h - 1)) + 1` for odd `h ≥ 3` and
`InvertLowestOne h` for even `h ≥ 2`, where `InvertLowestOne n` clears the lowest set bit of a
positive `n` (it subtracts the power of two `2 ^ j` with `n mod 2 ^ (j + 1) = 2 ^ j`). -/
theorem GetSkipHeight_spec (h : Int) (h1 : 1 ≤ h) :
    (0 ≤ GetSkipHeight h ∧ GetSkipHeight h < h) ∧
    (h < 2 → GetSkipHeight h = 0) ∧
    (3 ≤ h → h % 2 = 1 →
      GetSkipHeight h = InvertLowestOne (InvertLowestOne (h - 1)) + 1) ∧
    (2 ≤ h → h % 2 = 0 → GetSkipHeight h = InvertLowestOne h) ∧
    (∀ n : Int, 1 ≤ n →
      ∃ j : Nat, n % 2 ^ (j + 1) = 2 ^ j ∧ InvertLowestOne n = n - 2 ^ j) := by
  refine ⟨GetSkipHeight_bounds h h1, ?_, ?_, ?_, ?_⟩
  · intro h2
    rw [GetSkipHeight, if_pos h2]
  · intro h3 hodd
    rw [GetSkipHeight, if_neg (by omega), if_pos]
    rw [intAnd_one h (by omega), hodd]
    decide
  · intro h2 heven
    rw [GetSkipHeight, if_neg (by omega), if_neg]
    rw [intAnd_one h (by omega), heven]
    decide
  · intro n hn
    obtain ⟨m, rfl⟩ := Int.eq_ofNat_of_zero_le (by omega : 0 ≤ n)
    have hm : 0 < m := by omega
    obtain ⟨j, hj1, hj2⟩ := and_pred_eq m hm
    refine ⟨j, by exact_mod_cast hj1, ?_⟩
    have hle : 2 ^ j ≤ m := by
      have := Nat.mod_le m (2 ^ (j + 1))
      omega
    obtain ⟨k, rfl⟩ : ∃ k, m = k + 1 := ⟨m - 1, by omega⟩
    have e : ((k + 1 : Nat) : Int) - 1 = (k : Int) := by push_cast; ring
    have hl : InvertLowestOne ((k + 1 : Nat) : Int) = (((k + 1) &&& k : Nat) : Int) := by
      rw [InvertLowestOne, e]; rfl
    rw [hl]
    have hj3 : (k + 1) &&& k = k + 1 - 2 ^ j := hj2
    rw [hj3]
    push_cast [hle]
    ring

/-- Witness of C19 at height 11, whose skip height is 1. -/
theorem GetSkipHeight_spec_witness :
    ((1 : Int) ≤ 11) ∧ GetSkipHeight 11 = 1 ∧
    ((0 ≤ GetSkipHeight 11 ∧ GetSkipHeight 11 < 11) ∧
    ((11 : Int) < 2 → GetSkipHeight 11 = 0) ∧
    ((3 : Int) ≤ 11 → (11 : Int) % 2 = 1 →
      GetSkipHeight 11 = InvertLowestOne (InvertLowestOne (11 - 1)) + 1) ∧
    ((2 : Int) ≤ 11 → (11 : Int) % 2 = 0 → GetSkipHeight 11 = InvertLowestOne 11) ∧
    (∀ n : Int, 1 ≤ n →
      ∃ j : Nat, n % 2 ^ (j + 1) = 2 ^ j ∧ InvertLowestOne n = n - 2 ^ j)) :=
  ⟨by decide, by decide, GetSkipHeight_spec 11 (by decide)⟩

/-! ## The fields of the packed form (C20) -/

namespace arith_uint256
open base_uint

/-- The mantissa before normalisation has at most three bytes. -/
theorem compact_mantissa_lt (v : Nat) :
    (if (Nat.size v + 7) / 8 ≤ 3 then v * 256 ^ (3 - (Nat.size v + 7) / 8)
      else v / 256 ^ ((Nat.size v + 7) / 8 - 3)) < 2 ^ 24 := by
  obtain ⟨hv1, -⟩ := byteLength_bounds v
  generalize (Nat.size v + 7) / 8 = e0 at *
  have h256 : (256 : Nat) ^ 3 = 2 ^ 24 := by norm_num
  by_cases hc : e0 ≤ 3
  · rw [if_pos hc]
    have e : (2 : Nat) ^ 24 = 256 ^ e0 * 256 ^ (3 - e0) := by
      rw [← h256, ← pow_add]; congr 1; omega
    rw [e]
    exact Nat.mul_lt_mul_of_pos_right hv1 (by positivity)
  · rw [if_neg hc]
    have e : (256 : Nat) ^ e0 = 2 ^ 24 * 256 ^ (e0 - 3) := by
      rw [← h256, ← pow_add]; congr 1; omega
    rw [e] at hv1
    exact Nat.div_lt_of_lt_mul (by rw [Nat.mul_comm]; exact hv1)

/-- C20: for every well-formed 256-bit value and either sign flag, `GetCompact` passes both
assertions and returns a 32-bit word whose top byte is the exponent `E ≤ 33`, whose low 23
bits are the normalised mantissa `M < 2 ^ 23` (the three top bytes of the value, moved one
byte down with `E` raised when bit 23 would be set), and whose bit `0x800000` is set if and
only if `fNegative` holds and `M ≠ 0`. -/
theorem GetCompact_fields {a : List Nat} (h : WF a) (fNegative : Bool) :
    ∃ nBits M E : Nat, GetCompact a fNegative = some nBits ∧
      (∃ m0 : Nat,
        m0 = (if (bits a + 7) / 8 ≤ 3 then toNat a * 256 ^ (3 - (bits a + 7) / 8)
              else toNat a / 256 ^ ((bits a + 7) / 8 - 3)) ∧
        M = (if 2 ^ 23 ≤ m0 then m0 / 256 else m0) ∧
        E = (if 2 ^ 23 ≤ m0 then (bits a + 7) / 8 + 1 else (bits a + 7) / 8)) ∧
      M < 2 ^ 23 ∧ E ≤ 33 ∧ nBits < 2 ^ 32 ∧
      nBits / 2 ^ 24 = E ∧ nBits % 2 ^ 23 = M ∧
      (nBits / 2 ^ 23 % 2 = 1 ↔ (fNegative = true ∧ M ≠ 0)) ∧
      (nBits &&& 0x00800000 ≠ 0 ↔ (fNegative = true ∧ M ≠ 0)) := by
  have hm0 := compact_mantissa_lt (toNat a)
  have he0 : (Nat.size (toNat a) + 7) / 8 ≤ 32 := by
    have : Nat.size (toNat a) ≤ 256 := Nat.size_le.mpr (toNat_lt h)
    omega
  rw [GetCompact_eq h fNegative, bits_eq h]
  simp only [compactOfNat]
  generalize (Nat.size (toNat a) + 7) / 8 = e0 at *
  generalize (if e0 ≤ 3 then toNat a * 256 ^ (3 - e0) else toNat a / 256 ^ (e0 - 3)) = m0 at *
  refine ⟨_, _, _, rfl, ⟨m0, rfl, rfl, rfl⟩, ?_⟩
  have hbit : ∀ x : Nat, (x &&& 0x00800000 ≠ 0 ↔ x / 2 ^ 23 % 2 = 1) := by
    intro x
    have e : (0x00800000 : Nat) = 2 ^ 23 := by norm_num
    rw [e, Nat.and_two_pow, Nat.testBit_to_div_mod]
    by_cases hx : x / 2 ^ 23 % 2 = 1
    · simp [hx]
    · simp [hx]
  rw [hbit]
  by_cases hb : 2 ^ 23 ≤ m0
  · simp only [if_pos hb]
    by_cases hf : fNegative = true ∧ m0 / 256 ≠ 0
    · simp only [if_pos hf]
      refine ⟨by omega, by omega, by omega, by omega, by omega, ?_, ?_⟩ <;>
        exact ⟨fun _ => hf, fun _ => by omega⟩
    · simp only [if_neg hf]
      refine ⟨by omega, by omega, by omega, by omega, by omega, ?_, ?_⟩ <;>
        exact ⟨fun hx => by omega, fun hx => absurd hx hf⟩
  · simp only [if_neg hb]
    by_cases hf : fNegative = true ∧ m0 ≠ 0
    · simp only [if_pos hf]
      refine ⟨by omega, by omega, by omega, by omega, by omega, ?_, ?_⟩ <;>
        exact ⟨fun _ => hf, fun _ => by omega⟩
    · simp only [if_neg hf]
      refine ⟨by omega, by omega, by omega, by omega, by omega, ?_, ?_⟩ <;>
        exact ⟨fun hx => by omega, fun hx => absurd hx hf⟩

/-- Witness of C20: the value `0x80` with the sign flag, packed as `0x02808000`. -/
theorem GetCompact_fields_witness :
    WF (ofUInt64 0x80) ∧ GetCompact (ofUInt64 0x80) true = some 0x02808000 ∧
    ∃ nBits M E : Nat, GetCompact (ofUInt64 0x80) true = some nBits ∧
      (∃ m0 : Nat,
        m0 = (if (bits (ofUInt64 0x80) + 7) / 8 ≤ 3
              then toNat (ofUInt64 0x80) * 256 ^ (3 - (bits (ofUInt64 0x80) + 7) / 8)
              else toNat (ofUInt64 0x80) / 256 ^ ((bits (ofUInt64 0x80) + 7) / 8 - 3)) ∧
        M = (if 2 ^ 23 ≤ m0 then m0 / 256 else m0) ∧
        E = (if 2 ^ 23 ≤ m0 then (bits (ofUInt64 0x80) + 7) / 8 + 1
             else (bits (ofUInt64 0x80) + 7) / 8)) ∧
      M < 2 ^ 23 ∧ E ≤ 33 ∧ nBits < 2 ^ 32 ∧
      nBits / 2 ^ 24 = E ∧ nBits % 2 ^ 23 = M ∧
      (nBits / 2 ^ 23 % 2 = 1 ↔ (true = true ∧ M ≠ 0)) ∧
      (nBits &&& 0x00800000 ≠ 0 ↔ (true = true ∧ M ≠ 0)) :=
  ⟨by decide, by decide, GetCompact_fields (by decide) true⟩

end arith_uint256

/-! ## Ancestors in a well-formed tree -/

namespace CBlockIndex

theorem naiveAncestor_zero {t : List CBlockIndex} {i : Nat} {node : CBlockIndex}
    (hi : t[i]? = some node) : naiveAncestor t 0 i = some i := by
  have hlt : i < t.length := by
    by_contra hc
    rw [List.getElem?_eq_none (by omega)] at hi
    exact Option.noConfusion hi
  rw [naiveAncestor, if_pos hlt]

theorem naiveAncestor_comp {t : List CBlockIndex} {a i j : Nat}
    (h : naiveAncestor t a i = some j) (b : Nat) :
    naiveAncestor t (a + b) i = naiveAncestor t b j := by
  rw [naiveAncestor_add, h, Option.some_bind]

/-- A node of positive height has a predecessor, one lower. -/
theorem pprev_of_pos {t : List CBlockIndex} (hwf : WFTree t) {i : Nat} {node : CBlockIndex}
    (hi : t[i]? = some node) (h : 0 < node.nHeight) :
    ∃ p prev, node.pprev = some p ∧ t[p]? = some prev ∧
      prev.nHeight = node.nHeight - 1 := by
  obtain ⟨_, hroot, hprev, _⟩ := node_facts hwf hi
  cases hp : node.pprev with
  | none =>
    have := hroot hp
    omega
  | some p =>
    obtain ⟨prev, h1, h2⟩ := hprev p hp
    exact ⟨p, prev, rfl, h1, h2⟩

/-- A node of height 0 has no predecessor. -/
theorem pprev_of_zero {t : List CBlockIndex} (hwf : WFTree t) {i : Nat} {node : CBlockIndex}
    (hi : t[i]? = some node) (h : node.nHeight = 0) : node.pprev = none := by
  obtain ⟨_, _, hprev, _⟩ := node_facts hwf hi
  cases hp : node.pprev with
  | none => rfl
  | some p =>
    obtain ⟨prev, h1, h2⟩ := hprev p hp
    have := (node_facts hwf h1).1
    omega

/-- Whatever the naive walk reaches is a node, `n` lower than its start. -/
theorem naiveAncestor_node {t : List CBlockIndex} (hwf : WFTree t) (n : Nat) :
    ∀ (i j : Nat) (node : CBlockIndex), t[i]? = some node → naiveAncestor t n i = some j →
      ∃ anc, t[j]? = some anc ∧ anc.nHeight = node.nHeight - n := by
  induction n with
  | zero =>
    intro i j node hi hj
    rw [naiveAncestor_zero hi] at hj
    cases hj
    exact ⟨node, hi, by simp⟩
  | succ n ih =>
    intro i j node hi hj
    rw [naiveAncestor, hi] at hj
    obtain ⟨_, _, hprev, _⟩ := node_facts hwf hi
    cases hp : node.pprev with
    | none => simp [hp] at hj
    | some p =>
      simp only [hp] at hj
      obtain ⟨prev, h1, h2⟩ := hprev p hp
      obtain ⟨anc, h3, h4⟩ := ih p j prev h1 hj
      exact ⟨anc, h3, by rw [h4, h2]; push_cast; ring⟩

/-- The ancestor at height `m` of the node `i` of height `H`, for `m ≤ H`. -/
theorem ancestor_at {t : List CBlockIndex} (hwf : WFTree t) {i : Nat} {node : CBlockIndex}
    (hi : t[i]? = some node) {H : Nat} (hH : node.nHeight = (H : Int)) (m : Nat) (hm : m ≤ H) :
    ∃ c cn, naiveAncestor t (H - m) i = some c ∧ t[c]? = some cn ∧
      cn.nHeight = (m : Int) := by
  obtain ⟨j, anc, h1, h2, h3⟩ := naiveAncestor_height hwf (H - m) i node hi (by omega)
  exact ⟨j, anc, h1, h2, by rw [h3, hH]; omega⟩

end CBlockIndex

/-! ## The active chain: `SetTip` (C14) -/

namespace CChain
open CBlockIndex

/-- The loop of `SetTip` at the ancestor `c` of height `m` of the new tip `i` (of height
`H`): when the slots above `m` already hold the ancestors of `i`, and below every
populated slot up to `m` stand the ancestors of the node in that slot, the loop ends with
every slot holding the ancestor of `i` at its height. -/
theorem SetTipLoop_spec {t : List CBlockIndex} (hwf : WFTree t) {i : Nat}
    {node : CBlockIndex} (hi : t[i]? = some node) {H : Nat} (hH : node.nHeight = (H : Int))
    (m : Nat) :
    ∀ (fuel : Nat) (v : List (Option Nat)) (c : Nat), m ≤ H → m + 1 ≤ fuel →
      v.length = H + 1 → naiveAncestor t (H - m) i = some c →
      (∀ k, m < k → k ≤ H → v[k]? = some (naiveAncestor t (H - k) i)) →
      (∀ k j, k ≤ m → v[k]? = some (some j) →
        ∀ k2, k2 ≤ k → v[k2]? = some (naiveAncestor t (k - k2) j)) →
      ∃ v2, SetTipLoop t fuel v (some c) = some v2 ∧ v2.length = H + 1 ∧
        ∀ k, k ≤ H → v2[k]? = some (naiveAncestor t (H - k) i) := by
  induction m with
  | zero =>
    intro fuel v c hm hfuel hlen hc habove hbelow
    obtain ⟨f, rfl⟩ : ∃ f, fuel = f + 1 := ⟨fuel - 1, by omega⟩
    obtain ⟨cn, hcn, hch⟩ := naiveAncestor_node hwf (H - 0) i c node hi hc
    have hch0 : cn.nHeight = 0 := by rw [hch, hH, Nat.sub_zero]; omega
    rw [SetTipLoop, hcn]
    simp only [hch0, Int.toNat_zero]
    have hcond : ¬ ((0 : Int) < 0 ∨ (0 : Int) ≥ (v.length : Int)) := by
      rw [hlen]; omega
    rw [if_neg hcond]
    by_cases hslot : v.getD 0 none = some c
    · rw [if_pos hslot]
      refine ⟨v, rfl, hlen, ?_⟩
      intro k hk
      rcases Nat.eq_zero_or_pos k with h0 | h0
      · subst h0
        rw [hc]
        rw [List.getD_eq_getElem?_getD] at hslot
        cases hv : v[0]? with
        | none =>
          rw [List.getElem?_eq_none_iff] at hv
          omega
        | some x =>
          rw [hv] at hslot
          simpa using hslot
      · exact habove k h0 hk
    · rw [if_neg hslot, pprev_of_zero hwf hcn hch0, SetTipLoop]
      refine ⟨_, rfl, by rw [List.length_set, hlen], ?_⟩
      intro k hk
      rcases Nat.eq_zero_or_pos k with h0 | h0
      · subst h0
        rw [List.getElem?_set_self (by omega), hc]
      · rw [List.getElem?_set_ne (by omega)]
        exact habove k h0 hk
  | succ m ih =>
    intro fuel v c hm hfuel hlen hc habove hbelow
    obtain ⟨f, rfl⟩ : ∃ f, fuel = f + 1 := ⟨fuel - 1, by omega⟩
    obtain ⟨cn, hcn, hch⟩ := naiveAncestor_node hwf (H - (m + 1)) i c node hi hc
    have hch1 : cn.nHeight = ((m + 1 : Nat) : Int) := by rw [hch, hH]; omega
    rw [SetTipLoop, hcn]
    simp only [hch1, Int.toNat_ofNat]
    have hcond : ¬ (((m + 1 : Nat) : Int) < 0 ∨ ((m + 1 : Nat) : Int) ≥ (v.length : Int)) := by
      rw [hlen]; omega
    rw [if_neg hcond]
    by_cases hslot : v.getD (m + 1) none = some c
    · rw [if_pos hslot]
      refine ⟨v, rfl, hlen, ?_⟩
      intro k hk
      by_cases hkm : k ≤ m + 1
      · have hv : v[m + 1]? = some (some c) := by
          rw [List.getD_eq_getElem?_getD] at hslot
          cases hv : v[m + 1]? with
          | none =>
            rw [List.getElem?_eq_none_iff] at hv
            omega
          | some x =>
            rw [hv] at hslot
            rw [show x = some c by simpa using hslot]
        rw [hbelow (m + 1) c (le_refl _) hv k hkm, ← naiveAncestor_comp hc]
        congr 2
        omega
      · exact habove k (by omega) hk
    · rw [if_neg hslot]
      obtain ⟨p, prev, hp, hpg, hph⟩ := pprev_of_pos hwf hcn (by rw [hch1]; omega)
      rw [hp]
      have hcp : naiveAncestor t (H - m) i = some p := by
        have e : H - m = (H - (m + 1)) + 1 := by omega
        rw [e, naiveAncestor_comp hc, naiveAncestor_succ_of_pprev hcn hp,
          naiveAncestor_zero hpg]
      apply ih f (v.set (m + 1) (some c)) p (by omega) (by omega)
        (by rw [List.length_set, hlen]) hcp
      · intro k hk1 hk2
        by_cases hkm : k = m + 1
        · subst hkm
          rw [List.getElem?_set_self (by omega), hc]
        · rw [List.getElem?_set_ne (by omega)]
          exact habove k (by omega) hk2
      · intro k j hk hv k2 hk2
        rw [List.getElem?_set_ne (by omega)] at hv
        rw [List.getElem?_set_ne (by omega)]
        exact hbelow k j (by omega) hv k2 hk2

end CChain

namespace CChain
open CBlockIndex
theorem resize_length (v : List (Option Nat)) (n : Nat) : (resize v n).length = n := by
  rw [resize, List.length_append, List.length_take, List.length_replicate]
  omega

theorem resize_getElem (v : List (Option Nat)) (n k : Nat) :
    (resize v n)[k]? = if k < n then (if k < v.length then v[k]? else some none) else none := by
  rw [resize]
  by_cases hk : k < n
  · rw [if_pos hk]
    by_cases hl : k < v.length
    · rw [if_pos hl, List.getElem?_append_left (by rw [List.length_take]; omega),
        List.getElem?_take_of_lt hk]
    · rw [if_neg hl, List.getElem?_append_right (by rw [List.length_take]; omega),
        List.getElem?_replicate, if_pos (by rw [List.length_take]; omega)]
  · rw [if_neg hk]
    apply List.getElem?_eq_none
    rw [List.length_append, List.length_take, List.length_replicate]
    omega

/-- Below every populated slot of a chain that is empty or holds a path stand the
ancestors of the node in that slot; cutting or padding the chain keeps that. -/
theorem resize_below {t : List CBlockIndex} (v : List (Option Nat))
    (hv : v = [] ∨ ∃ tip, HoldsPath t v tip) (n : Nat) :
    ∀ k j, (resize v n)[k]? = some (some j) →
      ∀ k2, k2 ≤ k → (resize v n)[k2]? = some (naiveAncestor t (k - k2) j) := by
  intro k j hk k2 hk2
  rw [resize_getElem] at hk
  by_cases h1 : k < n
  · rw [if_pos h1] at hk
    by_cases h2 : k < v.length
    · rw [if_pos h2] at hk
      rcases hv with h0 | ⟨tip, node, _, _, hslots⟩
      · rw [h0] at h2
        simp at h2
      · rw [resize_getElem, if_pos (by omega), if_pos (by omega), hslots k2 (by omega)]
        rw [hslots k h2] at hk
        have hk3 : naiveAncestor t (v.length - 1 - k) tip = some j := by simpa using hk
        rw [← naiveAncestor_comp hk3]
        congr 2
        omega
    · rw [if_neg h2] at hk
      simp at hk
  · rw [if_neg h1] at hk
    simp at hk

/-- C14: for a chain that is empty or holds the path from the root to some tip, and a node
`i` of a well-formed tree, `SetTip` (given fuel for its at most `nHeight + 1` iterations)
returns a chain with exactly `nHeight + 1` slots in which slot `k` holds the ancestor of
`i` at height `k`, a node of height `k`; its tip is `i`; this holds whether the walk runs down
to the root or stops early at a slot that already holds the right node.  `SetTip` of the
null pointer empties the chain. -/
theorem SetTip_spec {t : List CBlockIndex} (hwf : WFTree t) (vChain : List (Option Nat))
    (hv : vChain = [] ∨ ∃ tip, HoldsPath t vChain tip) (i : Nat) (node : CBlockIndex)
    (hi : t[i]? = some node) (fuel : Nat) (hfuel : node.nHeight + 1 ≤ (fuel : Int)) :
    (∃ v2, SetTip t fuel vChain (some i) = some v2 ∧
      (v2.length : Int) = node.nHeight + 1 ∧
      (∀ k, k < v2.length → ∃ j anc, v2[k]? = some (some j) ∧
        naiveAncestor t (v2.length - 1 - k) i = some j ∧ t[j]? = some anc ∧
        anc.nHeight = (k : Int)) ∧
      Tip v2 = some i ∧ HoldsPath t v2 i) ∧
    SetTip t fuel vChain none = some [] := by
  refine ⟨?_, rfl⟩
  have h0 := height_nonneg hwf hi
  obtain ⟨H, hH⟩ := Int.eq_ofNat_of_zero_le h0
  have hloop := SetTipLoop_spec hwf hi hH H fuel (resize vChain (H + 1)) i (le_refl _)
    (by omega) (resize_length _ _) (by rw [Nat.sub_self]; exact naiveAncestor_zero hi)
    (fun k h1 h2 => absurd h1 (by omega))
    (fun k j _ hk k2 hk2 => resize_below vChain hv (H + 1) k j hk k2 hk2)
  obtain ⟨v2, hv2, hlen, hslots⟩ := hloop
  have hst : SetTip t fuel vChain (some i) = some v2 := by
    rw [SetTip]
    simp only [hi]
    rw [if_neg (by omega)]
    have e : (node.nHeight + 1).toNat = H + 1 := by omega
    rw [e]
    exact hv2
  have hpath : ∀ k, k < v2.length → v2[k]? = some (naiveAncestor t (v2.length - 1 - k) i) := by
    intro k hk
    rw [hlen] at hk ⊢
    exact hslots k (by omega)
  refine ⟨v2, hst, by rw [hlen, hH]; push_cast; ring, ?_, ?_,
    ⟨node, hi, by rw [hlen, hH]; push_cast; ring, hpath⟩⟩
  · intro k hk
    rw [hlen] at hk
    obtain ⟨c, cn, hc1, hc2, hc3⟩ := ancestor_at hwf hi hH k (by omega)
    refine ⟨c, cn, ?_, ?_, hc2, hc3⟩
    · rw [hslots k (by omega), hc1]
    · rw [hlen]
      exact hc1
  · rw [Tip, if_pos (by omega), List.getD_eq_getElem?_getD, hlen, Nat.add_sub_cancel,
      hslots H (le_refl _), Nat.sub_self, Option.getD_some]
    exact naiveAncestor_zero hi

/-- Witness of C14: on the sample chain `0 .. 5`, moving the tip to the fork `6` (height 3)
stops at slot 2, which already holds the right node. -/
theorem SetTip_spec_witness :
    WFTree sampleTree ∧
    HoldsPath sampleTree [some 0, some 1, some 2, some 3, some 4, some 5] 5 ∧
    SetTip sampleTree 4 [some 0, some 1, some 2, some 3, some 4, some 5] (some 6) =
      some [some 0, some 1, some 2, some 6] ∧
    ∃ v2, SetTip sampleTree 4 [some 0, some 1, some 2, some 3, some 4, some 5] (some 6) =
        some v2 ∧
      (v2.length : Int) = 3 + 1 ∧
      (∀ k, k < v2.length → ∃ j anc, v2[k]? = some (some j) ∧
        naiveAncestor sampleTree (v2.length - 1 - k) 6 = some j ∧
        sampleTree[j]? = some anc ∧ anc.nHeight = (k : Int)) ∧
      Tip v2 = some 6 ∧ HoldsPath sampleTree v2 6 :=
  ⟨by decide, ⟨⟨some 4, some 1, 5, 0x1d00ffff, 3000, 15⟩, rfl, by decide, by decide⟩,
    by decide,
    (SetTip_spec (by decide) [some 0, some 1, some 2, some 3, some 4, some 5]
      (Or.inr ⟨5, ⟨some 4, some 1, 5, 0x1d00ffff, 3000, 15⟩, rfl, by decide, by decide⟩)
      6 ⟨some 2, some 1, 3, 0x1d00ffff, 1900, 16⟩ rfl 4 (by decide)).1⟩

end CChain

/-! ## The active chain: `FindFork` (C15) -/

namespace CChain
open CBlockIndex

/-- The loop of `FindFork` at the ancestor `c` of height `m` of the node `i` (of height
`H`): it returns the ancestor of `i` at the greatest height `m2 ≤ m` that the chain
contains, and the null pointer when the chain contains none of them. -/
theorem FindForkLoop_spec {t : List CBlockIndex} (hwf : WFTree t) (vChain : List (Option Nat))
    {i : Nat} {node : CBlockIndex} (hi : t[i]? = some node) {H : Nat}
    (hH : node.nHeight = (H : Int)) (m : Nat) :
    ∀ (fuel c : Nat), m ≤ H → m + 1 ≤ fuel → naiveAncestor t (H - m) i = some c →
      ∃ r, FindForkLoop t vChain fuel (some c) = some r ∧
        (∀ f, r = some f → ∃ m2, m2 ≤ m ∧ naiveAncestor t (H - m2) i = some f ∧
          Contains t vChain f = true ∧
          ∀ k g, m2 < k → k ≤ m → naiveAncestor t (H - k) i = some g →
            Contains t vChain g = false) ∧
        (r = none → ∀ k g, k ≤ m → naiveAncestor t (H - k) i = some g →
          Contains t vChain g = false) := by
  induction m with
  | zero =>
    intro fuel c hm hfuel hc
    obtain ⟨f, rfl⟩ : ∃ f, fuel = f + 1 := ⟨fuel - 1, by omega⟩
    obtain ⟨cn, hcn, hch⟩ := naiveAncestor_node hwf (H - 0) i c node hi hc
    have hch0 : cn.nHeight = 0 := by rw [hch, hH, Nat.sub_zero]; omega
    rw [FindForkLoop, hcn]
    simp only
    by_cases hcont : Contains t vChain c = true
    · rw [if_pos hcont]
      refine ⟨some c, rfl, ?_, fun h => Option.noConfusion h⟩
      intro f hf
      cases hf
      exact ⟨0, le_refl _, hc, hcont, fun k g h1 h2 => absurd h1 (by omega)⟩
    · rw [if_neg hcont, pprev_of_zero hwf hcn hch0, FindForkLoop]
      refine ⟨none, rfl, fun f hf => Option.noConfusion hf, ?_⟩
      intro _ k g hk hg
      have hk0 : k = 0 := by omega
      subst hk0
      rw [hc] at hg
      cases hg
      simpa using hcont
  | succ m ih =>
    intro fuel c hm hfuel hc
    obtain ⟨f, rfl⟩ : ∃ f, fuel = f + 1 := ⟨fuel - 1, by omega⟩
    obtain ⟨cn, hcn, hch⟩ := naiveAncestor_node hwf (H - (m + 1)) i c node hi hc
    have hch1 : cn.nHeight = ((m + 1 : Nat) : Int) := by rw [hch, hH]; omega
    rw [FindForkLoop, hcn]
    simp only
    by_cases hcont : Contains t vChain c = true
    · rw [if_pos hcont]
      refine ⟨some c, rfl, ?_, fun h => Option.noConfusion h⟩
      intro f hf
      cases hf
      exact ⟨m + 1, le_refl _, hc, hcont, fun k g h1 h2 => absurd h1 (by omega)⟩
    · rw [if_neg hcont]
      obtain ⟨p, prev, hp, hpg, hph⟩ := pprev_of_pos hwf hcn (by rw [hch1]; omega)
      rw [hp]
      have hcp : naiveAncestor t (H - m) i = some p := by
        have e : H - m = (H - (m + 1)) + 1 := by omega
        rw [e, naiveAncestor_comp hc, naiveAncestor_succ_of_pprev hcn hp,
          naiveAncestor_zero hpg]
      obtain ⟨r, hr, hsome, hnone⟩ := ih f p (by omega) (by omega) hcp
      have htop : ∀ g, naiveAncestor t (H - (m + 1)) i = some g →
          Contains t vChain g = false := by
        intro g hg
        rw [hc] at hg
        cases hg
        simpa using hcont
      refine ⟨r, hr, ?_, ?_⟩
      · intro f2 hf2
        obtain ⟨m2, h1, h2, h3, h4⟩ := hsome f2 hf2
        refine ⟨m2, by omega, h2, h3, ?_⟩
        intro k g hk1 hk2 hg
        by_cases hkm : k = m + 1
        · subst hkm
          exact htop g hg
        · exact h4 k g hk1 (by omega) hg
      · intro hr2 k g hk hg
        by_cases hkm : k = m + 1
        · subst hkm
          exact htop g hg
        · exact hnone hr2 k g (by omega) hg

end CChain

namespace CChain
open CBlockIndex
/-- A node above the last slot of the chain is not contained in it. -/
theorem not_Contains_of_high {t : List CBlockIndex} (vChain : List (Option Nat)) {g : Nat}
    {gn : CBlockIndex} (hg : t[g]? = some gn) (h : (vChain.length : Int) ≤ gn.nHeight) :
    Contains t vChain g = false := by
  have hget : get vChain gn.nHeight = none := by
    rw [get, if_pos (Or.inr h)]
  rw [Contains, hg]
  simp only [hget]
  exact decide_eq_false (fun hc => Option.noConfusion hc)

/-- Function `GetAncestor` in a well-formed tree returns the naive ancestor. -/
theorem GetAncestor_eq {t : List CBlockIndex} (hwf : WFTree t) {i : Nat} {node : CBlockIndex}
    (hi : t[i]? = some node) {H : Nat} (hH : node.nHeight = (H : Int)) (m : Nat) (hm : m ≤ H) :
    GetAncestor t i (m : Int) = some (naiveAncestor t (H - m) i) := by
  rw [GetAncestor_eq_of_SkipOK hwf (H : Int) (skipOK_all hwf H) i node hi (by omega) (m : Int)
    (by omega) (by omega)]
  congr 2
  omega

/-- Function `FindFork` on a node `i` of height `H` returns the ancestor-or-self of `i` at the
greatest height that the chain contains, and the null pointer when there is none. -/
theorem FindFork_general {t : List CBlockIndex} (hwf : WFTree t) (vChain : List (Option Nat))
    {i : Nat} {node : CBlockIndex} (hi : t[i]? = some node) {H : Nat}
    (hH : node.nHeight = (H : Int)) (fuel : Nat) (hfuel : H + 1 ≤ fuel) :
    ∃ r, FindFork t fuel vChain (some i) = some r ∧
      (∀ f, r = some f → ∃ m2, m2 ≤ H ∧ naiveAncestor t (H - m2) i = some f ∧
        Contains t vChain f = true ∧
        ∀ k g, m2 < k → k ≤ H → naiveAncestor t (H - k) i = some g →
          Contains t vChain g = false) ∧
      (r = none → ∀ k g, k ≤ H → naiveAncestor t (H - k) i = some g →
        Contains t vChain g = false) := by
  have hhigh : ∀ k g, vChain.length ≤ k → k ≤ H → naiveAncestor t (H - k) i = some g →
      Contains t vChain g = false := by
    intro k g h1 h2 hg
    obtain ⟨gn, hgn, hgh⟩ := naiveAncestor_node hwf (H - k) i g node hi hg
    exact not_Contains_of_high vChain hgn (by rw [hgh, hH]; omega)
  rw [FindFork]
  simp only [hi, Height]
  by_cases hcmp : node.nHeight > (vChain.length : Int) - 1
  · rw [if_pos hcmp]
    rcases Nat.eq_zero_or_pos vChain.length with hl | hl
    · have hga : GetAncestor t i ((vChain.length : Int) - 1) = some none := by
        rw [GetAncestor, hi]
        simp only
        rw [if_pos (Or.inr (by omega))]
      rw [hga]
      simp only [FindForkLoop]
      refine ⟨none, rfl, fun f hf => Option.noConfusion hf, ?_⟩
      intro _ k g hk hg
      exact hhigh k g (by omega) hk hg
    · have e : (vChain.length : Int) - 1 = ((vChain.length - 1 : Nat) : Int) := by omega
      rw [e, GetAncestor_eq hwf hi hH (vChain.length - 1) (by omega)]
      obtain ⟨c, cn, hc, _, _⟩ := ancestor_at hwf hi hH (vChain.length - 1) (by omega)
      rw [hc]
      simp only
      obtain ⟨r, hr, hsome, hnone⟩ := FindForkLoop_spec hwf vChain hi hH (vChain.length - 1)
        fuel c (by omega) (by omega) hc
      refine ⟨r, hr, ?_, ?_⟩
      · intro f hf
        obtain ⟨m2, h1, h2, h3, h4⟩ := hsome f hf
        refine ⟨m2, by omega, h2, h3, ?_⟩
        intro k g hk1 hk2 hg
        by_cases hkl : k ≤ vChain.length - 1
        · exact h4 k g hk1 hkl hg
        · exact hhigh k g (by omega) hk2 hg
      · intro hr2 k g hk hg
        by_cases hkl : k ≤ vChain.length - 1
        · exact hnone hr2 k g hkl hg
        · exact hhigh k g (by omega) hk hg
  · rw [if_neg hcmp]
    exact FindForkLoop_spec hwf vChain hi hH H fuel i (le_refl _) (by omega)
      (by rw [Nat.sub_self]; exact naiveAncestor_zero hi)
end CChain

namespace CChain
open CBlockIndex
/-- A node is contained in the chain exactly when the slot at its height holds it. -/
theorem Contains_iff {t : List CBlockIndex} (vChain : List (Option Nat)) {g : Nat}
    {gn : CBlockIndex} (hg : t[g]? = some gn) {k : Nat} (hk : gn.nHeight = (k : Int)) :
    Contains t vChain g = true ↔ vChain[k]? = some (some g) := by
  rw [Contains, hg]
  simp only [decide_eq_true_eq, get, hk, Int.toNat_ofNat]
  by_cases hl : k < vChain.length
  · rw [if_neg (by omega), List.getD_eq_getElem?_getD, List.getElem?_eq_getElem hl]
    simp
  · rw [if_pos (Or.inr (by omega)), List.getElem?_eq_none (by omega)]
    simp

/-- C15: in a well-formed tree, `FindFork` on a node `i` (given fuel for its at most
`nHeight + 1` iterations) returns a node that is an ancestor-or-self of `i`, is contained
in the chain, and is at least as high as every ancestor-or-self of `i` that the chain
contains; it returns the null pointer exactly when the chain contains no ancestor-or-self
of `i`, in particular on the empty chain, and on the null pointer.  When the chain holds
the path to a node `a` whose ancestors agree with those of `i` at the heights below `k`
and differ from `k` on, the result is the shared node at height `k - 1`. -/
theorem FindFork_spec {t : List CBlockIndex} (hwf : WFTree t) (vChain : List (Option Nat))
    (i : Nat) (node : CBlockIndex) (hi : t[i]? = some node) (fuel : Nat)
    (hfuel : node.nHeight + 1 ≤ (fuel : Int)) :
    (∃ r, FindFork t fuel vChain (some i) = some r ∧
      (∀ f, r = some f → ∃ fn, t[f]? = some fn ∧ (∃ n, naiveAncestor t n i = some f) ∧
        Contains t vChain f = true ∧
        ∀ n g gn, naiveAncestor t n i = some g → t[g]? = some gn →
          Contains t vChain g = true → gn.nHeight ≤ fn.nHeight) ∧
      (r = none → ∀ n g, naiveAncestor t n i = some g → Contains t vChain g = false)) ∧
    FindFork t fuel vChain none = some none ∧
    FindFork t fuel [] (some i) = some none ∧
    (∀ (a : Nat) (an : CBlockIndex) (k : Nat), t[a]? = some an → HoldsPath t vChain a →
      1 ≤ k → (k : Int) ≤ an.nHeight + 1 → (k : Int) ≤ node.nHeight + 1 →
      (∀ h : Nat, h < k → naiveAncestor t (an.nHeight.toNat - h) a =
        naiveAncestor t (node.nHeight.toNat - h) i) →
      (∀ h : Nat, k ≤ h → (h : Int) ≤ an.nHeight → (h : Int) ≤ node.nHeight →
        naiveAncestor t (an.nHeight.toNat - h) a ≠
          naiveAncestor t (node.nHeight.toNat - h) i) →
      ∃ s sn, FindFork t fuel vChain (some i) = some (some s) ∧
        naiveAncestor t (node.nHeight.toNat - (k - 1)) i = some s ∧
        naiveAncestor t (an.nHeight.toNat - (k - 1)) a = some s ∧
        t[s]? = some sn ∧ sn.nHeight = (k : Int) - 1) := by
  have h0 := height_nonneg hwf hi
  obtain ⟨H, hH⟩ := Int.eq_ofNat_of_zero_le h0
  have hHn : node.nHeight.toNat = H := by omega
  -- every ancestor-or-self of `i` is the naive ancestor at some height `k ≤ H`
  have hanc : ∀ n g, naiveAncestor t n i = some g →
      ∃ gn, t[g]? = some gn ∧ n ≤ H ∧ gn.nHeight = ((H - n : Nat) : Int) := by
    intro n g hg
    obtain ⟨gn, hgn, hgh⟩ := naiveAncestor_node hwf n i g node hi hg
    have := height_nonneg hwf hgn
    exact ⟨gn, hgn, by omega, by omega⟩
  have hgen : ∀ v : List (Option Nat), ∃ r, FindFork t fuel v (some i) = some r ∧
      (∀ f, r = some f → ∃ m2, m2 ≤ H ∧ naiveAncestor t (H - m2) i = some f ∧
        Contains t v f = true ∧
        ∀ k g, m2 < k → k ≤ H → naiveAncestor t (H - k) i = some g →
          Contains t v g = false) ∧
      (r = none → ∀ k g, k ≤ H → naiveAncestor t (H - k) i = some g →
        Contains t v g = false) :=
    fun v => FindFork_general hwf v hi hH fuel (by omega)
  refine ⟨?_, rfl, ?_, ?_⟩
  · obtain ⟨r, hr, hsome, hnone⟩ := hgen vChain
    refine ⟨r, hr, ?_, ?_⟩
    · intro f hf
      obtain ⟨m2, h1, h2, h3, h4⟩ := hsome f hf
      obtain ⟨fn, hfn, _, hfh⟩ := hanc _ f h2
      refine ⟨fn, hfn, ⟨_, h2⟩, h3, ?_⟩
      intro n g gn hg hgn hcont
      obtain ⟨gn2, hgn2, hn, hgh⟩ := hanc n g hg
      rw [hgn] at hgn2
      cases hgn2
      by_contra hlt
      have hg2 : naiveAncestor t (H - (H - n)) i = some g := by
        rw [show H - (H - n) = n by omega]; exact hg
      rw [h4 (H - n) g (by omega) (by omega) hg2] at hcont
      exact Bool.noConfusion hcont
    · intro hr2 n g hg
      obtain ⟨gn, hgn, hn, hgh⟩ := hanc n g hg
      have hg2 : naiveAncestor t (H - (H - n)) i = some g := by
        rw [show H - (H - n) = n by omega]; exact hg
      exact hnone hr2 (H - n) g (by omega) hg2
  · obtain ⟨r, hr, hsome, _⟩ := hgen []
    rw [hr]
    cases r with
    | none => rfl
    | some f =>
      obtain ⟨m2, _, h2, h3, _⟩ := hsome f rfl
      obtain ⟨fn, hfn, _, _⟩ := hanc _ f h2
      rw [not_Contains_of_high [] hfn (by simpa using height_nonneg hwf hfn)] at h3
      exact Bool.noConfusion h3
  · intro a an k ha hpath hk1 hka hki hshare hdiv
    obtain ⟨an2, han2, hlen, hslots⟩ := hpath
    rw [ha] at han2
    cases han2
    have ha0 := height_nonneg hwf ha
    obtain ⟨A, hA⟩ := Int.eq_ofNat_of_zero_le ha0
    have hAn : an.nHeight.toNat = A := by omega
    have hL : vChain.length = A + 1 := by omega
    rw [hAn, hHn] at hshare hdiv ⊢
    obtain ⟨s, sn, hs1, hs2, hs3⟩ := ancestor_at hwf hi hH (k - 1) (by omega)
    have hsa : naiveAncestor t (A - (k - 1)) a = some s := by
      rw [hshare (k - 1) (by omega)]; exact hs1
    have hslot : ∀ m, m ≤ A → vChain[m]? = some (naiveAncestor t (A - m) a) := by
      intro m hm
      rw [hslots m (by omega), hL]
      congr 2
    have hscont : Contains t vChain s = true := by
      rw [Contains_iff vChain hs2 hs3, hslot (k - 1) (by omega), hsa]
    obtain ⟨r, hr, hsome, hnone⟩ := hgen vChain
    refine ⟨s, sn, ?_, hs1, hsa, hs2, by rw [hs3]; omega⟩
    rw [hr]
    cases r with
    | none =>
      rw [hnone rfl (k - 1) s (by omega) hs1] at hscont
      exact Bool.noConfusion hscont
    | some f =>
      obtain ⟨m2, h1, h2, h3, h4⟩ := hsome f rfl
      obtain ⟨fn, hfn, _, hfh⟩ := hanc _ f h2
      have hfh2 : fn.nHeight = (m2 : Int) := by rw [hfh]; omega
      have hm2A : m2 ≤ A := by
        by_contra hc
        rw [not_Contains_of_high vChain hfn (by rw [hfh2, hL]; omega)] at h3
        exact Bool.noConfusion h3
      have hfa : naiveAncestor t (A - m2) a = some f := by
        have := (Contains_iff vChain hfn hfh2).mp h3
        rw [hslot m2 hm2A] at this
        exact Option.some.inj this
      have hlo : k - 1 ≤ m2 := by
        by_contra hc
        rw [h4 (k - 1) s (by omega) (by omega) hs1] at hscont
        exact Bool.noConfusion hscont
      have hhi : m2 < k := by
        by_contra hc
        exact hdiv m2 (by omega) (by omega) (by omega) (by rw [hfa, h2])
      have hm : m2 = k - 1 := by omega
      rw [hm, hs1] at h2
      rw [Option.some.inj h2]

/-- Witness of C15: the chain holds `0 .. 5`, the branch of the fork `6` shares the
heights `0 .. 2` with it, and `FindFork` returns the node `2`. -/
theorem FindFork_spec_witness :
    WFTree sampleTree ∧
    FindFork sampleTree 4 [some 0, some 1, some 2, some 3, some 4, some 5] (some 6) =
      some (some 2) ∧
    ∃ r, FindFork sampleTree 4 [some 0, some 1, some 2, some 3, some 4, some 5] (some 6) =
        some r ∧
      (∀ f, r = some f → ∃ fn, sampleTree[f]? = some fn ∧
        (∃ n, naiveAncestor sampleTree n 6 = some f) ∧
        Contains sampleTree [some 0, some 1, some 2, some 3, some 4, some 5] f = true ∧
        ∀ n g gn, naiveAncestor sampleTree n 6 = some g → sampleTree[g]? = some gn →
          Contains sampleTree [some 0, some 1, some 2, some 3, some 4, some 5] g = true →
          gn.nHeight ≤ fn.nHeight) ∧
      (r = none → ∀ n g, naiveAncestor sampleTree n 6 = some g →
        Contains sampleTree [some 0, some 1, some 2, some 3, some 4, some 5] g = false) :=
  ⟨by decide, by decide,
    (FindFork_spec (by decide) [some 0, some 1, some 2, some 3, some 4, some 5]
      6 ⟨some 2, some 1, 3, 0x1d00ffff, 1900, 16⟩ rfl 4 (by decide)).1⟩

end CChain

/-! ## The last common ancestor (C16, C17) -/

namespace CBlockIndex

/-- One step down from the ancestor at height `m + 1` is the ancestor at height `m`. -/
theorem ancestor_step {t : List CBlockIndex} (hwf : WFTree t) {i : Nat} {node : CBlockIndex}
    (hi : t[i]? = some node) {H : Nat} (hH : node.nHeight = (H : Int)) {m c : Nat}
    (hm : m + 1 ≤ H) (hc : naiveAncestor t (H - (m + 1)) i = some c) :
    ∃ cn p, t[c]? = some cn ∧ cn.pprev = some p ∧ naiveAncestor t (H - m) i = some p := by
  obtain ⟨cn, hcn, hch⟩ := naiveAncestor_node hwf (H - (m + 1)) i c node hi hc
  obtain ⟨p, prev, hp, hpg, _⟩ := pprev_of_pos hwf hcn (by rw [hch, hH]; omega)
  refine ⟨cn, p, hcn, hp, ?_⟩
  have e : H - m = (H - (m + 1)) + 1 := by omega
  rw [e, naiveAncestor_comp hc, naiveAncestor_succ_of_pprev hcn hp, naiveAncestor_zero hpg]

/-- The ancestor at height 0 has no predecessor. -/
theorem ancestor_root {t : List CBlockIndex} (hwf : WFTree t) {i : Nat} {node : CBlockIndex}
    (hi : t[i]? = some node) {H : Nat} (hH : node.nHeight = (H : Int)) {c : Nat}
    (hc : naiveAncestor t (H - 0) i = some c) :
    ∃ cn, t[c]? = some cn ∧ cn.pprev = none := by
  obtain ⟨cn, hcn, hch⟩ := naiveAncestor_node hwf (H - 0) i c node hi hc
  exact ⟨cn, hcn, pprev_of_zero hwf hcn (by rw [hch, hH, Nat.sub_zero]; omega)⟩

/-- The loop of `LastCommonAncestor` started at the ancestors of `a` and `b` at a common
height `m`: it ends at the first height from `m` down where the two ancestors are the same
node, with both pointers on that node, and with both pointers null when the ancestors
differ at every height down to 0. -/
theorem LastCommonAncestorLoop_spec {t : List CBlockIndex} (hwf : WFTree t) {a b : Nat}
    {an bn : CBlockIndex} (ha : t[a]? = some an) (hb : t[b]? = some bn) {A B : Nat}
    (hA : an.nHeight = (A : Int)) (hB : bn.nHeight = (B : Int)) (m : Nat) :
    ∀ (fuel ca cb : Nat), m ≤ A → m ≤ B → m + 1 ≤ fuel →
      naiveAncestor t (A - m) a = some ca → naiveAncestor t (B - m) b = some cb →
      (∃ m2 c, m2 ≤ m ∧
        LastCommonAncestorLoop t fuel (some ca) (some cb) = some (some c, some c) ∧
        naiveAncestor t (A - m2) a = some c ∧ naiveAncestor t (B - m2) b = some c ∧
        ∀ k, m2 < k → k ≤ m → naiveAncestor t (A - k) a ≠ naiveAncestor t (B - k) b) ∨
      (LastCommonAncestorLoop t fuel (some ca) (some cb) = some (none, none) ∧
        ∀ k, k ≤ m → naiveAncestor t (A - k) a ≠ naiveAncestor t (B - k) b) := by
  induction m with
  | zero =>
    intro fuel ca cb hmA hmB hfuel hca hcb
    obtain ⟨f, rfl⟩ : ∃ f, fuel = f + 1 := ⟨fuel - 1, by omega⟩
    by_cases heq : ca = cb
    · subst heq
      left
      refine ⟨0, ca, le_refl _, ?_, hca, hcb, fun k h1 h2 => absurd h1 (by omega)⟩
      rw [LastCommonAncestorLoop]
      simp
    · right
      obtain ⟨can, hcan, hpa⟩ := ancestor_root hwf ha hA hca
      obtain ⟨cbn, hcbn, hpb⟩ := ancestor_root hwf hb hB hcb
      refine ⟨?_, ?_⟩
      · rw [LastCommonAncestorLoop, if_pos heq]
        simp only [hcan, hcbn, hpa, hpb]
        rw [LastCommonAncestorLoop]
        intro x y hx _
        exact Option.noConfusion hx
      · intro k hk
        have hk0 : k = 0 := by omega
        subst hk0
        rw [hca, hcb]
        exact fun h => heq (Option.some.inj h)
  | succ m ih =>
    intro fuel ca cb hmA hmB hfuel hca hcb
    obtain ⟨f, rfl⟩ : ∃ f, fuel = f + 1 := ⟨fuel - 1, by omega⟩
    by_cases heq : ca = cb
    · subst heq
      left
      refine ⟨m + 1, ca, le_refl _, ?_, hca, hcb, fun k h1 h2 => absurd h1 (by omega)⟩
      rw [LastCommonAncestorLoop]
      simp
    · obtain ⟨can, pa, hcan, hpa, hpa2⟩ := ancestor_step hwf ha hA hmA hca
      obtain ⟨cbn, pb, hcbn, hpb, hpb2⟩ := ancestor_step hwf hb hB hmB hcb
      have hstep : LastCommonAncestorLoop t (f + 1) (some ca) (some cb) =
          LastCommonAncestorLoop t f (some pa) (some pb) := by
        rw [LastCommonAncestorLoop, if_pos heq]
        simp only [hcan, hcbn, hpa, hpb]
      have htop : naiveAncestor t (A - (m + 1)) a ≠ naiveAncestor t (B - (m + 1)) b := by
        rw [hca, hcb]
        exact fun h => heq (Option.some.inj h)
      rcases ih f pa pb (by omega) (by omega) (by omega) hpa2 hpb2 with
        ⟨m2, c, h1, h2, h3, h4, h5⟩ | ⟨h1, h2⟩
      · left
        refine ⟨m2, c, by omega, by rw [hstep]; exact h2, h3, h4, ?_⟩
        intro k hk1 hk2
        by_cases hkm : k = m + 1
        · subst hkm; exact htop
        · exact h5 k hk1 (by omega)
      · right
        refine ⟨by rw [hstep]; exact h1, ?_⟩
        intro k hk
        by_cases hkm : k = m + 1
        · subst hkm; exact htop
        · exact h2 k (by omega)

end CBlockIndex

namespace CBlockIndex
/-- Function `LastCommonAncestor` on two nodes of a well-formed arena never fails its assertion:
it returns the common ancestor at the greatest height where the ancestors of `a` and `b`
are the same node, and the null pointer when they differ at every height. -/
theorem LastCommonAncestor_general {t : List CBlockIndex} (hwf : WFTree t) {a b : Nat}
    {an bn : CBlockIndex} (ha : t[a]? = some an) (hb : t[b]? = some bn) {A B : Nat}
    (hA : an.nHeight = (A : Int)) (hB : bn.nHeight = (B : Int)) (fuel : Nat)
    (hfuel : min A B + 1 ≤ fuel) :
    (∃ m2 c, m2 ≤ A ∧ m2 ≤ B ∧
      LastCommonAncestor t fuel a b = Outcome.returned (some c) ∧
      naiveAncestor t (A - m2) a = some c ∧ naiveAncestor t (B - m2) b = some c ∧
      ∀ k, m2 < k → k ≤ A → k ≤ B →
        naiveAncestor t (A - k) a ≠ naiveAncestor t (B - k) b) ∨
    (LastCommonAncestor t fuel a b = Outcome.returned none ∧
      ∀ k, k ≤ A → k ≤ B → naiveAncestor t (A - k) a ≠ naiveAncestor t (B - k) b) := by
  -- the state after the two calls of `GetAncestor`
  obtain ⟨ca, _, hca, _, _⟩ := ancestor_at hwf ha hA (min A B) (Nat.min_le_left _ _)
  obtain ⟨cb, _, hcb, _, _⟩ := ancestor_at hwf hb hB (min A B) (Nat.min_le_right _ _)
  have hstart : LastCommonAncestor t fuel a b =
      match LastCommonAncestorLoop t fuel (some ca) (some cb) with
      | none => Outcome.noFuel
      | some (pa, pb) => if pa = pb then Outcome.returned pa else Outcome.assertFailed := by
    rw [LastCommonAncestor]
    simp only [ha, hb, hA, hB]
    by_cases h1 : (A : Int) > (B : Int)
    · have hmin : min A B = B := by omega
      rw [hmin] at hca hcb
      rw [Nat.sub_self, naiveAncestor_zero hb] at hcb
      cases hcb
      rw [if_pos h1, CChain.GetAncestor_eq hwf ha hA B (by omega), hca]
      rfl
    · rw [if_neg h1]
      by_cases h2 : (B : Int) > (A : Int)
      · have hmin : min A B = A := by omega
        rw [hmin] at hca hcb
        rw [Nat.sub_self, naiveAncestor_zero ha] at hca
        cases hca
        rw [if_pos h2, CChain.GetAncestor_eq hwf hb hB A (by omega), hcb]
        rfl
      · have hAB : A = B := by omega
        subst hAB
        rw [Nat.min_self, Nat.sub_self] at hca hcb
        rw [naiveAncestor_zero ha] at hca
        rw [naiveAncestor_zero hb] at hcb
        cases hca
        cases hcb
        rw [if_neg h2]
  rw [hstart]
  rcases LastCommonAncestorLoop_spec hwf ha hb hA hB (min A B) fuel ca cb
      (Nat.min_le_left _ _) (Nat.min_le_right _ _) hfuel hca hcb with
    ⟨m2, c, h1, h2, h3, h4, h5⟩ | ⟨h1, h2⟩
  · left
    have hmA : min A B ≤ A := Nat.min_le_left _ _
    have hmB : min A B ≤ B := Nat.min_le_right _ _
    refine ⟨m2, c, by omega, by omega, ?_, h3, h4, ?_⟩
    · rw [h2]
      simp
    · intro k hk1 hk2 hk3
      exact h5 k hk1 (by omega)
  · right
    refine ⟨?_, ?_⟩
    · rw [h1]
      simp
    · intro k hk1 hk2
      exact h2 k (by omega)
end CBlockIndex

namespace CBlockIndex
/-- C16: for two nodes `a` and `b` of a well-formed arena whose walks down `pprev` end at the
same root, `LastCommonAncestor` (given fuel for its at most `min + 1` iterations) returns,
without failing an assertion, a node that is an ancestor-or-self of both and at least as
high as every common ancestor-or-self; the result does not depend on the order of the
arguments, and the last common ancestor of `a` with itself is `a`. -/
theorem LastCommonAncestor_spec {t : List CBlockIndex} (hwf : WFTree t) (a b : Nat)
    (an bn : CBlockIndex) (ha : t[a]? = some an) (hb : t[b]? = some bn)
    (hroot : naiveAncestor t an.nHeight.toNat a = naiveAncestor t bn.nHeight.toNat b)
    (fuel : Nat) (hfuel : min an.nHeight bn.nHeight + 1 ≤ (fuel : Int)) :
    (∃ c cn, LastCommonAncestor t fuel a b = Outcome.returned (some c) ∧
      t[c]? = some cn ∧
      (∃ n, naiveAncestor t n a = some c) ∧ (∃ n, naiveAncestor t n b = some c) ∧
      ∀ g gn n1 n2, naiveAncestor t n1 a = some g → naiveAncestor t n2 b = some g →
        t[g]? = some gn → gn.nHeight ≤ cn.nHeight) ∧
    LastCommonAncestor t fuel a b = LastCommonAncestor t fuel b a ∧
    LastCommonAncestor t fuel a a = Outcome.returned (some a) := by
  obtain ⟨A, hA⟩ := Int.eq_ofNat_of_zero_le (height_nonneg hwf ha)
  obtain ⟨B, hB⟩ := Int.eq_ofNat_of_zero_le (height_nonneg hwf hb)
  have hAn : an.nHeight.toNat = A := by omega
  have hBn : bn.nHeight.toNat = B := by omega
  rw [hAn, hBn] at hroot
  have hf1 : min A B + 1 ≤ fuel := by omega
  have hf2 : min B A + 1 ≤ fuel := by omega
  have hr0 : naiveAncestor t (A - 0) a = naiveAncestor t (B - 0) b := hroot
  rcases LastCommonAncestor_general hwf ha hb hA hB fuel hf1 with
    ⟨m2, c, h1, h2, h3, h4, h5, h6⟩ | ⟨_, hno⟩
  swap
  · exact absurd hr0 (hno 0 (by omega) (by omega))
  rcases LastCommonAncestor_general hwf hb ha hB hA fuel hf2 with
    ⟨m3, d, k1, k2, k3, k4, k5, k6⟩ | ⟨_, hno⟩
  swap
  · exact absurd hr0.symm (hno 0 (by omega) (by omega))
  obtain ⟨cn, hcn, hch⟩ := naiveAncestor_node hwf (A - m2) a c an ha h4
  refine ⟨⟨c, cn, h3, hcn, ⟨_, h4⟩, ⟨_, h5⟩, ?_⟩, ?_, ?_⟩
  · intro g gn n1 n2 hg1 hg2 hgn
    obtain ⟨gn1, hgn1, hgh1⟩ := naiveAncestor_node hwf n1 a g an ha hg1
    obtain ⟨gn2, hgn2, hgh2⟩ := naiveAncestor_node hwf n2 b g bn hb hg2
    rw [hgn] at hgn1 hgn2
    cases hgn1
    cases hgn2
    have hg0 := height_nonneg hwf hgn
    by_contra hlt
    have e1 : A - (A - n1) = n1 := by omega
    have e2 : B - (A - n1) = n2 := by omega
    refine h6 (A - n1) (by omega) (by omega) (by omega) ?_
    rw [e1, e2, hg1, hg2]
  · rw [h3, k3]
    have hm : m2 = m3 := by
      by_contra hne
      rcases Nat.lt_or_gt_of_ne hne with hlt | hgt
      · exact h6 m3 hlt k2 k1 (by rw [k5, k4])
      · exact k6 m2 hgt h2 h1 (by rw [h5, h4])
    subst hm
    rw [h4] at k5
    rw [Option.some.inj k5]
  · rw [LastCommonAncestor]
    simp only [ha, gt_iff_lt, lt_self_iff_false, if_false]
    cases fuel <;> simp [LastCommonAncestorLoop]

/-- Witness of C16 on the sample tree: the tip `5` and the fork `6` meet at the node `2`. -/
theorem LastCommonAncestor_spec_witness :
    WFTree sampleTree ∧
    naiveAncestor sampleTree 5 5 = naiveAncestor sampleTree 3 6 ∧
    LastCommonAncestor sampleTree 4 5 6 = Outcome.returned (some 2) ∧
    LastCommonAncestor sampleTree 4 5 6 = LastCommonAncestor sampleTree 4 6 5 ∧
    LastCommonAncestor sampleTree 4 5 5 = Outcome.returned (some 5) :=
  ⟨by decide, by decide, by decide,
    (LastCommonAncestor_spec (by decide) 5 6 ⟨some 4, some 1, 5, 0x1d00ffff, 3000, 15⟩
      ⟨some 2, some 1, 3, 0x1d00ffff, 1900, 16⟩ rfl rfl (by decide) 4 (by decide)).2⟩
end CBlockIndex

namespace CBlockIndex
/-- Two nodes without a common ancestor-or-self: both walks of `LastCommonAncestor` leave
their roots in the same iteration, the assertion `pa == pb` holds on two null pointers,
and the null pointer is returned. -/
theorem LastCommonAncestor_of_disjoint {t : List CBlockIndex} (hwf : WFTree t) {a b : Nat}
    {an bn : CBlockIndex} (ha : t[a]? = some an) (hb : t[b]? = some bn)
    (hno : ∀ n1 n2 g, naiveAncestor t n1 a = some g → naiveAncestor t n2 b ≠ some g)
    (fuel : Nat) (hfuel : min an.nHeight bn.nHeight + 1 ≤ (fuel : Int)) :
    LastCommonAncestor t fuel a b = Outcome.returned none := by
  obtain ⟨A, hA⟩ := Int.eq_ofNat_of_zero_le (height_nonneg hwf ha)
  obtain ⟨B, hB⟩ := Int.eq_ofNat_of_zero_le (height_nonneg hwf hb)
  rcases LastCommonAncestor_general hwf ha hb hA hB fuel (by omega) with
    ⟨m2, c, _, _, _, h4, h5, _⟩ | ⟨h, _⟩
  · exact absurd h5 (hno _ _ c h4)
  · exact h

/-- C17: on the sample arena with two roots the walks from the nodes `2` and `3` reach the
roots `0` and `1` of height 0 and share no node; the claim, like the assertion
`assert(pa == pb)` under the comment that all branches meet at the genesis block, calls
for a halt, yet `LastCommonAncestor` returns the null pointer, and its assertion fails for
no amount of fuel: two null pointers compare equal. -/
theorem LastCommonAncestor_counterexample :
    WFTree sampleForest ∧
    naiveAncestor sampleForest 1 2 = some 0 ∧ naiveAncestor sampleForest 1 3 = some 1 ∧
    sampleForest[0]?.map (fun n => n.nHeight) = some 0 ∧
    sampleForest[1]?.map (fun n => n.nHeight) = some 0 ∧
    (∀ n1 n2 g, naiveAncestor sampleForest n1 2 = some g →
      naiveAncestor sampleForest n2 3 ≠ some g) ∧
    LastCommonAncestor sampleForest 2 2 3 = Outcome.returned none ∧
    ∀ fuel, LastCommonAncestor sampleForest fuel 2 3 ≠ Outcome.assertFailed := by
  have hno : ∀ n1 n2 g, naiveAncestor sampleForest n1 2 = some g →
      naiveAncestor sampleForest n2 3 ≠ some g := by
    intro n1 n2 g h1 h2
    have e1 : g = 2 ∨ g = 0 := by
      rcases n1 with _ | _ | n1
      · left; exact (Option.some.inj h1).symm
      · right; exact (Option.some.inj h1).symm
      · exact absurd h1 (by simp [naiveAncestor, sampleForest])
    have e2 : g = 3 ∨ g = 1 := by
      rcases n2 with _ | _ | n2
      · left; exact (Option.some.inj h2).symm
      · right; exact (Option.some.inj h2).symm
      · exact absurd h2 (by simp [naiveAncestor, sampleForest])
    omega
  refine ⟨by decide, by decide, by decide, by decide, by decide, hno, by decide, ?_⟩
  intro fuel
  rcases fuel with _ | _ | fuel
  · decide
  · decide
  · have h2 : sampleForest[2]? = some ⟨some 0, some 0, 1, 0x1d00ffff, 600, 22⟩ := rfl
    have h3 : sampleForest[3]? = some ⟨some 1, some 1, 1, 0x1d00ffff, 600, 23⟩ := rfl
    rw [LastCommonAncestor_of_disjoint (by decide) h2 h3 hno (fuel + 2)
      (by simp only [min_self]; omega)]
    exact fun h => Outcome.noConfusion h

/-- What the assertion of `LastCommonAncestor` misses, on every input of that kind: for two
nodes of a well-formed arena whose walks down `pprev` share no node (they end at two
different roots of height 0), the run (given fuel for its `min + 1` iterations) ends with
both pointers null, so the comparison `pa == pb` holds and the null pointer is
returned. -/
theorem LastCommonAncestor_disjoint {t : List CBlockIndex} (hwf : WFTree t) (a b : Nat)
    (an bn : CBlockIndex) (ha : t[a]? = some an) (hb : t[b]? = some bn)
    (hno : ∀ n1 n2 g, naiveAncestor t n1 a = some g → naiveAncestor t n2 b ≠ some g)
    (fuel : Nat) (hfuel : min an.nHeight bn.nHeight + 1 ≤ (fuel : Int)) :
    (∃ ra rb rna rnb, naiveAncestor t an.nHeight.toNat a = some ra ∧
      naiveAncestor t bn.nHeight.toNat b = some rb ∧ t[ra]? = some rna ∧
      t[rb]? = some rnb ∧ rna.nHeight = 0 ∧ rnb.nHeight = 0 ∧ ra ≠ rb) ∧
    LastCommonAncestor t fuel a b = Outcome.returned none := by
  refine ⟨?_, LastCommonAncestor_of_disjoint hwf ha hb hno fuel hfuel⟩
  have ha0 := height_nonneg hwf ha
  have hb0 := height_nonneg hwf hb
  obtain ⟨ra, rna, h1, h2, h3⟩ :=
    naiveAncestor_height hwf an.nHeight.toNat a an ha (by omega)
  obtain ⟨rb, rnb, k1, k2, k3⟩ :=
    naiveAncestor_height hwf bn.nHeight.toNat b bn hb (by omega)
  refine ⟨ra, rb, rna, rnb, h1, k1, h2, k2, by omega, by omega, ?_⟩
  intro heq
  subst heq
  exact hno _ _ ra h1 k1

/-- The sample arena with two roots is an instance of `LastCommonAncestor_disjoint`. -/
theorem LastCommonAncestor_disjoint_witness :
    WFTree sampleForest ∧
    LastCommonAncestor sampleForest 2 2 3 = Outcome.returned none :=
  ⟨by decide,
    (LastCommonAncestor_disjoint (by decide) 2 3 ⟨some 0, some 0, 1, 0x1d00ffff, 600, 22⟩
      ⟨some 1, some 1, 1, 0x1d00ffff, 600, 23⟩ rfl rfl
      (fun n1 n2 g h1 h2 => by
        have e1 : g = 2 ∨ g = 0 := by
          rcases n1 with _ | _ | n1
          · left; exact (Option.some.inj h1).symm
          · right; exact (Option.some.inj h1).symm
          · exact absurd h1 (by simp [naiveAncestor, sampleForest])
        have e2 : g = 3 ∨ g = 1 := by
          rcases n2 with _ | _ | n2
          · left; exact (Option.some.inj h2).symm
          · right; exact (Option.some.inj h2).symm
          · exact absurd h2 (by simp [naiveAncestor, sampleForest])
        omega)
      2 (by decide)).2⟩
end CBlockIndex

/-! ## The block locator (C18) -/

theorem wrapInt32_eq (x : Int) (h1 : -(2 ^ 31) ≤ x) (h2 : x < 2 ^ 31) : wrapInt32 x = x := by
  rw [wrapInt32]
  omega

namespace CChain
open CBlockIndex

/-- The next pointer of `GetLocator`, whether read from the chain (when the chain contains
the current node `c`) or found by `GetAncestor`, is the ancestor of `c` at the new
height. -/
theorem locator_next {t : List CBlockIndex} (hwf : WFTree t) (vChain : List (Option Nat))
    (hv : vChain = [] ∨ ∃ tip, HoldsPath t vChain tip) {c : Nat} {cn : CBlockIndex}
    (hc : t[c]? = some cn) {h : Nat} (hh : cn.nHeight = (h : Int)) (h2 : Nat) (hle : h2 ≤ h) :
    (if Contains t vChain c = true then some (get vChain (h2 : Int))
      else GetAncestor t c (h2 : Int)) = some (naiveAncestor t (h - h2) c) := by
  by_cases hcont : Contains t vChain c = true
  · rw [if_pos hcont]
    rcases hv with h0 | ⟨tip, tipn, htip, hlen, hslots⟩
    · rw [h0, not_Contains_of_high [] hc (by simpa using height_nonneg hwf hc)] at hcont
      exact Bool.noConfusion hcont
    · have hslot := (Contains_iff vChain hc hh).mp hcont
      have hlt : h < vChain.length := by
        by_contra hge
        rw [List.getElem?_eq_none (by omega)] at hslot
        exact Option.noConfusion hslot
      rw [hslots h hlt] at hslot
      have hca : naiveAncestor t (vChain.length - 1 - h) tip = some c := Option.some.inj hslot
      congr 1
      rw [get, if_neg (by omega), Int.toNat_ofNat, List.getD_eq_getElem?_getD,
        hslots h2 (by omega), Option.getD_some, ← naiveAncestor_comp hca]
      congr 1
      omega
  · rw [if_neg hcont]
    exact GetAncestor_eq hwf hc hh h2 hle

end CChain

namespace CChain
open CBlockIndex
/-- The loop of `GetLocator` at the ancestor `c` of height `h` of the node `i` (of height
`H`), with `nStep = 2 ^ max (k - 10) 0` after `k` hashes and `h + nStep` within the range of
`int`: it appends the hashes of the ancestors of `i` at the heights `locatorHeights`
lists. -/
theorem GetLocatorLoop_spec {t : List CBlockIndex} (hwf : WFTree t)
    (vChain : List (Option Nat)) (hv : vChain = [] ∨ ∃ tip, HoldsPath t vChain tip) {i : Nat}
    {node : CBlockIndex} (hi : t[i]? = some node) {H : Nat} (hH : node.nHeight = (H : Int))
    (fuel : Nat) :
    ∀ (h c : Nat) (nStep : Int) (acc : List Nat), h ≤ H → h + 1 ≤ fuel →
      naiveAncestor t (H - h) i = some c →
      (0 < h → nStep = ((2 ^ (acc.length - 10) : Nat) : Int) ∧
        h + 2 ^ (acc.length - 10) ≤ 2 ^ 31) →
      ∃ out, GetLocatorLoop t vChain fuel (some c) nStep acc = some (acc ++ out) ∧
        List.Forall₂ (fun hash h2 => ∃ j anc, naiveAncestor t (H - h2) i = some j ∧
          t[j]? = some anc ∧ anc.nHeight = (h2 : Int) ∧ anc.hash = hash)
          out (locatorHeights fuel h acc.length) := by
  induction fuel with
  | zero =>
    intro h c nStep acc _ hfuel
    omega
  | succ f ih =>
    intro h c nStep acc hle hfuel hc hstep
    obtain ⟨cn, hcn, hch⟩ := naiveAncestor_node hwf (H - h) i c node hi hc
    have hch2 : cn.nHeight = (h : Int) := by rw [hch, hH]; omega
    have hrel : ∃ j anc, naiveAncestor t (H - h) i = some j ∧ t[j]? = some anc ∧
        anc.nHeight = (h : Int) ∧ anc.hash = cn.hash := ⟨c, cn, hc, hcn, hch2, rfl⟩
    rw [GetLocatorLoop, locatorHeights]
    simp only [hcn]
    by_cases h0 : h = 0
    · subst h0
      have hz : cn.nHeight = 0 := by rw [hch2]; rfl
      rw [if_pos hz, if_pos rfl]
      exact ⟨[cn.hash], rfl, List.Forall₂.cons hrel List.Forall₂.nil⟩
    · rw [if_neg (by rw [hch2]; omega), if_neg h0]
      obtain ⟨hs1, hs2⟩ := hstep (by omega)
      have hpos : 0 < 2 ^ (acc.length - 10) := by positivity
      generalize hsdef : 2 ^ (acc.length - 10) = s at hs1 hs2 hpos
      have hnext : max (wrapInt32 (cn.nHeight - nStep)) 0 = ((h - s : Nat) : Int) := by
        rw [wrapInt32_eq _ (by omega) (by omega)]
        omega
      obtain ⟨c2, _, hc2, _, _⟩ := ancestor_at hwf hi hH (h - s) (by omega)
      have hq : (if Contains t vChain c = true then some (get vChain ((h - s : Nat) : Int))
          else GetAncestor t c ((h - s : Nat) : Int)) = some (some c2) := by
        rw [locator_next hwf vChain hv hcn hch2 (h - s) (by omega), ← hc2,
          ← naiveAncestor_comp hc]
        congr 2
        omega
      rw [hnext, hq]
      simp only
      obtain ⟨out, hout, hall⟩ := ih (h - s) c2
        (if (acc ++ [cn.hash]).length > 10 then wrapInt32 (nStep * 2) else nStep)
        (acc ++ [cn.hash]) (by omega) (by omega) hc2 (by
          intro hpos2
          rw [List.length_append, List.length_singleton]
          by_cases hk : acc.length + 1 > 10
          · rw [if_pos hk]
            have e : acc.length + 1 - 10 = (acc.length - 10) + 1 := by omega
            rw [e, pow_succ, hsdef]
            refine ⟨?_, by omega⟩
            rw [wrapInt32_eq _ (by omega) (by omega), hs1]
            push_cast
            ring
          · rw [if_neg hk]
            have e : acc.length + 1 - 10 = 0 := by omega
            have e2 : acc.length - 10 = 0 := by omega
            rw [e2, pow_zero] at hsdef
            rw [e, pow_zero]
            refine ⟨by rw [hs1, ← hsdef], by omega⟩)
      rw [List.length_append, List.length_singleton] at hall
      refine ⟨cn.hash :: out, ?_, List.Forall₂.cons hrel hall⟩
      rw [hout, List.append_assoc]
      rfl
end CChain

namespace CChain
open CBlockIndex
/-- The list `locatorHeights` starts at `h`, ends at 0, and from its entry `j` to the
next the height drops by `2 ^ max (k + j - 10) 0`, clamped at 0 and strictly. -/
theorem locatorHeights_props (fuel : Nat) :
    ∀ h k, h + 1 ≤ fuel →
      (locatorHeights fuel h k).head? = some h ∧
      (locatorHeights fuel h k).getLast? = some 0 ∧
      ∀ j x y, (locatorHeights fuel h k)[j]? = some x →
        (locatorHeights fuel h k)[j + 1]? = some y → y < x ∧ y = x - 2 ^ (k + j - 10) := by
  induction fuel with
  | zero =>
    intro h k hf
    omega
  | succ f ih =>
    intro h k hf
    rw [locatorHeights]
    by_cases h0 : h = 0
    · subst h0
      rw [if_pos rfl]
      refine ⟨rfl, rfl, ?_⟩
      intro j x y _ hy
      simp at hy
    · rw [if_neg h0]
      have hpos : 0 < 2 ^ (k - 10) := by positivity
      obtain ⟨i1, i2, i3⟩ := ih (h - 2 ^ (k - 10)) (k + 1) (by omega)
      generalize locatorHeights f (h - 2 ^ (k - 10)) (k + 1) = rest at i1 i2 i3
      cases rest with
      | nil => simp at i1
      | cons r rs =>
        have hr : r = h - 2 ^ (k - 10) := by simpa using i1
        refine ⟨rfl, by rw [List.getLast?_cons_cons]; exact i2, ?_⟩
        intro j x y hx hy
        cases j with
        | zero =>
          have ex : x = h := by simpa using hx.symm
          have ey : y = r := by simpa using hy.symm
          rw [ex, ey, hr, Nat.add_zero]
          exact ⟨by omega, rfl⟩
        | succ j =>
          have hx2 : (r :: rs)[j]? = some x := by simpa using hx
          have hy2 : (r :: rs)[j + 1]? = some y := by simpa using hy
          have := i3 j x y hx2 hy2
          have e : k + 1 + j = k + (j + 1) := by omega
          rw [e] at this
          exact this

/-- C18: for a node `i` of a well-formed tree whose height fits an `int`, and a chain that is
empty or holds a path (whether or not it contains `i`), `GetLocator` (given fuel for its at
most `nHeight + 1` iterations) returns a list of hashes `vHave` together with the heights
`hs` they come from: every hash is that of the ancestor-or-self of `i` at its height, the
first is `i` itself, the last the block of height 0, the heights decrease strictly, and
after the hash number `j + 1` the height drops by `2 ^ max (j + 1 - 11) 0`, clamped at 0. -/
theorem GetLocator_spec {t : List CBlockIndex} (hwf : WFTree t) (vChain : List (Option Nat))
    (hv : vChain = [] ∨ ∃ tip, HoldsPath t vChain tip) (i : Nat) (node : CBlockIndex)
    (hi : t[i]? = some node) (hmax : node.nHeight < 2 ^ 31) (fuel : Nat)
    (hfuel : node.nHeight + 1 ≤ (fuel : Int)) :
    ∃ (vHave : List Nat) (hs : List Nat),
      GetLocator t fuel vChain (some i) = some vHave ∧
      List.Forall₂ (fun hash h => ∃ j anc,
        naiveAncestor t (node.nHeight.toNat - h) i = some j ∧ t[j]? = some anc ∧
        anc.nHeight = (h : Int) ∧ anc.hash = hash) vHave hs ∧
      hs.head? = some node.nHeight.toNat ∧ vHave.head? = some node.hash ∧
      hs.getLast? = some 0 ∧
      ∀ j x y, hs[j]? = some x → hs[j + 1]? = some y → y < x ∧ y = x - 2 ^ (j + 1 - 11) := by
  obtain ⟨H, hH⟩ := Int.eq_ofNat_of_zero_le (height_nonneg hwf hi)
  have hHn : node.nHeight.toNat = H := by omega
  rw [hHn]
  obtain ⟨out, hout, hall⟩ := GetLocatorLoop_spec hwf vChain hv hi hH fuel H i 1 []
    (le_refl _) (by omega) (by rw [Nat.sub_self]; exact naiveAncestor_zero hi)
    (fun _ => ⟨by simp, by simp; omega⟩)
  obtain ⟨p1, p2, p3⟩ := locatorHeights_props fuel H 0 (by omega)
  simp only [List.length_nil, List.nil_append] at hout hall
  generalize locatorHeights fuel H 0 = hs at hall p1 p2 p3
  refine ⟨out, hs, hout, hall, p1, ?_, p2, ?_⟩
  · cases hall with
    | nil => simp at p1
    | cons hhead _ =>
      obtain ⟨j, anc, h1, h2, _, h4⟩ := hhead
      have e := Option.some.inj p1
      simp only at e
      rw [e, Nat.sub_self, naiveAncestor_zero hi] at h1
      cases h1
      rw [hi] at h2
      cases h2
      simp [h4]
  · intro j x y hx hy
    have := p3 j x y hx hy
    rw [Nat.zero_add] at this
    have e : j + 1 - 11 = j - 10 := by omega
    rw [e]
    exact this

/-- Witness of C18: the locator of the tip of a chain of 20 blocks lists the heights
`19, 18, ..., 9, 8, 6, 2, 0`. -/
theorem GetLocator_spec_witness :
    WFTree sampleLine ∧
    HoldsPath sampleLine ((List.range 20).map some) 19 ∧
    GetLocator sampleLine 20 ((List.range 20).map some) (some 19) =
      some [119, 118, 117, 116, 115, 114, 113, 112, 111, 110, 109, 108, 106, 102, 100] ∧
    ∃ (vHave : List Nat) (hs : List Nat),
      GetLocator sampleLine 20 ((List.range 20).map some) (some 19) = some vHave ∧
      List.Forall₂ (fun hash h => ∃ j anc,
        naiveAncestor sampleLine ((19 : Int).toNat - h) 19 = some j ∧
        sampleLine[j]? = some anc ∧ anc.nHeight = (h : Int) ∧ anc.hash = hash) vHave hs ∧
      hs.head? = some (19 : Int).toNat ∧ vHave.head? = some 119 ∧
      hs.getLast? = some 0 ∧
      ∀ j x y, hs[j]? = some x → hs[j + 1]? = some y → y < x ∧ y = x - 2 ^ (j + 1 - 11) :=
  ⟨by decide, ⟨⟨some 18, none, 19, 0x1d00ffff, 11400, 119⟩, rfl, by decide, by decide⟩,
    by decide,
    GetLocator_spec (by decide) ((List.range 20).map some)
      (Or.inr ⟨19, ⟨some 18, none, 19, 0x1d00ffff, 11400, 119⟩, rfl, by decide, by decide⟩)
      19 ⟨some 18, none, 19, 0x1d00ffff, 11400, 119⟩ rfl (by decide) 20 (by decide)⟩

end CChain

/-! ## Decoding the packed form never rounds up (C21) -/

namespace arith_uint256
open base_uint

/-- A number between `256 ^ (e - 1)` and `256 ^ e` has `e` bytes. -/
theorem byteLength_eq {x e : Nat} (he : 0 < e) (h1 : 256 ^ (e - 1) ≤ x) (h2 : x < 256 ^ e) :
    (Nat.size x + 7) / 8 = e := by
  rw [pow256] at h1 h2
  have hs1 : Nat.size x ≤ 8 * e := Nat.size_le.mpr h2
  have hs2 : 8 * (e - 1) < Nat.size x := Nat.lt_size.mpr h1
  omega

/-- The packed form with positive sign, from the byte length `e0` and the three top bytes
`m0`. -/
theorem compactOfNat_of {v e0 m0 : Nat} (he : (Nat.size v + 7) / 8 = e0)
    (hm : (if e0 ≤ 3 then v * 256 ^ (3 - e0) else v / 256 ^ (e0 - 3)) = m0) :
    compactOfNat v false =
      (if 2 ^ 23 ≤ m0 then m0 / 256 else m0) + 2 ^ 24 * (if 2 ^ 23 ≤ m0 then e0 + 1 else e0) := by
  simp only [compactOfNat, Bool.false_eq_true, false_and, if_false, Nat.add_zero]
  rw [he, hm]

/-- The exponent byte of the packed form with positive sign. -/
theorem compactOfNat_exponent {v e0 m0 : Nat} (he : (Nat.size v + 7) / 8 = e0)
    (hm : (if e0 ≤ 3 then v * 256 ^ (3 - e0) else v / 256 ^ (e0 - 3)) = m0) :
    compactOfNat v false >>> 24 = if 2 ^ 23 ≤ m0 then e0 + 1 else e0 := by
  have hlt := compact_mantissa_lt v
  rw [he, hm] at hlt
  rw [compactOfNat_of he hm, Nat.shiftRight_eq_div_pow]
  by_cases hb : 2 ^ 23 ≤ m0
  · simp only [if_pos hb]; omega
  · simp only [if_neg hb]; omega

end arith_uint256

namespace arith_uint256
open base_uint
/-- Clearing the bytes of `v` that its packed form drops (those below position `E - 3`)
loses nothing when `v` has at most 16 bits, loses less than `2 ^ (bitLength - 16)`
otherwise, and leaves the packed form unchanged. -/
theorem compactOfNat_round (v : Nat) :
    ∀ k, k = compactOfNat v false >>> 24 - 3 →
      (Nat.size v ≤ 16 → v / 256 ^ k * 256 ^ k = v) ∧
      (16 < Nat.size v → v - v / 256 ^ k * 256 ^ k < 2 ^ (Nat.size v - 16)) ∧
      compactOfNat (v / 256 ^ k * 256 ^ k) false = compactOfNat v false := by
  intro k hk
  obtain ⟨hb1, hb2⟩ := byteLength_bounds v
  have hpos16 : 0 < 2 ^ (Nat.size v - 16) := by positivity
  have htriv : k = 0 → (Nat.size v ≤ 16 → v / 256 ^ k * 256 ^ k = v) ∧
      (16 < Nat.size v → v - v / 256 ^ k * 256 ^ k < 2 ^ (Nat.size v - 16)) ∧
      compactOfNat (v / 256 ^ k * 256 ^ k) false = compactOfNat v false := by
    intro h0
    subst h0
    rw [pow_zero, Nat.div_one, Nat.mul_one]
    exact ⟨fun _ => rfl, fun _ => by omega, rfl⟩
  by_cases hc : (Nat.size v + 7) / 8 ≤ 3
  · -- at most three bytes
    have hE := compactOfNat_exponent (v := v) rfl rfl
    rw [if_pos hc] at hE
    by_cases hb : 2 ^ 23 ≤ v * 256 ^ (3 - (Nat.size v + 7) / 8)
    · rw [if_pos hb] at hE
      by_cases h3 : (Nat.size v + 7) / 8 = 3
      · -- three bytes with the top bit set: the low byte is dropped
        rw [h3] at hE hb hb1
        have hk1 : k = 1 := by omega
        subst hk1
        norm_num at hb hb1
        have hs : Nat.size v = 24 := by
          have : 23 < Nat.size v := Nat.lt_size.mpr (by norm_num; exact hb)
          omega
        have hd3 : (Nat.size (v / 256 * 256) + 7) / 8 = 3 :=
          byteLength_eq (by norm_num) (by norm_num; omega) (by norm_num; omega)
        refine ⟨fun h => by omega, fun _ => ?_, ?_⟩
        · rw [hs]
          norm_num
          omega
        · have hmd : (if 3 ≤ 3 then v / 256 * 256 * 256 ^ (3 - 3)
              else v / 256 * 256 / 256 ^ (3 - 3)) = v / 256 * 256 := by norm_num
          have hmv : (if 3 ≤ 3 then v * 256 ^ (3 - 3) else v / 256 ^ (3 - 3)) = v := by
            norm_num
          have e1 : 2 ^ 23 ≤ v / 256 * 256 := by omega
          have e2 : 2 ^ 23 ≤ v := by omega
          have e3 : v / 256 * 256 / 256 = v / 256 := by omega
          rw [pow_one, compactOfNat_of hd3 hmd, compactOfNat_of h3 hmv, if_pos e1, if_pos e1,
            if_pos e2, if_pos e2, e3]
      · exact htriv (by omega)
    · rw [if_neg hb] at hE
      exact htriv (by omega)
  · -- more than three bytes
    have he3 : 3 < (Nat.size v + 7) / 8 := by omega
    have hE := compactOfNat_exponent (v := v) rfl rfl
    rw [if_neg hc] at hE
    have hv0 : v ≠ 0 := by
      intro h0
      rw [h0, Nat.size_zero] at he3
      omega
    have hlow := hb2 hv0
    have hs16 : ¬ Nat.size v ≤ 16 := by omega
    have hp1 : (256 : Nat) ^ ((Nat.size v + 7) / 8 - 1) =
        2 ^ 16 * 256 ^ ((Nat.size v + 7) / 8 - 3) := by
      have e : (Nat.size v + 7) / 8 - 1 = 2 + ((Nat.size v + 7) / 8 - 3) := by omega
      rw [e, pow_add]
      norm_num
    have hp2 : (256 : Nat) ^ ((Nat.size v + 7) / 8) =
        2 ^ 24 * 256 ^ ((Nat.size v + 7) / 8 - 3) := by
      have e : (Nat.size v + 7) / 8 = 3 + ((Nat.size v + 7) / 8 - 3) := by omega
      conv_lhs => rw [e]
      rw [pow_add]
      norm_num
    have hpp : 0 < 256 ^ ((Nat.size v + 7) / 8 - 3) := by positivity
    have hm16 : 2 ^ 16 ≤ v / 256 ^ ((Nat.size v + 7) / 8 - 3) := by
      rw [Nat.le_div_iff_mul_le hpp, ← hp1]
      exact hlow
    by_cases hb : 2 ^ 23 ≤ v / 256 ^ ((Nat.size v + 7) / 8 - 3)
    · -- the top bit of the top byte is set: two bytes are kept
      rw [if_pos hb] at hE
      have hk2 : k = ((Nat.size v + 7) / 8 - 3) + 1 := by omega
      have hvb : 2 ^ 23 * 256 ^ ((Nat.size v + 7) / 8 - 3) ≤ v :=
        (Nat.le_div_iff_mul_le hpp).mp hb
      have hsize : 8 * ((Nat.size v + 7) / 8) ≤ Nat.size v := by
        have h1 : 2 ^ (23 + 8 * ((Nat.size v + 7) / 8 - 3)) ≤ v := by
          rw [pow_add, ← pow256]; exact hvb
        have := Nat.lt_size.mpr h1
        omega
      have hdiv : v / 256 ^ k = v / 256 ^ ((Nat.size v + 7) / 8 - 3) / 256 := by
        rw [hk2, pow_succ, Nat.div_div_eq_div_mul]
      have hd : v / 256 ^ k * 256 ^ k =
          (v / 256 ^ ((Nat.size v + 7) / 8 - 3) / 256 * 256) *
            256 ^ ((Nat.size v + 7) / 8 - 3) := by
        rw [hdiv, hk2, pow_succ]
        ring
      have hmod : v - v / 256 ^ k * 256 ^ k < 256 ^ k := by
        have h1 := Nat.div_add_mod v (256 ^ k)
        have h2 : v % 256 ^ k < 256 ^ k := Nat.mod_lt _ (by positivity)
        rw [Nat.mul_comm] at h1
        omega
      have hdle : v / 256 ^ k * 256 ^ k ≤ v := Nat.div_mul_le_self _ _
      refine ⟨fun h => absurd h hs16, fun _ => ?_, ?_⟩
      · refine lt_of_lt_of_le hmod ?_
        rw [pow256]
        exact Nat.pow_le_pow_right (by norm_num) (by omega)
      · have hm0d : v / 256 ^ k * 256 ^ k / 256 ^ ((Nat.size v + 7) / 8 - 3) =
            v / 256 ^ ((Nat.size v + 7) / 8 - 3) / 256 * 256 := by
          rw [hd, Nat.mul_div_cancel _ hpp]
        have hde : (Nat.size (v / 256 ^ k * 256 ^ k) + 7) / 8 = (Nat.size v + 7) / 8 := by
          apply byteLength_eq (by omega)
          · rw [hp1, hd]
            exact Nat.mul_le_mul_right _ (by omega)
          · exact lt_of_le_of_lt hdle hb1
        have hmd : (if (Nat.size v + 7) / 8 ≤ 3
              then v / 256 ^ k * 256 ^ k * 256 ^ (3 - (Nat.size v + 7) / 8)
              else v / 256 ^ k * 256 ^ k / 256 ^ ((Nat.size v + 7) / 8 - 3)) =
            v / 256 ^ ((Nat.size v + 7) / 8 - 3) / 256 * 256 := by
          rw [if_neg hc, hm0d]
        have hmv : (if (Nat.size v + 7) / 8 ≤ 3
              then v * 256 ^ (3 - (Nat.size v + 7) / 8)
              else v / 256 ^ ((Nat.size v + 7) / 8 - 3)) =
            v / 256 ^ ((Nat.size v + 7) / 8 - 3) := if_neg hc
        rw [compactOfNat_of hde hmd, compactOfNat_of rfl hmv]
        generalize v / 256 ^ ((Nat.size v + 7) / 8 - 3) = m0 at hb
        have e1 : 2 ^ 23 ≤ m0 / 256 * 256 := by omega
        have e3 : m0 / 256 * 256 / 256 = m0 / 256 := by omega
        rw [if_pos e1, if_pos e1, if_pos hb, if_pos hb, e3]
    · -- three bytes are kept
      rw [if_neg hb] at hE
      have hk2 : k = (Nat.size v + 7) / 8 - 3 := by omega
      subst hk2
      have hmod : v - v / 256 ^ ((Nat.size v + 7) / 8 - 3) * 256 ^ ((Nat.size v + 7) / 8 - 3) <
          256 ^ ((Nat.size v + 7) / 8 - 3) := by
        have h1 := Nat.div_add_mod v (256 ^ ((Nat.size v + 7) / 8 - 3))
        have h2 : v % 256 ^ ((Nat.size v + 7) / 8 - 3) < 256 ^ ((Nat.size v + 7) / 8 - 3) :=
          Nat.mod_lt _ hpp
        rw [Nat.mul_comm] at h1
        omega
      have hdle : v / 256 ^ ((Nat.size v + 7) / 8 - 3) * 256 ^ ((Nat.size v + 7) / 8 - 3) ≤ v :=
        Nat.div_mul_le_self _ _
      refine ⟨fun h => absurd h hs16, fun _ => ?_, ?_⟩
      · refine lt_of_lt_of_le hmod ?_
        rw [pow256]
        exact Nat.pow_le_pow_right (by norm_num) (by omega)
      · have hde : (Nat.size (v / 256 ^ ((Nat.size v + 7) / 8 - 3) *
            256 ^ ((Nat.size v + 7) / 8 - 3)) + 7) / 8 = (Nat.size v + 7) / 8 := by
          apply byteLength_eq (by omega)
          · rw [hp1]
            exact Nat.mul_le_mul_right _ hm16
          · exact lt_of_le_of_lt hdle hb1
        have hmd : (if (Nat.size v + 7) / 8 ≤ 3
              then v / 256 ^ ((Nat.size v + 7) / 8 - 3) * 256 ^ ((Nat.size v + 7) / 8 - 3) *
                256 ^ (3 - (Nat.size v + 7) / 8)
              else v / 256 ^ ((Nat.size v + 7) / 8 - 3) * 256 ^ ((Nat.size v + 7) / 8 - 3) /
                256 ^ ((Nat.size v + 7) / 8 - 3)) =
            v / 256 ^ ((Nat.size v + 7) / 8 - 3) := by
          rw [if_neg hc, Nat.mul_div_cancel _ hpp]
        have hmv : (if (Nat.size v + 7) / 8 ≤ 3
              then v * 256 ^ (3 - (Nat.size v + 7) / 8)
              else v / 256 ^ ((Nat.size v + 7) / 8 - 3)) =
            v / 256 ^ ((Nat.size v + 7) / 8 - 3) := if_neg hc
        rw [compactOfNat_of hde hmd, compactOfNat_of rfl hmv]
end arith_uint256

namespace arith_uint256
open base_uint
/-- C21: for every well-formed 256-bit value `a`, `GetCompact a false` succeeds, and
`SetCompact` of the result raises neither `fNegative` nor `fOverflow` and stores a value
`d` that never exceeds `a`, equals `a` when `a` has at most 16 bits, and otherwise differs
from `a` by less than `2 ^ (bits a - 16)`; packing `d` again gives the same word. -/
theorem compact_decode_encode {a : List Nat} (h : WF a) :
    ∃ nBits, GetCompact a false = some nBits ∧
      (SetCompact nBits).fNegative = false ∧ (SetCompact nBits).fOverflow = false ∧
      toNat (SetCompact nBits).value ≤ toNat a ∧
      (bits a ≤ 16 → toNat (SetCompact nBits).value = toNat a) ∧
      (16 < bits a → toNat a - toNat (SetCompact nBits).value < 2 ^ (bits a - 16)) ∧
      GetCompact (SetCompact nBits).value false = some nBits := by
  obtain ⟨_, hn, ho, hval, hle, _⟩ := SetCompact_compactOfNat (toNat a) (toNat_lt h)
  obtain ⟨r1, r2, r3⟩ := compactOfNat_round (toNat a) _ rfl
  refine ⟨compactOfNat (toNat a) false, GetCompact_eq h false, hn, ho, hle, ?_, ?_, ?_⟩
  · intro hb
    rw [bits_eq h] at hb
    rw [hval]
    exact r1 hb
  · intro hb
    rw [bits_eq h] at hb ⊢
    rw [hval]
    exact r2 hb
  · rw [GetCompact_eq (SetCompact_value _).1 false, hval, r3]

/-- Witness of C21: `0x12345678` is packed as `0x04123456`, which decodes to
`0x12345600`. -/
theorem compact_decode_encode_witness :
    WF (ofUInt64 0x12345678) ∧
    GetCompact (ofUInt64 0x12345678) false = some 0x04123456 ∧
    toNat (SetCompact 0x04123456).value = 0x12345600 ∧
    bits (ofUInt64 0x12345678) = 29 ∧
    ∃ nBits, GetCompact (ofUInt64 0x12345678) false = some nBits ∧
      (SetCompact nBits).fNegative = false ∧ (SetCompact nBits).fOverflow = false ∧
      toNat (SetCompact nBits).value ≤ toNat (ofUInt64 0x12345678) ∧
      (bits (ofUInt64 0x12345678) ≤ 16 →
        toNat (SetCompact nBits).value = toNat (ofUInt64 0x12345678)) ∧
      (16 < bits (ofUInt64 0x12345678) →
        toNat (ofUInt64 0x12345678) - toNat (SetCompact nBits).value <
          2 ^ (bits (ofUInt64 0x12345678) - 16)) ∧
      GetCompact (SetCompact nBits).value false = some nBits :=
  ⟨by decide, by decide, by decide, by decide, compact_decode_encode (by decide)⟩
end arith_uint256
